import Mathlib

/-!
# A shallow embedding of the static histogram engine

Sources embedded here:

* `include/boost/histogram/storage/array_storage.hpp`  (`array_storage<T>`, `counter_traits<T>`)
* `include/boost/histogram/static_histogram.hpp`       (`static_histogram<Axes, Storage>`)
* `include/boost/histogram/axis_ostream_operators.hpp` (the stream operators of the axes)

Conventions of the embedding.

* `std::size_t` values are natural numbers, every arithmetic step on them is reduced
  modulo `size_t_mod = 2 ^ 64`.
* The heap array `array_` of a storage is a list; `array_[i]` outside the list is undefined
  behaviour in C++ and reads as `0` / writes nothing here.  The statements about counters
  are made for offsets inside the array.
* Counter types carry their own arithmetic: `ZMod (2 ^ w)` for the `w`-bit unsigned
  integers, whose operators obey the laws of a semiring; for `double` the rational values
  with every operation rounded to the nearest `double` (`fl`, round to nearest, ties to
  even), whose operators obey no such law.
* Thrown exceptions are values of `Except error _`.
* A `std::ostream` is the text written to it so far; the formatting of numbers by the
  stream is a parameter (`number_format`).
* Calls that a `static_assert` rejects do not exist as programs; the corresponding model
  functions leave the histogram untouched and the theorems assume the asserted condition.
-/

namespace histogram

/-! ## Machine integers -/

/-- Number of values of `std::size_t`; offsets and strides wrap modulo this number. -/
def size_t_mod : Nat := 2 ^ 64

/-! ## Counter types -/

/-! ### Rounding to `double` -/

/-- `2 ^ e` for an integer exponent `e`. -/
def two_pow (e : Int) : ℚ :=
  if 0 ≤ e then ((2 ^ e.toNat : Nat) : ℚ) else 1 / ((2 ^ (-e).toNat : Nat) : ℚ)

/-- Rounding to the nearest integer, a tie going to the even one. -/
def round_half_even (x : ℚ) : Int :=
  if x - (Int.floor x : ℚ) < 1 / 2 then Int.floor x
  else if 1 / 2 < x - (Int.floor x : ℚ) then Int.floor x + 1
  else if Int.floor x % 2 = 0 then Int.floor x
  else Int.floor x + 1

/-- The number of halvings that bring `n` below 2, at most `fuel` of them. -/
def halvings : Nat → Nat → Nat
  | 0, _ => 0
  | fuel + 1, n => if 2 ≤ n then halvings fuel (n / 2) + 1 else 0

/-- The binary logarithm of a natural number `n ≥ 1`, rounded down. -/
def log2_floor (n : Nat) : Nat := halvings n n

/-- The binary exponent of a number `x ≠ 0`: the integer `k` with `2 ^ k ≤ |x| < 2 ^ (k + 1)`. -/
def ilog2 (x : ℚ) : Int :=
  if two_pow ((log2_floor x.num.natAbs : Int) - (log2_floor x.den : Int)) ≤
      (x.num.natAbs : ℚ) / (x.den : ℚ) then
    (log2_floor x.num.natAbs : Int) - (log2_floor x.den : Int)
  else (log2_floor x.num.natAbs : Int) - (log2_floor x.den : Int) - 1

/-- The rounding of a real number to a `double` (IEEE 754 binary64, round to nearest, ties to
even): 53 significant bits, the exponent of the last bit not below `-1074`.  Results beyond
the largest finite `double` (overflow to infinity) are not modelled. -/
def fl (x : ℚ) : ℚ :=
  if x = 0 then 0
  else (round_half_even (x / two_pow (max (ilog2 x - 52) (-1074))) : ℚ) *
    two_pow (max (ilog2 x - 52) (-1074))

/-! ### The classes of counter types -/

/-- Counter types `T`: the operators of `T` that the storage and the histogram use (`T(0)`,
`++`, `+=`, `*=`, the conversion of an `unsigned` count to `T`), the numeric value of a
counter, which the implicit conversion `T -> double` rounds to a `double`, and the implicit
conversion `double -> T`.  No law is assumed of the operators: they are those of the counter
type, whether they wrap around, truncate or round. -/
class counter (T : Type) extends Zero T, One T, Add T, Mul T, NatCast T where
  /-- implicit conversion `double -> T` -/
  of_double : ℚ → T
  /-- the numeric value of a counter -/
  to_double : T → ℚ
  /-- `T(0)` has the value 0 -/
  to_double_zero : to_double 0 = 0

/-- Counter types `T` with exact arithmetic (those served by the primary template
`detail::counter_traits<T>`, whose `value_type` is `T` itself, and whose operators obey the
laws of a semiring, as the unsigned integers do modulo `2 ^ w`).  The semiring operations are
the operators of `T` in the counter's own arithmetic; the two extra fields are the numeric
value of a counter and the implicit conversion `double -> T`. -/
class arithmetic (T : Type) extends Semiring T where
  /-- implicit conversion `double -> T` -/
  of_double : ℚ → T
  /-- the numeric value of a counter -/
  to_double : T → ℚ
  /-- `T(0)` has the value 0 -/
  to_double_zero : to_double 0 = 0

/-- A counter type with exact arithmetic is a counter type. -/
instance arithmetic.to_counter {T : Type} [arithmetic T] : counter T :=
  { toZero := inferInstance
    toOne := inferInstance
    toAdd := inferInstance
    toMul := inferInstance
    toNatCast := inferInstance
    of_double := arithmetic.of_double
    to_double := arithmetic.to_double
    to_double_zero := arithmetic.to_double_zero }

/-- The counter type `double`: a value of the type is a rational number (the image of `fl`),
and every operator rounds its exact result. -/
structure double where
  val : ℚ
  deriving DecidableEq

/-- The operators of `double`. -/
instance double_counter : counter double :=
  { zero := { val := 0 }
    one := { val := 1 }
    add := fun a b => { val := fl (a.val + b.val) }
    mul := fun a b => { val := fl (a.val * b.val) }
    natCast := fun n => { val := fl (n : ℚ) }
    of_double := fun q => { val := fl q }
    to_double := fun d => d.val
    to_double_zero := rfl }

/-- The counter type of the `w`-bit unsigned integers (`unsigned` is `uint 32`,
`unsigned char` is `uint 8`): arithmetic modulo `2 ^ w`. -/
abbrev uint (w : Nat) : Type := ZMod (2 ^ w)

/-- Conversions of the `w`-bit unsigned integers: `double -> unsigned` drops the fractional
part (a number outside the range of the type is undefined behaviour in C++; here it is
reduced modulo `2 ^ w`, a negative one gives 0), `unsigned -> double` is the numeric value. -/
instance unsigned_counter (w : Nat) : arithmetic (uint w) where
  of_double := fun q => ((Int.toNat (Int.floor q) : Nat) : uint w)
  to_double := fun c => ((ZMod.val c : Nat) : ℚ)
  to_double_zero := by simp

/-- `detail::counter_traits<T>::value`, primary template. -/
def counter_traits.value {T : Type} (t : T) : T := t

/-- `detail::counter_traits<T>::increase_by_count`, primary template: `lhs += n`. -/
def counter_traits.increase_by_count {T : Type} [Add T] (lhs n : T) : T := lhs + n

/-- `detail::counter_traits<T>::increase_by_weight`, primary template: `lhs += w`. -/
def counter_traits.increase_by_weight {T : Type} [Add T] (lhs w : T) : T := lhs + w

/-! ## `array_storage<T>` -/

/-- The two data members of `array_storage<T>`. -/
structure array_storage (T : Type) where
  size_ : Nat
  array_ : List T

namespace array_storage

variable {T : Type}

/-- Subscript `array_[i]` (reads `0` outside the allocation, see the header comment). -/
def at_ [Zero T] (s : array_storage T) (i : Nat) : T := s.array_.getD i 0

/-- Assignment `array_[i] = v`. -/
def put (s : array_storage T) (i : Nat) (v : T) : array_storage T :=
  { s with array_ := s.array_.set i v }

/-- `for (i = 0; i < n; ++i) body(i)` acting on a storage. -/
def for_upto (n : Nat) (body : Nat → array_storage T → array_storage T)
    (s : array_storage T) : array_storage T :=
  (List.range n).foldl (fun acc i => body i acc) s

/-- `array_storage::reset(size)`: `size_ = size; array_.reset(new T[size])`.  The fresh cells
are indeterminate in C++; the model writes `0` in them and every caller overwrites them. -/
def reset [Zero T] (size : Nat) : array_storage T :=
  { size_ := size, array_ := List.replicate size 0 }

/-- `array_storage::init(size)`: `reset(size)` followed by
`std::fill(array_.get(), array_.get() + size, T(0))`. -/
def init [Zero T] (size : Nat) : array_storage T :=
  for_upto size (fun i acc => acc.put i 0) (reset size)

/-- `explicit array_storage(std::size_t s) { init(s); }`. -/
def ctor [Zero T] (s : Nat) : array_storage T := init s

/-- `array_storage::size()`. -/
def size (s : array_storage T) : Nat := s.size_

/-- `array_storage::increase(i)`: `++array_[i]`. -/
def increase [Zero T] [Add T] [One T] (s : array_storage T) (i : Nat) : array_storage T :=
  s.put i (s.at_ i + 1)

/-- `array_storage::increase_by_weight(i, w)`. -/
def increase_by_weight [Zero T] [Add T] (s : array_storage T) (i : Nat) (w : T) :
    array_storage T :=
  s.put i (counter_traits.increase_by_weight (s.at_ i) w)

/-- `array_storage::add(i, n)`. -/
def add [Zero T] [Add T] (s : array_storage T) (i : Nat) (n : T) : array_storage T :=
  s.put i (counter_traits.increase_by_count (s.at_ i) n)

/-- `array_storage::value(i)`. -/
def value [Zero T] (s : array_storage T) (i : Nat) : T := counter_traits.value (s.at_ i)

/-- `array_storage::operator+=(rhs)`: `for (i < size_) array_[i] += rhs.array_[i]`. -/
def add_assign [Zero T] [Add T] (s rhs : array_storage T) : array_storage T :=
  for_upto s.size_ (fun i acc => acc.put i (acc.at_ i + rhs.at_ i)) s

/-- `array_storage::operator*=(x)`: `for (i < size_) array_[i] *= x`. -/
def mul_assign [Zero T] [Mul T] (s : array_storage T) (x : T) : array_storage T :=
  for_upto s.size_ (fun i acc => acc.put i (acc.at_ i * x)) s

end array_storage

/-! ## Axes -/

/-- Modelled from the spec: the axis variants of `axis.hpp`, which is not among the sources.
Each variant carries the parameters the spec lists for it (bin count, min/max or explicit edge
list, label text, flow-enabled flag; an ordered category list for the category axis); these
are also the parameters printed by `axis_ostream_operators.hpp`.  Real parameters are
rationals. -/
inductive Axis where
  | regular_axis (bins : Nat) (min max : ℚ) (label : String) (uoflow : Bool)
  | polar_axis (bins : Nat) (start : ℚ) (label : String)
  | variable_axis (edges : List ℚ) (label : String) (uoflow : Bool)
  | integer_axis (min max : Int) (label : String) (uoflow : Bool)
  | category_axis (categories : List String)
  deriving DecidableEq

namespace Axis

/-- Modelled from the spec: `bins()`, the number of regular bins of an axis (`axis.hpp` is
not among the sources). -/
def bins : Axis → Nat
  | regular_axis n _ _ _ _ => n
  | polar_axis n _ _ => n
  | variable_axis edges _ _ => edges.length - 1
  | integer_axis lo hi _ _ => Int.toNat (hi - lo + 1)
  | category_axis categories => categories.length

/-- Modelled from the spec: the flow-enabled flag (`axis.hpp` is not among the sources).
Wrap-around and category axes never have flow bins. -/
def uoflow : Axis → Bool
  | regular_axis _ _ _ _ u => u
  | polar_axis _ _ _ => false
  | variable_axis _ _ u => u
  | integer_axis _ _ _ u => u
  | category_axis _ => false

/-- Modelled from the spec: `shape() = bins() + 2·flow_enabled` (`axis.hpp` is not among the
sources). -/
def shape (a : Axis) : Nat := a.bins + 2 * (if a.uoflow then 1 else 0)

/-- Modelled from the spec: the dedicated flow slot of an axis for an out-of-range lookup
result `j` (`detail/utility.hpp` is not among the sources).  Regular bins occupy the slots
`0 .. bins-1`, so the two flow slots are the remaining ones, `bins` (overflow) and `bins + 1`
(underflow). -/
def flow_slot (a : Axis) (j : Int) : Int := if j < 0 then (a.bins : Int) + 1 else (a.bins : Int)

/-- The slot of an axis that receives a lookup result `j`: the regular bin index when `j` is
in range, the dedicated flow slot otherwise. -/
def slot (a : Axis) (j : Int) : Int := if 0 ≤ j ∧ j < (a.bins : Int) then j else a.flow_slot j

/-- Modelled from the spec: the lookup of an integer axis, a direct clamped offset: `-1` below
the range, `bins` above it (`axis.hpp` is not among the sources).  Used by the concrete
examples; axes of another kind are not looked up with it (the value `-1` is a placeholder). -/
def integer_index : Axis → Int → Int
  | integer_axis lo hi _ _, x => if x < lo then -1 else if hi < x then hi - lo + 1 else x - lo
  | _, _ => -1

end Axis

/-! ## The index linearizer (`detail::lin`, `detail::xlin`) -/

namespace detail

/-- Modelled from the spec: one accumulation step `offset += axis_index · stride;
stride *= axis.shape()` of the linearizers (`detail/utility.hpp` is not among the sources),
in `std::size_t` arithmetic. -/
def accumulate (out stride : Nat) (a : Axis) (j : Int) : Nat × Nat :=
  ((out + Int.toNat (j % (size_t_mod : Int)) * stride) % size_t_mod,
   (stride * a.shape) % size_t_mod)

/-- Modelled from the spec: `detail::lin`, the strict (read mode) step
(`detail/utility.hpp` is not among the sources).  The index has to lie in `[0, shape)`;
an index outside that range sets the stride to 0. -/
def lin (out stride : Nat) (a : Axis) (j : Int) : Nat × Nat :=
  if 0 ≤ j ∧ j < (a.shape : Int) then accumulate out stride a j else (out, 0)

/-- Modelled from the spec: `detail::xlin`, the permissive (fill mode) step
(`detail/utility.hpp` is not among the sources).  The coordinate is converted by the axis
lookup `index`; an underflow/overflow result goes to the dedicated flow slot when flow is
enabled and otherwise marks the fill invalid (stride = 0). -/
def xlin {X : Type} (index : Axis → X → Int) (out stride : Nat) (a : Axis) (x : X) :
    Nat × Nat :=
  let j := index a x
  if 0 ≤ j ∧ j < (a.bins : Int) then accumulate out stride a j
  else if a.uoflow then accumulate out stride a (a.flow_slot j)
  else (out, 0)

/-- Modelled from the spec: the value that `detail::field_count_visitor` holds after
`fusion::for_each` has applied it to the axes (`detail/axis_visitor.hpp` is not among the
sources): the product of the shapes, accumulated axis by axis from 1. -/
def field_count (axes : List Axis) : Nat :=
  axes.foldl (fun value a => value * a.shape) 1

/-- Modelled from the spec: `detail::axes_equal` (`detail/utility.hpp` is not among the
sources): two axes sequences are equal when they agree in every parameter, in order. -/
def axes_equal (a b : List Axis) : Bool := decide (a = b)

end detail

/-! ## `static_histogram<Axes, Storage>` with `Storage = array_storage<T>` -/

/-- The exceptions thrown by the histogram. -/
inductive error where
  | out_of_range (what : String)
  | logic_error (what : String)
  deriving DecidableEq

/-- The tagged arguments of `fill`: a coordinate, `count{unsigned value}` or
`weight{double value}`. -/
inductive fill_arg (X : Type) where
  | coord (x : X)
  | count (value : Nat)
  | weight (value : ℚ)

/-- The two data members of `static_histogram`. -/
structure static_histogram (T : Type) where
  axes_ : List Axis
  storage_ : array_storage T

namespace static_histogram

variable {T : Type} {X : Type}

/-- `static_histogram::bincount_from_axes()`: the value of the visitor, returned as a
`std::size_t`. -/
def bincount_from_axes (axes : List Axis) : Nat := detail.field_count axes % size_t_mod

/-- `explicit static_histogram(const Axis&... axis)` and
`explicit static_histogram(axes_type&& axes)`: store the axes, then
`storage_ = Storage(bincount_from_axes())`. -/
def ctor [Zero T] (axes : List Axis) : static_histogram T :=
  { axes_ := axes, storage_ := array_storage.ctor (bincount_from_axes axes) }

/-- `static_histogram::dim()`. -/
def dim (h : static_histogram T) : Nat := h.axes_.length

/-- `static_histogram::bincount()`. -/
def bincount (h : static_histogram T) : Nat := h.storage_.size

/-- `static_histogram::lin<D>(idx, stride, x, rest...)`; the pair is `(idx, stride)`. -/
def lin (h : static_histogram T) : Nat → Nat × Nat → List Int → Nat × Nat
  | _, st, [] => st
  | D, st, x :: rest =>
    match h.axes_[D]? with
    | some a => lin h (D + 1) (detail.lin st.1 st.2 a x) rest
    | none => st

/-- `static_histogram::value(indices...)`. -/
def value [Zero T] (h : static_histogram T) (indices : List Int) : Except error T :=
  let r := h.lin 0 (0, 1) indices
  if r.2 = 0 then Except.error (error.out_of_range "invalid index")
  else Except.ok (h.storage_.value r.1)

/-- `static_histogram::xlin<D>(idx, stride, first, rest...)`. -/
def xlin (index : Axis → X → Int) (h : static_histogram T) :
    Nat → Nat × Nat → List X → Nat × Nat
  | _, st, [] => st
  | D, st, first :: rest =>
    match h.axes_[D]? with
    | some a => xlin index h (D + 1) (detail.xlin index st.1 st.2 a first) rest
    | none => st

/-- `static_histogram::xlin_n<D>(idx, stride, x, first, rest...)`: a `count` argument sets
`x` and consumes no axis position; the triple is `(idx, stride, x)`.  A `weight` argument
cannot occur here (`static_assert` in `fill`). -/
def xlin_n (index : Axis → X → Int) (h : static_histogram T) :
    Nat → Nat × Nat × Nat → List (fill_arg X) → Nat × Nat × Nat
  | _, st, [] => st
  | D, st, fill_arg.count v :: rest => xlin_n index h D (st.1, st.2.1, v) rest
  | D, st, fill_arg.coord first :: rest =>
    match h.axes_[D]? with
    | some a =>
      let r := detail.xlin index st.1 st.2.1 a first
      xlin_n index h (D + 1) (r.1, r.2, st.2.2) rest
    | none => st
  | _, st, fill_arg.weight _ :: _ => st

/-- `static_histogram::xlin_w<D>(idx, stride, x, first, rest...)`: a `weight` argument sets
`x` and consumes no axis position.  A `count` argument cannot occur here. -/
def xlin_w (index : Axis → X → Int) (h : static_histogram T) :
    Nat → Nat × Nat × ℚ → List (fill_arg X) → Nat × Nat × ℚ
  | _, st, [] => st
  | D, st, fill_arg.weight v :: rest => xlin_w index h D (st.1, st.2.1, v) rest
  | D, st, fill_arg.coord first :: rest =>
    match h.axes_[D]? with
    | some a =>
      let r := detail.xlin index st.1 st.2.1 a first
      xlin_w index h (D + 1) (r.1, r.2, st.2.2) rest
    | none => st
  | _, st, fill_arg.count _ :: _ => st

/-- `fill_impl(mpl::int_<0>, args...)`: the plain fill. -/
def fill_impl_0 [counter T] (index : Axis → X → Int) (h : static_histogram T)
    (args : List X) : static_histogram T :=
  let r := xlin index h 0 (0, 1) args
  if r.2 ≠ 0 then { h with storage_ := h.storage_.increase r.1 } else h

/-- `fill_impl(mpl::int_<1>, args...)`: the fill with a `count`; the `unsigned n` is converted
to the counter type by `storage_.add(idx, n)`. -/
def fill_impl_1 [counter T] (index : Axis → X → Int) (h : static_histogram T)
    (args : List (fill_arg X)) : static_histogram T :=
  let r := xlin_n index h 0 (0, 1, 0) args
  if r.2.1 ≠ 0 then { h with storage_ := h.storage_.add r.1 ((r.2.2 : Nat) : T) } else h

/-- `fill_impl(mpl::int_<2>, args...)`: the fill with a `weight`; the `double w` is converted
to the counter type by `storage_.increase_by_weight(idx, w)`. -/
def fill_impl_2 [counter T] (index : Axis → X → Int) (h : static_histogram T)
    (args : List (fill_arg X)) : static_histogram T :=
  let r := xlin_w index h 0 (0, 1, 0) args
  if r.2.1 ≠ 0 then
    { h with storage_ := h.storage_.increase_by_weight r.1 (counter.of_double r.2.2) }
  else h

/-- `mpl::count<mpl::vector<Args...>, count>`. -/
def n_count (args : List (fill_arg X)) : Nat :=
  args.countP (fun a => match a with | fill_arg.count _ => true | _ => false)

/-- `mpl::count<mpl::vector<Args...>, weight>`. -/
def n_weight (args : List (fill_arg X)) : Nat :=
  args.countP (fun a => match a with | fill_arg.weight _ => true | _ => false)

/-- The coordinates among the arguments, in order. -/
def coords (args : List (fill_arg X)) : List X :=
  args.filterMap (fun a => match a with | fill_arg.coord x => some x | _ => none)

/-- The two `static_assert`s of `fill`: at most one `count` or `weight`, and as many
coordinates as axes. -/
def fill_well_formed (h : static_histogram T) (args : List (fill_arg X)) : Prop :=
  n_count args + n_weight args ≤ 1 ∧ args.length = h.dim + n_count args + n_weight args

instance (h : static_histogram T) (args : List (fill_arg X)) :
    Decidable (fill_well_formed h args) := by
  unfold fill_well_formed; infer_instance

/-- `static_histogram::fill(args...)`: dispatch on `n_count + 2 * n_weight`. -/
def fill [counter T] (index : Axis → X → Int) (h : static_histogram T)
    (args : List (fill_arg X)) : static_histogram T :=
  if fill_well_formed h args then
    match n_count args + 2 * n_weight args with
    | 0 => fill_impl_0 index h (coords args)
    | 1 => fill_impl_1 index h args
    | _ => fill_impl_2 index h args
  else h

/-- `static_histogram::sum()`: `for (i < storage_.size()) result += storage_.value(i)`, the
accumulator being a `double`: each counter is converted to a `double` and each addition is a
`double` addition, so both round. -/
def sum [counter T] (h : static_histogram T) : ℚ :=
  (List.range h.storage_.size).foldl
    (fun result i => fl (result + fl (counter.to_double (h.storage_.value i)))) 0

/-- `static_histogram::reset()`. -/
def reset [Zero T] (h : static_histogram T) : static_histogram T :=
  { h with storage_ := array_storage.ctor (bincount_from_axes h.axes_) }

/-- `static_histogram::operator+=(const static_histogram<Axes, S>& rhs)`.  The result is the
outcome of the call (normal return or the exception thrown) together with the state of
`*this` after the call; the `throw` comes before any member is touched. -/
def add_assign [counter T] (h rhs : static_histogram T) :
    Except error Unit × static_histogram T :=
  if !detail.axes_equal h.axes_ rhs.axes_ then
    (Except.error (error.logic_error "axes of histograms differ"), h)
  else (Except.ok (), { h with storage_ := h.storage_.add_assign rhs.storage_ })

/-- `static_histogram::operator*=(const value_type rhs)`. -/
def mul_assign [counter T] (h : static_histogram T) (rhs : T) : static_histogram T :=
  { h with storage_ := h.storage_.mul_assign rhs }

/-- `static_histogram::operator/=(const value_type rhs)`: `storage_ *= 1.0 / rhs`, where
`1.0 / rhs` is a `double` that the parameter of `array_storage::operator*=` converts back to
`value_type`. -/
def div_assign [counter T] (h : static_histogram T) (rhs : T) : static_histogram T :=
  { h with storage_ :=
      h.storage_.mul_assign (counter.of_double (1 / counter.to_double rhs)) }

/-- The product of the shapes of the axes, as a number (no wrap-around). -/
def shape_product (axes : List Axis) : Nat := (axes.map Axis.shape).prod

/-- The invariants of the data model: at least one axis, and a storage whose length is the
product of the shapes of the axes (a `std::size_t`, hence below `size_t_mod`). -/
def invariant (h : static_histogram T) : Prop :=
  h.axes_ ≠ [] ∧ h.storage_.size_ = shape_product h.axes_ ∧
    h.storage_.array_.length = h.storage_.size_ ∧ h.storage_.size_ < size_t_mod

instance (h : static_histogram T) : Decidable (invariant h) := by
  unfold invariant; infer_instance

/-- An index tuple is valid when it has one index per axis, each in `[0, shape)`. -/
def valid_indices : List Axis → List Int → Prop
  | [], [] => True
  | a :: axes, j :: js => (0 ≤ j ∧ j < (a.shape : Int)) ∧ valid_indices axes js
  | _, _ => False

end static_histogram

/-! ## Auxiliary definitions used by the statements and the proofs -/

open static_histogram

/-- The recursion of `static_histogram::lin` run in lockstep over the axes that are left and
the indices that are left (see `lin_eq_lin_list`). -/
def lin_list : List Axis → Nat × Nat → List Int → Nat × Nat
  | a :: axes, st, j :: js => lin_list axes (detail.lin st.1 st.2 a j) js
  | _, st, _ => st

/-- The per-axis slots that a coordinate tuple is filled into: for each axis the slot of
the lookup result of its coordinate. -/
def slots {X : Type} (index : Axis → X → Int) : List Axis → List X → List Int
  | a :: axes, x :: xs => a.slot (index a x) :: slots index axes xs
  | _, _ => []

/-- The mixed-radix value of an index tuple: the sum over the axes of the index times the
product of the shapes of the axes before it. -/
def mixed_radix : List Axis → List Int → Nat
  | a :: axes, j :: js => j.toNat + a.shape * mixed_radix axes js
  | _, _ => 0

/-- Deciding `valid_indices` axis by axis. -/
def valid_indices_dec : (axes : List Axis) → (js : List Int) → Decidable (valid_indices axes js)
  | [], [] => isTrue trivial
  | [], _ :: _ => isFalse (fun hv => hv)
  | _ :: _, [] => isFalse (fun hv => hv)
  | a :: axes, j :: js =>
    match valid_indices_dec axes js with
    | isTrue ht =>
      if hj : 0 ≤ j ∧ j < (a.shape : Int) then isTrue ⟨hj, ht⟩
      else isFalse (fun hv => hj hv.1)
    | isFalse hf => isFalse (fun hv => hf hv.2)

instance (axes : List Axis) (js : List Int) : Decidable (valid_indices axes js) :=
  valid_indices_dec axes js

/-- The value `x` that `xlin_n` ends with: the payload of the last `count` argument, or the
initial value when there is none. -/
def count_value {X : Type} (x : Nat) : List (fill_arg X) → Nat
  | [] => x
  | fill_arg.count v :: rest => count_value v rest
  | _ :: rest => count_value x rest

/-- The value `x` that `xlin_w` ends with: the payload of the last `weight` argument, or the
initial value when there is none. -/
def weight_value {X : Type} (x : ℚ) : List (fill_arg X) → ℚ
  | [] => x
  | fill_arg.weight v :: rest => weight_value v rest
  | _ :: rest => weight_value x rest

/-- The amount that a fill adds to the counter it addresses: one unit for a plain fill, the
count converted to the counter type, or the weight converted to the counter type. -/
def fill_amount {T X : Type} [counter T] (args : List (fill_arg X)) : T :=
  match n_count args + 2 * n_weight args with
  | 0 => 1
  | 1 => ((count_value 0 args : Nat) : T)
  | _ => counter.of_double (weight_value 0 args)

/-- The linearizer result `(idx, stride)` of a fill: the permissive linearizer run over the
coordinates among the arguments. -/
def fill_target {T X : Type} (index : Axis → X → Int) (h : static_histogram T)
    (args : List (fill_arg X)) : Nat × Nat :=
  lin_list h.axes_ (0, 1) (slots index h.axes_ (coords args))

/-- The number a fill is meant to count: 1 for a plain fill, `n` for a fill with `count(n)`,
`w` for a fill with `weight(w)`. -/
def fill_weight {X : Type} (args : List (fill_arg X)) : ℚ :=
  match n_count args + 2 * n_weight args with
  | 0 => 1
  | 1 => (count_value 0 args : ℚ)
  | _ => weight_value 0 args

/-- A fill is counted (not discarded) when the permissive linearizer leaves a stride that is
not 0, which is the test `if (stride)` of `fill_impl`. -/
def fill_counted {T X : Type} (index : Axis → X → Int) (h : static_histogram T)
    (args : List (fill_arg X)) : Prop :=
  (h.xlin index 0 (0, 1) (coords args)).2 ≠ 0

instance {T X : Type} (index : Axis → X → Int) (h : static_histogram T)
    (args : List (fill_arg X)) : Decidable (fill_counted index h args) := by
  unfold fill_counted; infer_instance

/-- No counter update of a sequence of fills wraps around, truncates or rounds: every counted
fill raises the numeric value of the counter it addresses by exactly the number it is meant to
count. -/
def exact_fills {T X : Type} [counter T] (index : Axis → X → Int) :
    static_histogram T → List (List (fill_arg X)) → Prop
  | _, [] => True
  | h, args :: rest =>
    (fill_counted index h args →
      counter.to_double
          (h.storage_.value (h.xlin index 0 (0, 1) (coords args)).1 + fill_amount args) =
        counter.to_double (h.storage_.value (h.xlin index 0 (0, 1) (coords args)).1) +
          fill_weight args) ∧
    exact_fills index (fill index h args) rest

/-- Deciding `exact_fills` fill by fill. -/
def exact_fills_dec {T X : Type} [counter T] (index : Axis → X → Int) :
    (h : static_histogram T) → (fills : List (List (fill_arg X))) →
    Decidable (exact_fills index h fills)
  | _, [] => isTrue trivial
  | h, args :: rest =>
    match exact_fills_dec index (fill index h args) rest with
    | isTrue ht =>
      if hc : fill_counted index h args →
          counter.to_double
              (h.storage_.value (h.xlin index 0 (0, 1) (coords args)).1 + fill_amount args) =
            counter.to_double (h.storage_.value (h.xlin index 0 (0, 1) (coords args)).1) +
              fill_weight args
      then isTrue ⟨hc, ht⟩
      else isFalse (fun hv => hc hv.1)
    | isFalse hf => isFalse (fun hv => hf hv.2)

instance {T X : Type} [counter T] (index : Axis → X → Int) (h : static_histogram T)
    (fills : List (List (fill_arg X))) : Decidable (exact_fills index h fills) :=
  exact_fills_dec index h fills

/-- The total of the counts and weights of the counted fills of a sequence. -/
def counted_total {T X : Type} (index : Axis → X → Int) (h : static_histogram T)
    (fills : List (List (fill_arg X))) : ℚ :=
  (fills.map (fun args => if fill_counted index h args then fill_weight args else 0)).sum

/-! ## Example data -/

/-- Four integer axes of 65534 bins each with flow bins: 65536 slots per axis. -/
def axes_wide : List Axis := List.replicate 4 (Axis.integer_axis 0 65533 "" true)

/-- A 3-bin integer axis with flow bins followed by a 2-bin integer axis without. -/
def axes_2d : List Axis := [Axis.integer_axis 0 2 "x" true, Axis.integer_axis 0 1 "y" false]

/-- A single 3-bin integer axis with flow bins. -/
def axes_1d_flow : List Axis := [Axis.integer_axis 0 2 "x" true]

/-- The two-axis example with flow bins enabled on the second axis as well. -/
def axes_2d_flow : List Axis := [Axis.integer_axis 0 2 "x" true, Axis.integer_axis 0 1 "y" true]

/-- The histogram over `axes_2d` with 32-bit unsigned counters, freshly constructed. -/
def hist_2d : static_histogram (uint 32) := ctor axes_2d

/-- Three fills of the two-axis example: a plain one, one with a count of 3, and one whose
second coordinate is off the flow-disabled axis. -/
def fills_2d : List (List (fill_arg Int)) :=
  [[fill_arg.coord 1, fill_arg.coord 1],
   [fill_arg.coord (-1), fill_arg.count 3, fill_arg.coord 0],
   [fill_arg.weight 2, fill_arg.coord 0, fill_arg.coord 9]]

/-- The two-axis example after the three fills `fills_2d`. -/
def hist_2d_filled : static_histogram (uint 32) :=
  fills_2d.foldl (fill Axis.integer_index) hist_2d

/-- A one-axis histogram with 32-bit unsigned counters whose bin 1 holds 6. -/
def hist_six : static_histogram (uint 32) :=
  fill Axis.integer_index (ctor axes_1d_flow) [fill_arg.coord 1, fill_arg.count 6]

/-- A counter array is well formed when `size_` is the length of the allocation `array_`;
every constructor and assignment of `array_storage` establishes this. -/
def array_storage.wf {T : Type} (s : array_storage T) : Prop := s.array_.length = s.size_

instance {T : Type} (s : array_storage T) : Decidable s.wf := by
  unfold array_storage.wf; infer_instance

/-- The counter array of the test "multiply" and of the spec's example: size 2, one
`increase(0)`, then `add(1, 5)`. -/
def storage_1_5 : array_storage (uint 32) :=
  ((array_storage.ctor 2 : array_storage (uint 32)).increase 0).add 1 5

/-- `array_storage() = default`: the default member initialisers, `size_ = 0` and a null
`array_`. -/
def array_storage.default_ctor {T : Type} : array_storage T := { size_ := 0, array_ := [] }

/-- `std::copy(other.array_.get(), other.array_.get() + size_, array_.get())`: the first
`size_` cells of `other` are copied into the cells of the target, in order. -/
def array_storage.std_copy {T : Type} [Zero T] (other self : array_storage T) :
    array_storage T :=
  array_storage.for_upto self.size_ (fun i acc => acc.put i (other.at_ i)) self

/-- `array_storage(const array_storage& other)`: `reset(other.size())`, then `std::copy`. -/
def array_storage.copy_ctor {T : Type} [Zero T] (other : array_storage T) : array_storage T :=
  array_storage.std_copy other (array_storage.reset other.size)

/-- `array_storage& operator=(const array_storage& other)` for `this != &other` (the guarded
self-assignment does nothing): `reset(other.size())` replaces the allocation of `*this`, then
`std::copy` fills it.  The result is the state of `*this` after the call. -/
def array_storage.copy_assign {T : Type} [Zero T] (_self other : array_storage T) :
    array_storage T :=
  array_storage.std_copy other (array_storage.reset other.size)

/-- `std::swap(size_, other.size_); std::swap(array_, other.array_)`: the pair is the state
of `*this` and the state of `other` afterwards. -/
def array_storage.swap_members {T : Type} (self other : array_storage T) :
    array_storage T × array_storage T :=
  let self1 : array_storage T := { self with size_ := other.size_ }
  let other1 : array_storage T := { other with size_ := self.size_ }
  ({ self1 with array_ := other1.array_ }, { other1 with array_ := self1.array_ })

/-- `array_storage(array_storage&& other)`: the members of the new object start from their
default initialisers and are swapped with those of `other`.  The pair is the new object and
the state of `other` after the call. -/
def array_storage.move_ctor {T : Type} (other : array_storage T) :
    array_storage T × array_storage T :=
  array_storage.swap_members array_storage.default_ctor other

/-- `array_storage& operator=(array_storage&& other)` for `this != &other` (the guarded
self-assignment does nothing): the members are swapped.  The pair is the state of `*this`
and the state of `other` after the call. -/
def array_storage.move_assign {T : Type} (self other : array_storage T) :
    array_storage T × array_storage T :=
  array_storage.swap_members self other

/-- The counter array of the tests "copy" and "move": size 1, one `increase(0)`. -/
def storage_one : array_storage (uint 32) :=
  (array_storage.ctor 1 : array_storage (uint 32)).increase 0

/-- Modelled from the spec: `weight_counter<RealType>` of `storage/weight_counter.hpp`, which
is not among the sources: a counter that tracks a value and a variance.  Its operations
below follow the spec's example (`increase` +1/+1, `add(i, 1)` +1/+1,
`add(i, value = 1, variance = 0)` +1/+0, `increase_by_weight(i, 2)` +2/+4). -/
structure weight_counter (R : Type) where
  w : R
  w2 : R
  deriving DecidableEq

namespace weight_counter

variable {R : Type}

/-- Modelled from the spec: `T(0)` for a weight counter (`storage/weight_counter.hpp` is not
among the sources): value 0, variance 0. -/
instance [Zero R] : Zero (weight_counter R) := ⟨{ w := 0, w2 := 0 }⟩

/-- Modelled from the spec: `operator++` of a weight counter (`storage/weight_counter.hpp`
is not among the sources): one unit on the value and one on the variance. -/
def incr [Add R] [One R] (c : weight_counter R) : weight_counter R :=
  { w := c.w + 1, w2 := c.w2 + 1 }

/-- Modelled from the spec: `operator+=(const weight_counter&)`
(`storage/weight_counter.hpp` is not among the sources): value and variance are added
componentwise. -/
def plus [Add R] (c rhs : weight_counter R) : weight_counter R :=
  { w := c.w + rhs.w, w2 := c.w2 + rhs.w2 }

/-- Modelled from the spec: `weight_counter::variance()` (`storage/weight_counter.hpp` is
not among the sources). -/
def variance (c : weight_counter R) : R := c.w2

/-- Modelled from the spec: `counter_traits<weight_counter<R>>::value`
(`storage/weight_counter.hpp` is not among the sources); the `value_type` is `R`. -/
def traits_value (c : weight_counter R) : R := c.w

/-- Modelled from the spec: `counter_traits<weight_counter<R>>::increase_by_count`
(`storage/weight_counter.hpp` is not among the sources): a count `n` adds `n` to the value
and `n` to the variance. -/
def traits_increase_by_count [Add R] (lhs : weight_counter R) (n : R) : weight_counter R :=
  { w := lhs.w + n, w2 := lhs.w2 + n }

/-- Modelled from the spec: `counter_traits<weight_counter<R>>::increase_by_weight`
(`storage/weight_counter.hpp` is not among the sources): a weight `x` adds `x` to the value
and `x * x` to the variance. -/
def traits_increase_by_weight [Add R] [Mul R] (lhs : weight_counter R) (x : R) :
    weight_counter R :=
  { w := lhs.w + x, w2 := lhs.w2 + x * x }

end weight_counter

/-! ## `array_storage<weight_counter<R>>` -/

namespace weighted_storage

variable {R : Type}

/-- `array_storage::increase(i)` for weight counters: `++array_[i]`. -/
def increase [Zero R] [Add R] [One R] (s : array_storage (weight_counter R)) (i : Nat) :
    array_storage (weight_counter R) :=
  s.put i (s.at_ i).incr

/-- `array_storage::increase_by_weight(i, w)` for weight counters. -/
def increase_by_weight [Zero R] [Add R] [Mul R] (s : array_storage (weight_counter R))
    (i : Nat) (x : R) : array_storage (weight_counter R) :=
  s.put i ((s.at_ i).traits_increase_by_weight x)

/-- `array_storage::add(i, n)` for weight counters. -/
def add [Zero R] [Add R] (s : array_storage (weight_counter R)) (i : Nat) (n : R) :
    array_storage (weight_counter R) :=
  s.put i ((s.at_ i).traits_increase_by_count n)

/-- `array_storage::add(i, value, variance)`: `array_[i] += T(value, variance)`. -/
def add_value_variance [Zero R] [Add R] (s : array_storage (weight_counter R)) (i : Nat)
    (value variance : R) : array_storage (weight_counter R) :=
  s.put i ((s.at_ i).plus { w := value, w2 := variance })

/-- `array_storage::value(i)` for weight counters. -/
def value [Zero R] (s : array_storage (weight_counter R)) (i : Nat) : R :=
  (s.at_ i).traits_value

/-- `array_storage::variance(i)`: `array_[i].variance()`. -/
def variance [Zero R] (s : array_storage (weight_counter R)) (i : Nat) : R :=
  (s.at_ i).variance

end weighted_storage

/-- The weighted storage of the test "with weight_counter": size 1, then `increase(0)`,
`add(0, 1)` and `add(0, 1, 0)`. -/
def storage_weighted : array_storage (weight_counter ℚ) :=
  weighted_storage.add_value_variance
    (weighted_storage.add
      (weighted_storage.increase (array_storage.ctor 1 : array_storage (weight_counter ℚ)) 0)
      0 1)
    0 1 0

/-- The offset formula of the linearizer written out: the sum over the axes `i` of the
index on axis `i` times the product of the shapes of the axes `0 .. i-1`. -/
def stride_sum (axes : List Axis) (js : List Int) : Nat :=
  ((List.range axes.length).map
    (fun i => (js.getD i 0).toNat * shape_product (axes.take i))).sum

/-- The index tuple of an offset: its mixed-radix digits, least significant axis first. -/
def decode : List Axis → Nat → List Int
  | [], _ => []
  | a :: axes, k => ((k % a.shape : Nat) : Int) :: decode axes (k / a.shape)

/-- The mutating calls on a histogram: `fill`, `+=`, `*=`, `/=` and `reset`. -/
inductive call (T X : Type) where
  | fill (args : List (fill_arg X))
  | add_assign (rhs : static_histogram T)
  | mul_assign (rhs : T)
  | div_assign (rhs : T)
  | reset

/-- The state of the histogram after a call, whether the call returns, is discarded or
throws. -/
def run_call {T X : Type} [counter T] (index : Axis → X → Int) (h : static_histogram T) :
    call T X → static_histogram T
  | call.fill args => fill index h args
  | call.add_assign rhs => (h.add_assign rhs).2
  | call.mul_assign rhs => h.mul_assign rhs
  | call.div_assign rhs => h.div_assign rhs
  | call.reset => h.reset

/-- A sequence of calls on the two-axis example: a counted fill, a discarded fill, a `+=`
that throws, a `+=` that succeeds, `*=`, `/=` and `reset`. -/
def calls_2d : List (call (uint 32) Int) :=
  [call.fill [fill_arg.coord 1, fill_arg.coord 1],
   call.fill [fill_arg.coord 1, fill_arg.coord 7],
   call.add_assign (ctor axes_2d_flow),
   call.add_assign hist_2d_filled,
   call.mul_assign 3,
   call.div_assign 2,
   call.reset]

/-- The axis class templates: the type of an axis. -/
inductive axis_kind where
  | regular_axis | polar_axis | variable_axis | integer_axis | category_axis
  deriving DecidableEq

/-- The class of an axis object. -/
def Axis.kind : Axis → axis_kind
  | Axis.regular_axis _ _ _ _ _ => axis_kind.regular_axis
  | Axis.polar_axis _ _ _ => axis_kind.polar_axis
  | Axis.variable_axis _ _ _ => axis_kind.variable_axis
  | Axis.integer_axis _ _ _ _ => axis_kind.integer_axis
  | Axis.category_axis _ => axis_kind.category_axis

/-- The template parameter `Axes` of a histogram: the sequence of the types of its axes. -/
def axes_type (axes : List Axis) : List axis_kind := axes.map Axis.kind

/-- Modelled from the spec: `operator==` of two storages (`storage/operators.hpp` is not
among the sources): equal sizes and matching values at every index; the tests compare arrays
of different sizes as unequal. -/
def detail.storage_equal {T : Type} [Zero T] [DecidableEq T] (a b : array_storage T) : Bool :=
  decide (a.size = b.size) && (List.range a.size).all (fun i => decide (a.value i = b.value i))

/-- `static_histogram::operator==`: the overload for a right operand with another `Axes`
type returns `false`; the overload for the same `Axes` type returns
`detail::axes_equal(axes_, rhs.axes_) && storage_ == rhs.storage_`. -/
def static_histogram.operator_eq {T : Type} [Zero T] [DecidableEq T]
    (h rhs : static_histogram T) : Bool :=
  if axes_type h.axes_ = axes_type rhs.axes_ then
    detail.axes_equal h.axes_ rhs.axes_ && detail.storage_equal h.storage_ rhs.storage_
  else false

/-- A histogram over one regular axis and one over one integer axis, both of 3 bins without
flow bins and freshly constructed: the same storage, different axes types. -/
def hist_regular : static_histogram (uint 32) := ctor [Axis.regular_axis 3 0 3 "x" false]

/-- The integer-axis companion of `hist_regular`. -/
def hist_integer : static_histogram (uint 32) := ctor [Axis.integer_axis 0 2 "x" false]

/-! ## Reduction (`reduce_to`, `reduce_impl`) -/

namespace detail

/-- Modelled from the spec: the state of `detail::index_mapper` (`detail/utility.hpp` is not
among the sources): a mixed-radix (odometer) counter over the per-axis shapes `n`, one digit
per axis, with the source offset `first` and the destination offset `second` of the current
digits; `b` is the mask of the retained axes. -/
structure index_mapper where
  first : Nat
  second : Nat
  digits : List Nat
  n : List Nat
  b : List Bool

/-- Modelled from the spec: the constructor `index_mapper(n, b)`: all digits 0, both offsets
0. -/
def index_mapper.ctor (n : List Nat) (b : List Bool) : index_mapper :=
  { first := 0, second := 0, digits := List.replicate n.length 0, n := n, b := b }

end detail

namespace static_histogram

variable {T : Type}

end static_histogram

/-- The implicit conversion of a `w`-bit unsigned integer to a `v`-bit unsigned integer that
the assignment `array_[i] = other.value(i)` performs: the value reduced modulo `2 ^ v`. -/
def uint.convert (w v : Nat) (x : uint w) : uint v := ((ZMod.val x : Nat) : uint v)

/-- `template <typename S> explicit array_storage(const S& other)`: `reset(other.size())`,
then `array_[i] = other.value(i)` for `i < size_`; `conv` is the implicit conversion from the
`value_type` of `S` to `T` that the assignment performs. -/
def array_storage.converting_ctor {S T : Type} [Zero S] [Zero T] (conv : S → T)
    (other : array_storage S) : array_storage T :=
  array_storage.for_upto (array_storage.reset other.size : array_storage T).size_
    (fun i acc => acc.put i (conv (other.value i))) (array_storage.reset other.size)

/-- `template <typename S> array_storage& operator=(const S& other)`: the same two steps on
`*this`, whose previous allocation `reset` replaces.  The result is the state of `*this`
after the call. -/
def array_storage.converting_assign {S T : Type} [Zero S] [Zero T] (conv : S → T)
    (_self : array_storage T) (other : array_storage S) : array_storage T :=
  array_storage.for_upto (array_storage.reset other.size : array_storage T).size_
    (fun i acc => acc.put i (conv (other.value i))) (array_storage.reset other.size)

/-- Modelled from the spec: `operator==` of two storages of different unsigned counter types
(`storage/operators.hpp` is not among the sources): equal sizes and
`a.value(i) == b.value(i)` at every index; the usual arithmetic conversions of two unsigned
operands keep their numeric values, so the values are compared as numbers. -/
def detail.storage_equal_uint {w v : Nat} (a : array_storage (uint w))
    (b : array_storage (uint v)) : Bool :=
  decide (a.size = b.size) &&
    (List.range a.size).all (fun i => decide (ZMod.val (a.value i) = ZMod.val (b.value i)))

/-- A 32-bit counter array of size 1 that holds 256, one more than an 8-bit counter can
hold. -/
def storage_256 : array_storage (uint 32) :=
  (array_storage.ctor 1 : array_storage (uint 32)).add 0 256

/-! ## Textual rendering of the axes (`axis_ostream_operators.hpp`) -/

/-- The formatting of numbers by `std::ostream`, which is library code: `os << int` and
`os << RealType`.  The stream itself is the text written to it so far. -/
structure number_format where
  int : Int → String
  real : ℚ → String

namespace Axis

/-- Modelled from the spec: `label()` (`axis.hpp` is not among the sources).  The category axis
of the model carries no label. -/
def label : Axis → String
  | regular_axis _ _ _ l _ => l
  | polar_axis _ _ l => l
  | variable_axis _ l _ => l
  | integer_axis _ _ l _ => l
  | category_axis _ => ""

end Axis

namespace detail

/-- Modelled from the spec: `detail::empty(label)` (`detail/utility.hpp` is not among the
sources): the label has no character. -/
def empty (s : String) : Bool := decide (s = "")

/-- The quote character that delimits an escaped text. -/
def quote : Char := Char.ofNat 39

/-- The backslash character. -/
def backslash : Char := Char.ofNat 92

/-- Modelled from the spec: the body of an escaped text (`detail/utility.hpp` is not among the
sources): an embedded quote or backslash character is written after a backslash. -/
def escape_chars : List Char → List Char
  | [] => []
  | c :: cs =>
    if c = quote ∨ c = backslash then backslash :: c :: escape_chars cs
    else c :: escape_chars cs

/-- Modelled from the spec: `detail::escape(os, s)` (`detail/utility.hpp` is not among the
sources): the text is written between two quote characters, its embedded quote and backslash
characters escaped. -/
def escape (os : String) (s : String) : String :=
  os ++ String.mk (quote :: (escape_chars s.data ++ [quote]))

end detail

/-- `operator<<(std::ostream&, const regular_axis<RealType>&)`; `a[0]` and `a[a.bins()]` are
the two ends `min` and `max` of the range (`axis.hpp` is not among the sources). -/
def stream_regular_axis (f : number_format) (os : String) (bins : Nat) (min max : ℚ)
    (label : String) (uoflow : Bool) : String :=
  let os1 := os ++ "regular_axis(" ++ f.int bins ++ ", " ++ f.real min ++ ", " ++ f.real max
  let os2 := if ¬ detail.empty label then detail.escape (os1 ++ ", label=") label else os1
  let os3 := if ¬ uoflow then os2 ++ ", uoflow=False" else os2
  os3 ++ ")"

/-- `operator<<(std::ostream&, const polar_axis<RealType>&)`; `a[0]` is the start angle
(`axis.hpp` is not among the sources). -/
def stream_polar_axis (f : number_format) (os : String) (bins : Nat) (start : ℚ)
    (label : String) : String :=
  let os1 := os ++ "polar_axis(" ++ f.int bins
  let os2 := if start ≠ 0 then os1 ++ ", " ++ f.real start else os1
  let os3 := if ¬ detail.empty label then detail.escape (os2 ++ ", label=") label else os2
  os3 ++ ")"

/-- `operator<<(std::ostream&, const variable_axis<RealType>&)`; `a[0]` and `a.left(i)` are
entries of the edge list, `bins()` is one less than their number (`axis.hpp` is not among the
sources).  The loop `for (int i = 1; i <= a.bins(); ++i)` runs over `i - 1`. -/
def stream_variable_axis (f : number_format) (os : String) (edges : List ℚ)
    (label : String) (uoflow : Bool) : String :=
  let os1 := (List.range (edges.length - 1)).foldl
    (fun acc k => acc ++ ", " ++ f.real (edges.getD (k + 1) 0))
    (os ++ "variable_axis(" ++ f.real (edges.getD 0 0))
  let os2 := if ¬ detail.empty label then detail.escape (os1 ++ ", label=") label else os1
  let os3 := if ¬ uoflow then os2 ++ ", uoflow=False" else os2
  os3 ++ ")"

/-- `operator<<(std::ostream&, const integer_axis&)`; `a[i]` is `min + i` and `bins()` is
`max - min + 1` (`axis.hpp` is not among the sources). -/
def stream_integer_axis (f : number_format) (os : String) (min max : Int)
    (label : String) (uoflow : Bool) : String :=
  let bins : Int := ((Axis.integer_axis min max label uoflow).bins : Int)
  let os1 := os ++ "integer_axis(" ++ f.int min ++ ", " ++ f.int (min + (bins - 1))
  let os2 := if ¬ detail.empty label then detail.escape (os1 ++ ", label=") label else os1
  let os3 := if ¬ uoflow then os2 ++ ", uoflow=False" else os2
  os3 ++ ")"

/-- `operator<<(std::ostream&, const category_axis&)`; `a[i]` is the category at position `i`
and `bins()` the number of categories (`axis.hpp` is not among the sources). -/
def stream_category_axis (os : String) (categories : List String) : String :=
  (List.range categories.length).foldl
    (fun acc i =>
      detail.escape acc (categories.getD i "") ++
        (if (i : Int) = (categories.length : Int) - 1 then ")" else ", "))
    (os ++ "category_axis(")

/-- The stream operator chosen by the class of the axis. -/
def Axis.stream (f : number_format) (os : String) : Axis → String
  | Axis.regular_axis n lo hi l u => stream_regular_axis f os n lo hi l u
  | Axis.polar_axis n start l => stream_polar_axis f os n start l
  | Axis.variable_axis edges l u => stream_variable_axis f os edges l u
  | Axis.integer_axis lo hi l u => stream_integer_axis f os lo hi l u
  | Axis.category_axis categories => stream_category_axis os categories

/-- The textual rendering of an axis: what its stream operator writes to an empty stream. -/
def Axis.render (f : number_format) (a : Axis) : String := a.stream f ""

/-- The decimal digits of a natural number, most significant first; the first argument bounds
the number of digits. -/
def decimal_digits : Nat → Nat → List Char
  | 0, n => [Nat.digitChar (n % 10)]
  | fuel + 1, n =>
    if n < 10 then [Nat.digitChar n]
    else decimal_digits fuel (n / 10) ++ [Nat.digitChar (n % 10)]

/-- The decimal text of an integer, with a minus sign when it is negative. -/
def decimal (z : Int) : String :=
  String.mk (if z < 0 then '-' :: decimal_digits z.natAbs z.natAbs
    else decimal_digits z.natAbs z.natAbs)

/-- A number format for the examples: integers in decimal, and for a real its integral part
in decimal (what `std::ostream` writes for the integral values of the examples). -/
def decimal_format : number_format := { int := decimal, real := fun x => decimal (Int.floor x) }

/-- The texts of a list separated by `", "`. -/
def joined : List String → String
  | [] => ""
  | [c] => c
  | c :: d :: cs => c ++ ", " ++ joined (d :: cs)

/-- What the loop of the category stream operator writes for the categories that are left:
each escaped category followed by `", "`, the last one followed by `")"`. -/
def category_tail : List String → String
  | [] => ""
  | [c] => detail.escape "" c ++ ")"
  | c :: d :: cs => detail.escape "" c ++ ", " ++ category_tail (d :: cs)

/-- The characters of a formatted finite number: digits, signs, the decimal point and the
exponent mark. -/
def numeric_char (c : Char) : Bool :=
  c.isDigit || c == '+' || c == '-' || c == '.' || c == 'e'

/-- A formatted finite number: numeric characters only, the last of them a digit. -/
def numeric_text (s : String) : Bool :=
  s.data.all numeric_char &&
    (match s.data.getLast? with
     | some c => c.isDigit
     | none => false)

/-- The number format writes every number as a numeric text. -/
def number_format.numeric (f : number_format) : Prop :=
  (∀ z, numeric_text (f.int z) = true) ∧ ∀ x, numeric_text (f.real x) = true

/-- One step of the search for the text `, l` (the start of `, label=`): the state is the
number of its characters that have just been read, 3 once it has been found. -/
def scan_step (q : Nat) (c : Char) : Nat :=
  if q = 3 then 3
  else if c = ',' then 1
  else if q = 1 ∧ c = ' ' then 2
  else if q = 2 ∧ c = 'l' then 3
  else 0

/-- The search for the text `, l` run over a text. -/
def scan (q : Nat) (s : List Char) : Nat := s.foldl scan_step q

/-- The text that the stream operator of a regular, variable or integer axis writes before
the label part: the name of the class and the numeric parameters. -/
def Axis.head (f : number_format) : Axis → String
  | Axis.regular_axis n lo hi _ _ =>
    "regular_axis(" ++ f.int n ++ ", " ++ f.real lo ++ ", " ++ f.real hi
  | Axis.variable_axis edges _ _ =>
    (List.range (edges.length - 1)).foldl
      (fun acc k => acc ++ ", " ++ f.real (edges.getD (k + 1) 0))
      ("variable_axis(" ++ f.real (edges.getD 0 0))
  | Axis.integer_axis lo hi l u =>
    "integer_axis(" ++ f.int lo ++ ", " ++
      f.int (lo + (((Axis.integer_axis lo hi l u).bins : Int) - 1))
  | _ => ""

/-- The label part of a rendering: nothing for an empty label. -/
def label_part (l : String) : String :=
  if l = "" then "" else detail.escape ", label=" l

/-- The end of a rendering: the flow suffix when flow bins are disabled, and the closing
parenthesis. -/
def uoflow_part (u : Bool) : String := if u then ")" else ", uoflow=False)"

/-- A rational number that is a natural number. -/
def natural (q : ℚ) : Prop := 0 ≤ q.num ∧ q.den = 1

instance (q : ℚ) : Decidable (natural q) := by
  unfold natural; infer_instance

/-- The exact total of the numeric values of the counters of a histogram (no rounding). -/
def counter_total {T : Type} [counter T] (h : static_histogram T) : ℚ :=
  (List.range h.storage_.size).foldl
    (fun result i => result + counter.to_double (h.storage_.value i)) 0

/-- The bound up to which every natural number is a `double`: `2 ^ 53`. -/
def double_exact_bound : ℚ := 9007199254740992

/-- A histogram with `double` counters over one integer axis with flow bins, after one fill
with the weight `1e16`: the counter of the filled bin holds `1e16`, where the spacing of the
`double` values is 2. -/
def hist_big : static_histogram double :=
  fill Axis.integer_index (ctor axes_1d_flow)
    [fill_arg.coord (1 : Int), fill_arg.weight 10000000000000000]

/-- A 32-bit counter array of size 3 that holds 1, 256 and 511. -/
def storage_1_256_511 : array_storage (uint 32) :=
  (((array_storage.ctor 3 : array_storage (uint 32)).add 0 1).add 1 256).add 2 511

/-! ## Lemmas on the storage -/

namespace array_storage

variable {T : Type}

theorem at_put [Zero T] (s : array_storage T) (i j : Nat) (v : T) :
    (s.put i v).at_ j = if j = i ∧ i < s.array_.length then v else s.at_ j := by
  unfold put at_
  simp only [List.getD_eq_getElem?_getD, List.getElem?_set]
  by_cases hji : j = i
  · subst hji
    by_cases hlt : j < s.array_.length
    · simp [hlt]
    · simp [hlt, List.getElem?_eq_none (Nat.le_of_not_lt hlt)]
  · have : ¬ i = j := fun e => hji e.symm
    simp [hji, this]

theorem size_put (s : array_storage T) (i : Nat) (v : T) : (s.put i v).size_ = s.size_ := rfl

theorem length_put (s : array_storage T) (i : Nat) (v : T) :
    (s.put i v).array_.length = s.array_.length := by
  simp [put]

theorem for_upto_succ (n : Nat) (body : Nat → array_storage T → array_storage T)
    (s : array_storage T) : for_upto (n + 1) body s = body n (for_upto n body s) := by
  simp [for_upto, List.range_succ, List.foldl_append]

/-- A loop whose body rewrites cell `i` from the content of cell `i` keeps the size and
rewrites each of the first `n` cells exactly once. -/
theorem for_upto_put [Zero T] (g : Nat → T → T) (n : Nat) (s : array_storage T) :
    (for_upto n (fun i acc => acc.put i (g i (acc.at_ i))) s).size_ = s.size_ ∧
    (for_upto n (fun i acc => acc.put i (g i (acc.at_ i))) s).array_.length = s.array_.length ∧
      ∀ j, (for_upto n (fun i acc => acc.put i (g i (acc.at_ i))) s).at_ j =
        if j < n ∧ j < s.array_.length then g j (s.at_ j) else s.at_ j := by
  induction n with
  | zero => simp [for_upto]
  | succ n ih =>
    obtain ⟨ih1, ih2, ih3⟩ := ih
    rw [for_upto_succ]
    refine ⟨by rw [size_put, ih1], by rw [length_put, ih2], fun j => ?_⟩
    rw [at_put, ih2, ih3 j, ih3 n]
    by_cases hjn : j = n
    · subst hjn
      by_cases hl : j < s.array_.length <;> simp [hl]
    · by_cases hlt : j < n
      · have : j < n + 1 := Nat.lt_succ_of_lt hlt
        simp [hjn, hlt, this]
      · have : ¬ j < n + 1 := by omega
        simp [hjn, hlt, this]

theorem init_spec [Zero T] (size : Nat) :
    (init size : array_storage T).size_ = size ∧
    (init size : array_storage T).array_.length = size ∧
    ∀ j, (init size : array_storage T).at_ j = 0 := by
  obtain ⟨h1, h2, h3⟩ := for_upto_put (fun _ (_ : T) => (0 : T)) size (reset size)
  refine ⟨h1, by rw [init, h2]; simp [reset], fun j => ?_⟩
  rw [init, h3 j]
  simp only [reset, at_, List.getD_eq_getElem?_getD, List.getElem?_replicate, List.length_replicate,
    and_self]
  by_cases hj : j < size <;> simp [hj]

end array_storage

/-! ## Lemmas on the linearizer -/

theorem field_count_aux (axes : List Axis) (v : Nat) :
    axes.foldl (fun value a => value * a.shape) v = v * shape_product axes := by
  induction axes generalizing v with
  | nil => simp [shape_product]
  | cons a axes ih =>
    simp only [List.foldl_cons, shape_product, List.map_cons, List.prod_cons] at ih ⊢
    rw [ih, mul_assoc]

theorem bincount_from_axes_eq (axes : List Axis) :
    bincount_from_axes axes = shape_product axes % size_t_mod := by
  unfold bincount_from_axes detail.field_count
  rw [field_count_aux, one_mul]

theorem lin_eq_lin_list {T : Type} (h : static_histogram T) (indices : List Int) :
    ∀ (D : Nat) (st : Nat × Nat), h.lin D st indices = lin_list (h.axes_.drop D) st indices := by
  induction indices with
  | nil => intro D st; cases h.axes_.drop D <;> simp [static_histogram.lin, lin_list]
  | cons j js ih =>
    intro D st
    rw [static_histogram.lin]
    by_cases hD : D < h.axes_.length
    · rw [List.getElem?_eq_getElem hD, List.drop_eq_getElem_cons hD]
      simp only [lin_list]
      exact ih (D + 1) _
    · rw [List.getElem?_eq_none (Nat.le_of_not_lt hD), List.drop_eq_nil_of_le (Nat.le_of_not_lt hD)]
      simp [lin_list]

theorem shape_product_pos_of_valid : ∀ (axes : List Axis) (js : List Int),
    valid_indices axes js → 0 < shape_product axes
  | [], [], _ => by simp [shape_product]
  | [], _ :: _, hv => by simp [valid_indices] at hv
  | _ :: _, [], hv => by simp [valid_indices] at hv
  | a :: axes, j :: js, hv => by
    simp only [valid_indices] at hv
    have ih := shape_product_pos_of_valid axes js hv.2
    have ha : 0 < a.shape := by omega
    simp only [shape_product, List.map_cons, List.prod_cons] at ih ⊢
    exact Nat.mul_pos ha ih

theorem accumulate_of_fit (out stride : Nat) (a : Axis) (j : Int) (rest : Nat)
    (hj : 0 ≤ j ∧ j < (a.shape : Int)) (hout : out < stride) (hrest : 0 < rest)
    (hfit : stride * (a.shape * rest) < size_t_mod) :
    detail.accumulate out stride a j = (out + j.toNat * stride, stride * a.shape) ∧
      out + j.toNat * stride < stride * a.shape := by
  obtain ⟨n, rfl⟩ := Int.eq_ofNat_of_zero_le hj.1
  have hn : n < a.shape := by exact_mod_cast hj.2
  have h1 : stride * a.shape ≤ stride * (a.shape * rest) :=
    Nat.mul_le_mul_left _ (Nat.le_mul_of_pos_right _ hrest)
  have h2 : out + n * stride < stride * a.shape := by
    calc out + n * stride < stride + n * stride := by omega
      _ = stride * (n + 1) := by ring
      _ ≤ stride * a.shape := Nat.mul_le_mul_left _ hn
  have h3 : n < size_t_mod := by
    have : a.shape ≤ stride * a.shape := Nat.le_mul_of_pos_left _ (by omega)
    omega
  refine ⟨?_, by simpa using h2⟩
  unfold detail.accumulate
  have e : Int.toNat ((n : Int) % (size_t_mod : Int)) = n := by
    rw [← Int.natCast_mod, Int.toNat_natCast, Nat.mod_eq_of_lt h3]
  simp only [Int.ofNat_eq_coe, e, Int.toNat_natCast]
  rw [Nat.mod_eq_of_lt (by omega), Nat.mod_eq_of_lt (by omega)]

theorem lin_list_valid : ∀ (axes : List Axis) (js : List Int) (out stride : Nat),
    valid_indices axes js → out < stride → stride * shape_product axes < size_t_mod →
    (lin_list axes (out, stride) js).2 = stride * shape_product axes ∧
      (lin_list axes (out, stride) js).1 < stride * shape_product axes
  | [], [], out, stride, _, ho, _ => by simpa [lin_list, shape_product] using ho
  | [], _ :: _, _, _, hv, _, _ => by simp [valid_indices] at hv
  | _ :: _, [], _, _, hv, _, _ => by simp [valid_indices] at hv
  | a :: axes, j :: js, out, stride, hv, ho, hfit => by
    simp only [valid_indices] at hv
    have hpos := shape_product_pos_of_valid axes js hv.2
    have hsp : shape_product (a :: axes) = a.shape * shape_product axes := by
      simp [shape_product]
    rw [hsp] at hfit ⊢
    obtain ⟨e, hlt⟩ := accumulate_of_fit out stride a j _ hv.1 ho hpos hfit
    have ih := lin_list_valid axes js (out + j.toNat * stride) (stride * a.shape) hv.2 hlt
      (by rw [mul_assoc]; exact hfit)
    simp only [lin_list, detail.lin, hv.1, and_self, if_true, e]
    rw [← mul_assoc]
    exact ih

theorem lin_list_stride_zero : ∀ (axes : List Axis) (js : List Int) (out : Nat),
    (lin_list axes (out, 0) js).2 = 0
  | [], _, _ => by simp [lin_list]
  | _ :: _, [], _ => by simp [lin_list]
  | a :: axes, j :: js, out => by
    simp only [lin_list, detail.lin, detail.accumulate]
    split
    · simpa using lin_list_stride_zero axes js _
    · exact lin_list_stride_zero axes js _

theorem lin_list_invalid : ∀ (axes : List Axis) (js : List Int) (out stride : Nat),
    axes.length = js.length → ¬ valid_indices axes js →
    (lin_list axes (out, stride) js).2 = 0
  | [], [], _, _, _, hv => by simp [valid_indices] at hv
  | [], _ :: _, _, _, hl, _ => by simp at hl
  | _ :: _, [], _, _, hl, _ => by simp at hl
  | a :: axes, j :: js, out, stride, hl, hv => by
    simp only [valid_indices, not_and] at hv
    simp only [lin_list, detail.lin]
    by_cases hj : 0 ≤ j ∧ j < (a.shape : Int)
    · simp only [hj, and_self, if_true]
      exact lin_list_invalid axes js _ _ (by simpa using hl) (hv hj)
    · simp only [hj, if_false]
      exact lin_list_stride_zero axes js _

theorem valid_indices_iff : ∀ (axes : List Axis) (js : List Int), axes.length = js.length →
    (valid_indices axes js ↔
      ∀ (i : Nat) (a : Axis) (j : Int), axes[i]? = some a → js[i]? = some j → 0 ≤ j ∧ j < (a.shape : Int))
  | [], [], _ => by simp [valid_indices]
  | [], _ :: _, hl => by simp at hl
  | _ :: _, [], hl => by simp at hl
  | a :: axes, j :: js, hl => by
    have ih := valid_indices_iff axes js (by simpa using hl)
    simp only [valid_indices, ih]
    constructor
    · rintro ⟨h0, hr⟩ i b k hb hk
      cases i with
      | zero =>
        simp only [List.getElem?_cons_zero, Option.some.injEq] at hb hk
        subst hb; subst hk; exact h0
      | succ i =>
        simp only [List.getElem?_cons_succ] at hb hk
        exact hr i b k hb hk
    · intro hall
      refine ⟨hall 0 a j (by simp) (by simp), fun i b k hb hk => ?_⟩
      exact hall (i + 1) b k (by simpa using hb) (by simpa using hk)

theorem not_valid_indices_iff (axes : List Axis) (js : List Int) (hl : axes.length = js.length) :
    (¬ valid_indices axes js ↔
      ∃ (i : Nat) (a : Axis) (j : Int), axes[i]? = some a ∧ js[i]? = some j ∧ ¬ (0 ≤ j ∧ j < (a.shape : Int))) := by
  rw [valid_indices_iff axes js hl]
  push_neg
  constructor
  · rintro ⟨i, a, j, h1, h2, h3⟩; exact ⟨i, a, j, h1, h2, h3⟩
  · rintro ⟨i, a, j, h1, h2, h3⟩; exact ⟨i, a, j, h1, h2, h3⟩

theorem value_eq {T : Type} [Zero T] (h : static_histogram T) (indices : List Int) :
    h.value indices =
      if (lin_list h.axes_ (0, 1) indices).2 = 0 then
        Except.error (error.out_of_range "invalid index")
      else Except.ok (h.storage_.value (lin_list h.axes_ (0, 1) indices).1) := by
  simp [static_histogram.value, lin_eq_lin_list]

theorem ctor_bincount_mod {T : Type} [Zero T] (axes : List Axis) :
    (ctor axes : static_histogram T).bincount = shape_product axes % size_t_mod := by
  simp only [ctor, bincount, array_storage.size, array_storage.ctor,
    (array_storage.init_spec _).1, bincount_from_axes_eq]

theorem ctor_zero {T : Type} [Zero T] (axes : List Axis) (i : Nat) :
    (ctor axes : static_histogram T).storage_.value i = 0 := by
  simp [ctor, array_storage.value, counter_traits.value, array_storage.ctor,
    (array_storage.init_spec _).2.2]

/-- C1, amended: the histogram constructed from a non-empty list of axes has `bincount()`
equal to the product of the shapes reduced modulo `2 ^ 64` and every counter of its storage
is zero; when the product is below `2 ^ 64` the bin count is the product itself, the
invariants of the data model hold and `value` reads zero at every valid index tuple. -/
theorem ctor_bincount_and_zero {T : Type} [Zero T] (axes : List Axis) (hne : axes ≠ []) :
    (ctor axes : static_histogram T).bincount = shape_product axes % size_t_mod ∧
    (∀ i, i < (ctor axes : static_histogram T).bincount →
      (ctor axes : static_histogram T).storage_.value i = 0) ∧
    (shape_product axes < size_t_mod →
      (ctor axes : static_histogram T).bincount = shape_product axes ∧
      (ctor axes : static_histogram T).invariant ∧
      ∀ indices, valid_indices axes indices →
        (ctor axes : static_histogram T).value indices = Except.ok 0) := by
  refine ⟨ctor_bincount_mod axes, fun i _ => ctor_zero axes i, fun hfit => ?_⟩
  have hb : (ctor axes : static_histogram T).bincount = shape_product axes := by
    rw [ctor_bincount_mod, Nat.mod_eq_of_lt hfit]
  refine ⟨hb, ⟨hne, hb, ?_, ?_⟩, fun indices hv => ?_⟩
  · simp [ctor, array_storage.ctor, (array_storage.init_spec _).2.1, (array_storage.init_spec _).1]
  · have : (ctor axes : static_histogram T).storage_.size_ = shape_product axes := hb
    rw [this]; exact hfit
  · rw [value_eq]
    have h2 := (lin_list_valid axes indices 0 1 hv (by decide) (by simpa using hfit)).1
    have hpos := shape_product_pos_of_valid axes indices hv
    have hax : (ctor axes : static_histogram T).axes_ = axes := rfl
    rw [hax, h2, ctor_zero]
    simp [Nat.pos_iff_ne_zero.mp hpos]

/-- C1, counterexample: four axes of 65536 slots each have a product of shapes of `2 ^ 64`,
which no `std::size_t` holds; the constructed histogram reports a bin count of 0. -/
theorem ctor_bincount_overflow :
    axes_wide ≠ [] ∧
    (ctor axes_wide : static_histogram (uint 32)).bincount ≠ shape_product axes_wide ∧
    (ctor axes_wide : static_histogram (uint 32)).bincount = 0 := by
  decide

/-- C1, instance: the two-axis example has 5 · 2 = 10 bins, all zero. -/
theorem ctor_bincount_and_zero_witness :
    axes_2d ≠ [] ∧ shape_product axes_2d < size_t_mod ∧
    (ctor axes_2d : static_histogram (uint 32)).bincount = shape_product axes_2d ∧
    (ctor axes_2d : static_histogram (uint 32)).value [4, 1] = Except.ok 0 :=
  ⟨by decide, by decide,
    ((ctor_bincount_and_zero axes_2d (by decide)).2.2 (by decide)).1,
    ((ctor_bincount_and_zero axes_2d (by decide)).2.2 (by decide)).2.2 [4, 1] (by decide)⟩

/-- C2: on a histogram satisfying the invariants of the data model, `value` called with one
index per axis throws `out_of_range` if and only if some index lies outside `[0, shape)` of
its axis, wherever that axis stands; when every index is in range it returns the counter at
an offset inside the storage, so a failing call returns no counter value. -/
theorem value_out_of_range_iff {T : Type} [Zero T] (h : static_histogram T)
    (indices : List Int) (hinv : h.invariant) (hlen : indices.length = h.dim) :
    (h.value indices = Except.error (error.out_of_range "invalid index") ↔
      ∃ (i : Nat) (a : Axis) (j : Int), h.axes_[i]? = some a ∧ indices[i]? = some j ∧
        ¬ (0 ≤ j ∧ j < (a.shape : Int))) ∧
    ((∀ (i : Nat) (a : Axis) (j : Int), h.axes_[i]? = some a → indices[i]? = some j →
        0 ≤ j ∧ j < (a.shape : Int)) →
      ∃ k, k < h.bincount ∧ h.value indices = Except.ok (h.storage_.value k)) := by
  have hl : h.axes_.length = indices.length := hlen.symm
  obtain ⟨_, hsz, _, hlt⟩ := hinv
  rw [← not_valid_indices_iff _ _ hl, ← valid_indices_iff _ _ hl, value_eq]
  by_cases hv : valid_indices h.axes_ indices
  · obtain ⟨h2, h1⟩ := lin_list_valid h.axes_ indices 0 1 hv (by decide)
      (by rw [one_mul, ← hsz]; exact hlt)
    have hpos := shape_product_pos_of_valid h.axes_ indices hv
    rw [one_mul] at h1 h2
    have hne : (lin_list h.axes_ (0, 1) indices).2 ≠ 0 := by omega
    refine ⟨by simp [hne, hv], fun _ => ⟨(lin_list h.axes_ (0, 1) indices).1, ?_, by simp [hne]⟩⟩
    simp only [bincount, array_storage.size, hsz]; exact h1
  · have h0 := lin_list_invalid h.axes_ indices 0 1 hl hv
    simp [h0, hv]

/-- C2, instance: index 5 on the first axis (shape 5) makes the lookup fail although the index
on the second axis is valid. -/
theorem value_out_of_range_iff_witness :
    hist_2d.invariant ∧ [(5 : Int), 0].length = hist_2d.dim ∧
    hist_2d.value [5, 0] = Except.error (error.out_of_range "invalid index") :=
  ⟨by decide, by decide,
    (value_out_of_range_iff hist_2d [5, 0] (by decide) (by decide)).1.mpr
      ⟨0, Axis.integer_axis 0 2 "x" true, 5, rfl, rfl, by decide⟩⟩

/-! ## Lemmas on filling -/

theorem slot_valid_iff (a : Axis) (j : Int) :
    (0 ≤ a.slot j ∧ a.slot j < (a.shape : Int)) ↔
      ((0 ≤ j ∧ j < (a.bins : Int)) ∨ a.uoflow = true) := by
  unfold Axis.slot Axis.flow_slot Axis.shape
  cases a.uoflow
  · simp only [Bool.false_eq_true, if_false, or_false, Nat.mul_zero, Nat.add_zero]
    split_ifs <;> omega
  · simp only [if_true, or_true, iff_true, Nat.mul_one, Nat.cast_add, Nat.cast_ofNat]
    split_ifs <;> omega

theorem detail_xlin_eq_lin {X : Type} (index : Axis → X → Int) (out stride : Nat) (a : Axis)
    (x : X) : detail.xlin index out stride a x = detail.lin out stride a (a.slot (index a x)) := by
  have hs := slot_valid_iff a (index a x)
  unfold detail.xlin detail.lin
  by_cases hr : 0 ≤ index a x ∧ index a x < (a.bins : Int)
  · have hv := hs.mpr (Or.inl hr)
    simp only [hr, and_self, if_true, hv]
    simp [Axis.slot, hr]
  · by_cases hu : a.uoflow = true
    · have hv := hs.mpr (Or.inr hu)
      simp only [hr, if_false, hu, if_true, hv, and_self]
      simp [Axis.slot, hr]
    · have hv : ¬ (0 ≤ a.slot (index a x) ∧ a.slot (index a x) < (a.shape : Int)) := by
        rw [hs]; push_neg; exact ⟨fun h0 => by have := hr; push_neg at this; exact this h0, hu⟩
      simp only [hr, if_false, hu, hv]
      simp

theorem slots_length {X : Type} (index : Axis → X → Int) : ∀ (axes : List Axis) (xs : List X),
    axes.length = xs.length → (slots index axes xs).length = xs.length
  | [], [], _ => rfl
  | [], _ :: _, hl => by simp at hl
  | _ :: _, [], hl => by simp at hl
  | a :: axes, x :: xs, hl => by
    simp only [slots, List.length_cons, add_left_inj]
    exact slots_length index axes xs (by simpa using hl)

theorem xlin_eq_lin_list {T X : Type} (index : Axis → X → Int) (h : static_histogram T)
    (xs : List X) : ∀ (D : Nat) (st : Nat × Nat),
    h.xlin index D st xs = lin_list (h.axes_.drop D) st (slots index (h.axes_.drop D) xs) := by
  induction xs with
  | nil => intro D st; cases h.axes_.drop D <;> simp [static_histogram.xlin, lin_list, slots]
  | cons x xs ih =>
    intro D st
    rw [static_histogram.xlin]
    by_cases hD : D < h.axes_.length
    · rw [List.getElem?_eq_getElem hD, List.drop_eq_getElem_cons hD]
      simp only [lin_list, slots, detail_xlin_eq_lin]
      exact ih (D + 1) _
    · rw [List.getElem?_eq_none (Nat.le_of_not_lt hD), List.drop_eq_nil_of_le (Nat.le_of_not_lt hD)]
      simp [lin_list]

theorem valid_slots_iff {X : Type} (index : Axis → X → Int) :
    ∀ (axes : List Axis) (xs : List X), axes.length = xs.length →
    (valid_indices axes (slots index axes xs) ↔
      ∀ (i : Nat) (a : Axis) (x : X), axes[i]? = some a → xs[i]? = some x →
        ((0 ≤ index a x ∧ index a x < (a.bins : Int)) ∨ a.uoflow = true))
  | [], [], _ => by simp [valid_indices, slots]
  | [], _ :: _, hl => by simp at hl
  | _ :: _, [], hl => by simp at hl
  | a :: axes, x :: xs, hl => by
    have ih := valid_slots_iff index axes xs (by simpa using hl)
    simp only [slots, valid_indices, ih, slot_valid_iff]
    constructor
    · rintro ⟨h0, hr⟩ i b k hb hk
      cases i with
      | zero =>
        simp only [List.getElem?_cons_zero, Option.some.injEq] at hb hk
        subst hb; subst hk; exact h0
      | succ i =>
        simp only [List.getElem?_cons_succ] at hb hk
        exact hr i b k hb hk
    · intro hall
      refine ⟨hall 0 a x (by simp) (by simp), fun i b k hb hk => ?_⟩
      exact hall (i + 1) b k (by simpa using hb) (by simpa using hk)

theorem fill_impl_0_eq {T X : Type} [counter T] (index : Axis → X → Int)
    (h : static_histogram T) (xs : List X) :
    fill_impl_0 index h xs =
      if (lin_list h.axes_ (0, 1) (slots index h.axes_ xs)).2 ≠ 0 then
        { h with storage_ :=
            h.storage_.increase (lin_list h.axes_ (0, 1) (slots index h.axes_ xs)).1 }
      else h := by
  simp [fill_impl_0, xlin_eq_lin_list]

theorem coords_map_coord {X : Type} (xs : List X) : coords (xs.map fill_arg.coord) = xs := by
  induction xs with
  | nil => rfl
  | cons x xs ih => simpa [coords] using ih

theorem n_count_map_coord {X : Type} (xs : List X) : n_count (xs.map fill_arg.coord) = 0 := by
  induction xs with
  | nil => rfl
  | cons x xs _ => simp [n_count]

theorem n_weight_map_coord {X : Type} (xs : List X) : n_weight (xs.map fill_arg.coord) = 0 := by
  induction xs with
  | nil => rfl
  | cons x xs _ => simp [n_weight]

theorem fill_coords {T X : Type} [counter T] (index : Axis → X → Int)
    (h : static_histogram T) (xs : List X) (hlen : xs.length = h.dim) :
    fill index h (xs.map fill_arg.coord) = fill_impl_0 index h xs := by
  have hw : fill_well_formed h (xs.map fill_arg.coord) := by
    simp [fill_well_formed, n_count_map_coord, n_weight_map_coord, hlen]
  simp [fill, hw, n_count_map_coord, n_weight_map_coord, coords_map_coord]

theorem lin_list_offset : ∀ (axes : List Axis) (js : List Int) (out stride : Nat),
    valid_indices axes js → out < stride → stride * shape_product axes < size_t_mod →
    (lin_list axes (out, stride) js).1 = out + stride * mixed_radix axes js
  | [], [], out, stride, _, _, _ => by simp [lin_list, mixed_radix]
  | [], _ :: _, _, _, hv, _, _ => by simp [valid_indices] at hv
  | _ :: _, [], _, _, hv, _, _ => by simp [valid_indices] at hv
  | a :: axes, j :: js, out, stride, hv, ho, hfit => by
    simp only [valid_indices] at hv
    have hpos := shape_product_pos_of_valid axes js hv.2
    have hsp : shape_product (a :: axes) = a.shape * shape_product axes := by
      simp [shape_product]
    rw [hsp] at hfit
    obtain ⟨e, hlt⟩ := accumulate_of_fit out stride a j _ hv.1 ho hpos hfit
    have ih := lin_list_offset axes js (out + j.toNat * stride) (stride * a.shape) hv.2 hlt
      (by rw [mul_assoc]; exact hfit)
    simp only [lin_list, detail.lin, hv.1, and_self, if_true, e, mixed_radix]
    rw [ih]; ring

theorem mixed_radix_inj : ∀ (axes : List Axis) (js js' : List Int),
    valid_indices axes js → valid_indices axes js' →
    mixed_radix axes js = mixed_radix axes js' → js = js'
  | [], [], [], _, _, _ => rfl
  | [], _ :: _, _, hv, _, _ => by simp [valid_indices] at hv
  | [], [], _ :: _, _, hv, _ => by simp [valid_indices] at hv
  | _ :: _, [], _, hv, _, _ => by simp [valid_indices] at hv
  | _ :: _, _ :: _, [], _, hv, _ => by simp [valid_indices] at hv
  | a :: axes, j :: js, j' :: js', hv, hv', he => by
    simp only [valid_indices] at hv hv'
    simp only [mixed_radix] at he
    have hj : j.toNat < a.shape := by omega
    have hj' : j'.toNat < a.shape := by omega
    have h1 : j.toNat = j'.toNat := by
      have := congrArg (· % a.shape) he
      simpa [Nat.add_mul_mod_self_left, Nat.mod_eq_of_lt hj, Nat.mod_eq_of_lt hj'] using this
    have h2 : mixed_radix axes js = mixed_radix axes js' := by
      have hpos : 0 < a.shape := by omega
      rw [h1] at he
      exact Nat.eq_of_mul_eq_mul_left hpos (Nat.add_left_cancel he)
    have h3 : j = j' := by omega
    rw [h3, mixed_radix_inj axes js js' hv.2 hv'.2 h2]

theorem value_increase {T : Type} [Zero T] [Add T] [One T] (s : array_storage T) (k j : Nat)
    (hk : k < s.array_.length) :
    (s.increase k).value j = if j = k then s.value k + 1 else s.value j := by
  simp only [array_storage.increase, array_storage.value, counter_traits.value,
    array_storage.at_put, hk, and_true]

/-- C3: on a histogram satisfying the invariants of the data model, a plain fill whose
coordinate on each axis is in range or lands on a flow-enabled axis adds 1 to exactly one
counter, the one that `value` addresses with the per-axis slots (regular bin index or
dedicated flow slot); every other counter, and `value` at every other valid index tuple,
is unchanged, as are the axes and the bin count. -/
theorem fill_increases_one_bin {T X : Type} [arithmetic T] (index : Axis → X → Int)
    (h : static_histogram T) (xs : List X) (hinv : h.invariant) (hlen : xs.length = h.dim)
    (hflow : ∀ (i : Nat) (a : Axis) (x : X), h.axes_[i]? = some a → xs[i]? = some x →
      ((0 ≤ index a x ∧ index a x < (a.bins : Int)) ∨ a.uoflow = true)) :
    ∃ k, k < h.bincount ∧
      h.value (slots index h.axes_ xs) = Except.ok (h.storage_.value k) ∧
      (fill index h (xs.map fill_arg.coord)).value (slots index h.axes_ xs) =
        Except.ok (h.storage_.value k + 1) ∧
      (fill index h (xs.map fill_arg.coord)).storage_.value k = h.storage_.value k + 1 ∧
      (∀ k', k' ≠ k →
        (fill index h (xs.map fill_arg.coord)).storage_.value k' = h.storage_.value k') ∧
      (∀ js, valid_indices h.axes_ js → js ≠ slots index h.axes_ xs →
        (fill index h (xs.map fill_arg.coord)).value js = h.value js) ∧
      (fill index h (xs.map fill_arg.coord)).axes_ = h.axes_ ∧
      (fill index h (xs.map fill_arg.coord)).bincount = h.bincount := by
  have hl : h.axes_.length = xs.length := hlen.symm
  obtain ⟨_, hsz, hal, hlt⟩ := hinv
  have hv : valid_indices h.axes_ (slots index h.axes_ xs) :=
    (valid_slots_iff index h.axes_ xs hl).mpr hflow
  have hfit : 1 * shape_product h.axes_ < size_t_mod := by rw [one_mul, ← hsz]; exact hlt
  obtain ⟨h2, h1⟩ := lin_list_valid h.axes_ _ 0 1 hv (by decide) hfit
  have hoff := lin_list_offset h.axes_ _ 0 1 hv (by decide) hfit
  have hpos := shape_product_pos_of_valid h.axes_ _ hv
  rw [one_mul] at h1 h2
  have hne : (lin_list h.axes_ (0, 1) (slots index h.axes_ xs)).2 ≠ 0 := by omega
  have hk : (lin_list h.axes_ (0, 1) (slots index h.axes_ xs)).1 < h.storage_.array_.length := by
    rw [hal, hsz]; exact h1
  have hfill : fill index h (xs.map fill_arg.coord) =
      { h with storage_ :=
          h.storage_.increase (lin_list h.axes_ (0, 1) (slots index h.axes_ xs)).1 } := by
    rw [fill_coords index h xs hlen, fill_impl_0_eq, if_pos hne]
  refine ⟨(lin_list h.axes_ (0, 1) (slots index h.axes_ xs)).1, ?_, ?_, ?_, ?_, ?_, ?_, ?_, ?_⟩
  · simp only [bincount, array_storage.size, hsz]; exact h1
  · rw [value_eq, if_neg hne]
  · rw [hfill, value_eq]
    simp only [if_neg hne, value_increase _ _ _ hk, if_true]
  · rw [hfill]; simp only [value_increase _ _ _ hk, if_true]
  · intro k' hk'
    rw [hfill]; simp only [value_increase _ _ _ hk, if_neg hk']
  · intro js hjs hdiff
    obtain ⟨g2, g1⟩ := lin_list_valid h.axes_ js 0 1 hjs (by decide) hfit
    have goff := lin_list_offset h.axes_ js 0 1 hjs (by decide) hfit
    rw [one_mul] at g2
    have gne : (lin_list h.axes_ (0, 1) js).2 ≠ 0 := by omega
    have hkk : (lin_list h.axes_ (0, 1) js).1 ≠
        (lin_list h.axes_ (0, 1) (slots index h.axes_ xs)).1 := by
      intro he
      rw [goff, hoff] at he
      simp only [Nat.zero_add, Nat.one_mul] at he
      exact hdiff (mixed_radix_inj h.axes_ js _ hjs hv he)
    rw [hfill, value_eq, value_eq]
    simp only [if_neg gne, value_increase _ _ _ hk, if_neg hkk]
  · rw [hfill]
  · rw [hfill]; simp [bincount, array_storage.size, array_storage.increase, array_storage.size_put]

/-- C3, instance: filling (-1, 1) into the two-axis example: the first coordinate underflows
on the flow-enabled axis, the second is in range. -/
theorem fill_increases_one_bin_witness :
    hist_2d.invariant ∧ [(-1 : Int), 1].length = hist_2d.dim ∧
    ∃ k, k < hist_2d.bincount ∧
      hist_2d.value (slots Axis.integer_index hist_2d.axes_ [-1, 1]) =
        Except.ok (hist_2d.storage_.value k) ∧
      (fill Axis.integer_index hist_2d ([(-1 : Int), 1].map fill_arg.coord)).value
          (slots Axis.integer_index hist_2d.axes_ [-1, 1]) =
        Except.ok (hist_2d.storage_.value k + 1) ∧
      (fill Axis.integer_index hist_2d ([(-1 : Int), 1].map fill_arg.coord)).storage_.value k =
        hist_2d.storage_.value k + 1 ∧
      (∀ k', k' ≠ k →
        (fill Axis.integer_index hist_2d ([(-1 : Int), 1].map fill_arg.coord)).storage_.value k' =
          hist_2d.storage_.value k') ∧
      (∀ js, valid_indices hist_2d.axes_ js →
        js ≠ slots Axis.integer_index hist_2d.axes_ [-1, 1] →
        (fill Axis.integer_index hist_2d ([(-1 : Int), 1].map fill_arg.coord)).value js =
          hist_2d.value js) ∧
      (fill Axis.integer_index hist_2d ([(-1 : Int), 1].map fill_arg.coord)).axes_ =
        hist_2d.axes_ ∧
      (fill Axis.integer_index hist_2d ([(-1 : Int), 1].map fill_arg.coord)).bincount =
        hist_2d.bincount :=
  ⟨by decide, by decide,
    fill_increases_one_bin Axis.integer_index hist_2d [-1, 1] (by decide) (by decide)
      (fun i a x ha hx => by
        match i with
        | 0 =>
          simp only [hist_2d, ctor, axes_2d, List.getElem?_cons_zero, Option.some.injEq] at ha hx
          subst ha; subst hx; decide
        | 1 =>
          simp only [hist_2d, ctor, axes_2d, List.getElem?_cons_succ, List.getElem?_cons_zero,
            Option.some.injEq] at ha hx
          subst ha; subst hx; decide
        | i + 2 => simp [hist_2d, ctor, axes_2d] at ha)⟩

/-! ## Fills with a count or a weight -/

theorem length_eq_coords_add {X : Type} (args : List (fill_arg X)) :
    args.length = (coords args).length + n_count args + n_weight args := by
  induction args with
  | nil => rfl
  | cons a args ih =>
    cases a <;> simp [coords, n_count, n_weight] at ih ⊢ <;> omega

theorem xlin_n_eq {T X : Type} (index : Axis → X → Int) (h : static_histogram T)
    (args : List (fill_arg X)) : ∀ (D idx stride x : Nat), n_weight args = 0 →
    D + (coords args).length ≤ h.axes_.length →
    h.xlin_n index D (idx, stride, x) args =
      ((h.xlin index D (idx, stride) (coords args)).1,
       (h.xlin index D (idx, stride) (coords args)).2, count_value x args) := by
  induction args with
  | nil => intro D idx stride x _ _; simp [xlin_n, static_histogram.xlin, coords, count_value]
  | cons a args ih =>
    intro D idx stride x hw hl
    cases a with
    | coord c =>
      have hw2 : n_weight args = 0 := by simpa [n_weight] using hw
      have hl2 : D + 1 + (coords args).length ≤ h.axes_.length := by
        simp [coords] at hl ⊢; omega
      have hD : D < h.axes_.length := by omega
      have hc : coords (fill_arg.coord c :: args) = c :: coords args := by simp [coords]
      rw [hc, xlin_n, static_histogram.xlin, List.getElem?_eq_getElem hD]
      simp only [count_value]
      exact ih (D + 1) _ _ x hw2 hl2
    | count v =>
      have hw2 : n_weight args = 0 := by simpa [n_weight] using hw
      have hc : coords (fill_arg.count v :: args) = coords args := by simp [coords]
      rw [hc] at hl ⊢
      rw [xlin_n]
      simp only [count_value]
      exact ih D idx stride v hw2 hl
    | weight v => simp [n_weight] at hw

theorem xlin_w_eq {T X : Type} (index : Axis → X → Int) (h : static_histogram T)
    (args : List (fill_arg X)) : ∀ (D idx stride : Nat) (x : ℚ), n_count args = 0 →
    D + (coords args).length ≤ h.axes_.length →
    h.xlin_w index D (idx, stride, x) args =
      ((h.xlin index D (idx, stride) (coords args)).1,
       (h.xlin index D (idx, stride) (coords args)).2, weight_value x args) := by
  induction args with
  | nil => intro D idx stride x _ _; simp [xlin_w, static_histogram.xlin, coords, weight_value]
  | cons a args ih =>
    intro D idx stride x hw hl
    cases a with
    | coord c =>
      have hw2 : n_count args = 0 := by simpa [n_count] using hw
      have hl2 : D + 1 + (coords args).length ≤ h.axes_.length := by
        simp [coords] at hl ⊢; omega
      have hD : D < h.axes_.length := by omega
      have hc : coords (fill_arg.coord c :: args) = c :: coords args := by simp [coords]
      rw [hc, xlin_w, static_histogram.xlin, List.getElem?_eq_getElem hD]
      simp only [weight_value]
      exact ih (D + 1) _ _ x hw2 hl2
    | weight v =>
      have hw2 : n_count args = 0 := by simpa [n_count] using hw
      have hc : coords (fill_arg.weight v :: args) = coords args := by simp [coords]
      rw [hc] at hl ⊢
      rw [xlin_w]
      simp only [weight_value]
      exact ih D idx stride v hw2 hl
    | count v => simp [n_count] at hw

theorem coords_length_of_well_formed {T X : Type} (h : static_histogram T)
    (args : List (fill_arg X)) (hwf : fill_well_formed h args) :
    (coords args).length = h.axes_.length := by
  have := length_eq_coords_add args
  obtain ⟨_, h2⟩ := hwf
  simp only [dim] at h2
  omega

/-- Every well-formed fill, whatever its kind, runs the permissive linearizer over its
coordinates and, when the stride is not 0, adds `fill_amount` to the addressed counter. -/
theorem fill_eq {T X : Type} [counter T] (index : Axis → X → Int) (h : static_histogram T)
    (args : List (fill_arg X)) (hwf : fill_well_formed h args) :
    fill index h args =
      if (fill_target index h args).2 ≠ 0 then
        { h with
          storage_ := h.storage_.put (fill_target index h args).1
                        (h.storage_.at_ (fill_target index h args).1 + fill_amount args) }
      else h := by
  have hcl := coords_length_of_well_formed h args hwf
  have hle : 0 + (coords args).length ≤ h.axes_.length := by omega
  have hx := xlin_eq_lin_list index h (coords args) 0 (0, 1)
  simp only [List.drop_zero] at hx
  have hwf2 : fill_well_formed h args := hwf
  obtain ⟨hw1, _⟩ := hwf
  unfold fill fill_amount fill_target
  rw [if_pos hwf2]
  rcases Nat.lt_or_ge (n_weight args) 1 with hnw | hnw
  · have hnw0 : n_weight args = 0 := by omega
    rcases Nat.lt_or_ge (n_count args) 1 with hnc | hnc
    · have hnc0 : n_count args = 0 := by omega
      simp only [hnc0, hnw0, fill_impl_0, hx, array_storage.increase]
    · have hnc1 : n_count args = 1 := by omega
      have e := xlin_n_eq index h args 0 0 1 0 hnw0 hle
      simp only [hnc1, hnw0, fill_impl_1, e, hx, array_storage.add,
        counter_traits.increase_by_count]
  · have hnw1 : n_weight args = 1 := by omega
    have hnc0 : n_count args = 0 := by omega
    have e := xlin_w_eq index h args 0 0 1 0 hnc0 hle
    simp only [hnc0, hnw1, fill_impl_2, e, hx, array_storage.increase_by_weight,
      counter_traits.increase_by_weight]

/-! ## Discarded and counted fills -/

theorem fill_target_invalid {T X : Type} (index : Axis → X → Int) (h : static_histogram T)
    (args : List (fill_arg X)) (hwf : fill_well_formed h args)
    (hout : ∃ (i : Nat) (a : Axis) (x : X), h.axes_[i]? = some a ∧ (coords args)[i]? = some x ∧
      a.uoflow = false ∧ ¬ (0 ≤ index a x ∧ index a x < (a.bins : Int))) :
    (fill_target index h args).2 = 0 := by
  have hcl := coords_length_of_well_formed h args hwf
  have hl : h.axes_.length = (slots index h.axes_ (coords args)).length := by
    rw [slots_length index _ _ hcl.symm, hcl]
  apply lin_list_invalid _ _ _ _ hl
  rw [valid_slots_iff index _ _ hcl.symm]
  intro hall
  obtain ⟨i, a, x, ha, hx, hu, hr⟩ := hout
  rcases hall i a x ha hx with h1 | h1
  · exact hr h1
  · rw [hu] at h1; exact Bool.false_ne_true h1

theorem fill_target_valid {T X : Type} (index : Axis → X → Int) (h : static_histogram T)
    (args : List (fill_arg X)) (hinv : h.invariant) (hwf : fill_well_formed h args)
    (hflow : ∀ (i : Nat) (a : Axis) (x : X), h.axes_[i]? = some a →
      (coords args)[i]? = some x →
      ((0 ≤ index a x ∧ index a x < (a.bins : Int)) ∨ a.uoflow = true)) :
    (fill_target index h args).2 ≠ 0 ∧ (fill_target index h args).1 < h.bincount ∧
      (fill_target index h args).1 < h.storage_.array_.length := by
  have hcl := coords_length_of_well_formed h args hwf
  obtain ⟨_, hsz, hal, hlt⟩ := hinv
  have hv : valid_indices h.axes_ (slots index h.axes_ (coords args)) :=
    (valid_slots_iff index h.axes_ _ hcl.symm).mpr hflow
  have hfit : 1 * shape_product h.axes_ < size_t_mod := by rw [one_mul, ← hsz]; exact hlt
  obtain ⟨h2, h1⟩ := lin_list_valid h.axes_ _ 0 1 hv (by decide) hfit
  have hpos := shape_product_pos_of_valid h.axes_ _ hv
  rw [one_mul] at h1 h2
  unfold fill_target
  refine ⟨by omega, ?_, ?_⟩
  · simp only [bincount, array_storage.size, hsz]; exact h1
  · rw [hal, hsz]; exact h1

/-- C4: a well-formed fill of any kind (plain, with a count, or with a weight) in which some
flow-disabled axis, at whatever position, receives a coordinate outside its range returns
the histogram it was given: nothing is thrown and no bin changes, whatever the other
coordinates are. -/
theorem fill_dropped_on_flow_disabled_axis {T X : Type} [arithmetic T]
    (index : Axis → X → Int) (h : static_histogram T) (args : List (fill_arg X))
    (hwf : fill_well_formed h args)
    (hout : ∃ (i : Nat) (a : Axis) (x : X), h.axes_[i]? = some a ∧ (coords args)[i]? = some x ∧
      a.uoflow = false ∧ ¬ (0 ≤ index a x ∧ index a x < (a.bins : Int))) :
    fill index h args = h := by
  rw [fill_eq index h args hwf, fill_target_invalid index h args hwf hout]
  simp

/-- C4, instance: a fill with a count whose second coordinate, 5, is outside the range of the
flow-disabled second axis leaves the two-axis example as it was. -/
theorem fill_dropped_on_flow_disabled_axis_witness :
    fill_well_formed hist_2d [fill_arg.coord (1 : Int), fill_arg.count 3, fill_arg.coord 5] ∧
    fill Axis.integer_index hist_2d [fill_arg.coord 1, fill_arg.count 3, fill_arg.coord 5] =
      hist_2d :=
  ⟨by decide,
    fill_dropped_on_flow_disabled_axis Axis.integer_index hist_2d
      [fill_arg.coord 1, fill_arg.count 3, fill_arg.coord 5] (by decide)
      ⟨1, Axis.integer_axis 0 1 "y" false, 5, rfl, rfl, rfl, by decide⟩⟩

/-- C5, counterexample: on a one-axis histogram whose axis has flow bins, the coordinate -1
is outside the range of every axis, and yet the fill changes the counter of the underflow
slot. -/
theorem fill_all_outside_counterexample :
    (∀ (i : Nat) (a : Axis) (x : Int), axes_1d_flow[i]? = some a → [(-1 : Int)][i]? = some x →
      ¬ (0 ≤ Axis.integer_index a x ∧ Axis.integer_index a x < (a.bins : Int))) ∧
    (fill Axis.integer_index (ctor axes_1d_flow : static_histogram (uint 32))
        [fill_arg.coord (-1)]).storage_.value 4 ≠
      (ctor axes_1d_flow : static_histogram (uint 32)).storage_.value 4 := by
  refine ⟨?_, by decide⟩
  intro i a x ha hx
  cases i with
  | zero =>
    simp only [axes_1d_flow, List.getElem?_cons_zero, Option.some.injEq] at ha hx
    subst ha; subst hx; decide
  | succ i => simp [axes_1d_flow] at ha

/-- C5, amended: a fill in which every coordinate is outside the range of its axis is
discarded, the histogram staying as it was, when at least one axis has flow disabled; when
every axis has flow enabled it is counted in the bin addressed by the flow slots and no
other counter changes. -/
theorem fill_all_outside {T X : Type} [arithmetic T] (index : Axis → X → Int)
    (h : static_histogram T) (args : List (fill_arg X)) (hinv : h.invariant)
    (hwf : fill_well_formed h args)
    (hall : ∀ (i : Nat) (a : Axis) (x : X), h.axes_[i]? = some a →
      (coords args)[i]? = some x → ¬ (0 ≤ index a x ∧ index a x < (a.bins : Int))) :
    ((∃ a ∈ h.axes_, a.uoflow = false) → fill index h args = h) ∧
    ((∀ a ∈ h.axes_, a.uoflow = true) →
      ∃ k, k < h.bincount ∧
        h.value (slots index h.axes_ (coords args)) = Except.ok (h.storage_.value k) ∧
        (fill index h args).storage_.value k = h.storage_.value k + fill_amount args ∧
        ∀ k', k' ≠ k → (fill index h args).storage_.value k' = h.storage_.value k') := by
  have hcl := coords_length_of_well_formed h args hwf
  constructor
  · rintro ⟨a, ha, hu⟩
    obtain ⟨i, hi, rfl⟩ := List.getElem_of_mem ha
    have hi2 : i < (coords args).length := by omega
    rw [fill_eq index h args hwf, fill_target_invalid index h args hwf
      ⟨i, h.axes_[i], (coords args)[i], List.getElem?_eq_getElem hi,
        List.getElem?_eq_getElem hi2, hu,
        hall i _ _ (List.getElem?_eq_getElem hi) (List.getElem?_eq_getElem hi2)⟩]
    simp
  · intro hu
    have hflow : ∀ (i : Nat) (a : Axis) (x : X), h.axes_[i]? = some a →
        (coords args)[i]? = some x →
        ((0 ≤ index a x ∧ index a x < (a.bins : Int)) ∨ a.uoflow = true) := by
      intro i a x ha _
      exact Or.inr (hu a (List.getElem?_mem ha))
    obtain ⟨hne, hk, hkl⟩ := fill_target_valid index h args hinv hwf hflow
    refine ⟨(fill_target index h args).1, hk, ?_, ?_, ?_⟩
    · rw [value_eq]; exact if_neg hne
    · rw [fill_eq index h args hwf, if_pos hne]
      simp [array_storage.value, counter_traits.value, array_storage.at_put, hkl]
    · intro k' hk'
      rw [fill_eq index h args hwf, if_pos hne]
      simp [array_storage.value, counter_traits.value, array_storage.at_put, hk']

/-- C5, instance: both coordinates of the fill (-1, 7) are outside the range of their axes and
the second axis has flow disabled, so the two-axis example stays as it was. -/
theorem fill_all_outside_witness :
    hist_2d.invariant ∧
    fill_well_formed hist_2d [fill_arg.coord (-1 : Int), fill_arg.coord 7] ∧
    fill Axis.integer_index hist_2d [fill_arg.coord (-1), fill_arg.coord 7] = hist_2d :=
  ⟨by decide, by decide,
    (fill_all_outside Axis.integer_index hist_2d [fill_arg.coord (-1), fill_arg.coord 7]
      (by decide) (by decide)
      (fun i a x ha hx => by
        match i with
        | 0 =>
          simp only [hist_2d, ctor, axes_2d, coords, List.filterMap_cons, List.getElem?_cons_zero,
            Option.some.injEq] at ha hx
          subst ha; subst hx; decide
        | 1 =>
          simp only [hist_2d, ctor, axes_2d, coords, List.filterMap_cons,
            List.getElem?_cons_succ, List.getElem?_cons_zero, Option.some.injEq] at ha hx
          subst ha; subst hx; decide
        | i + 2 => simp [hist_2d, ctor, axes_2d] at ha)).1
      ⟨Axis.integer_axis 0 1 "y" false, by decide, rfl⟩⟩

/-! ## The sum of all counters -/

theorem xlin_eq_fill_target {T X : Type} (index : Axis → X → Int) (h : static_histogram T)
    (args : List (fill_arg X)) :
    h.xlin index 0 (0, 1) (coords args) = fill_target index h args := by
  rw [xlin_eq_lin_list, List.drop_zero]; rfl

theorem fill_axes {T X : Type} [counter T] (index : Axis → X → Int)
    (h : static_histogram T) (args : List (fill_arg X)) :
    (fill index h args).axes_ = h.axes_ := by
  by_cases hwf : fill_well_formed h args
  · rw [fill_eq index h args hwf]; split <;> rfl
  · simp [fill, hwf]

theorem fill_size {T X : Type} [counter T] (index : Axis → X → Int)
    (h : static_histogram T) (args : List (fill_arg X)) :
    (fill index h args).storage_.size_ = h.storage_.size_ ∧
      (fill index h args).storage_.array_.length = h.storage_.array_.length := by
  by_cases hwf : fill_well_formed h args
  · rw [fill_eq index h args hwf]
    split
    · exact ⟨rfl, array_storage.length_put _ _ _⟩
    · exact ⟨rfl, rfl⟩
  · simp [fill, hwf]

theorem fill_invariant {T X : Type} [counter T] (index : Axis → X → Int)
    (h : static_histogram T) (args : List (fill_arg X)) (hinv : h.invariant) :
    (fill index h args).invariant := by
  obtain ⟨h1, h2, h3, h4⟩ := hinv
  obtain ⟨e1, e2⟩ := fill_size index h args
  have e3 := fill_axes index h args
  exact ⟨by rw [e3]; exact h1, by rw [e1, e3]; exact h2, by rw [e1, e2]; exact h3,
    by rw [e1]; exact h4⟩

theorem fill_counted_fill {T X : Type} [counter T] (index : Axis → X → Int)
    (h : static_histogram T) (args args' : List (fill_arg X)) :
    fill_counted index (fill index h args) args' ↔ fill_counted index h args' := by
  unfold fill_counted
  simp only [xlin_eq_fill_target]
  unfold fill_target
  rw [fill_axes]

/-- A counted fill addresses a counter inside the storage. -/
theorem fill_target_lt_of_counted {T X : Type} (index : Axis → X → Int)
    (h : static_histogram T) (args : List (fill_arg X)) (hinv : h.invariant)
    (hwf : fill_well_formed h args) (hc : (fill_target index h args).2 ≠ 0) :
    (fill_target index h args).1 < h.storage_.size_ ∧
      (fill_target index h args).1 < h.storage_.array_.length := by
  have hcl := coords_length_of_well_formed h args hwf
  have hl : h.axes_.length = (slots index h.axes_ (coords args)).length := by
    rw [slots_length index _ _ hcl.symm, hcl]
  have hv : valid_indices h.axes_ (slots index h.axes_ (coords args)) := by
    by_contra hnv
    exact hc (lin_list_invalid _ _ 0 1 hl hnv)
  obtain ⟨_, hsz, hal, hlt⟩ := hinv
  have hfit : 1 * shape_product h.axes_ < size_t_mod := by rw [one_mul, ← hsz]; exact hlt
  have h1 := (lin_list_valid h.axes_ _ 0 1 hv (by decide) hfit).2
  rw [one_mul] at h1
  unfold fill_target
  exact ⟨by rw [hsz]; exact h1, by rw [hal, hsz]; exact h1⟩

/-! ## Rounding to `double` -/

theorem two_pow_pos (e : Int) : 0 < two_pow e := by
  unfold two_pow
  split
  · positivity
  · positivity

theorem round_half_even_intCast (m : Int) : round_half_even (m : ℚ) = m := by
  unfold round_half_even
  rw [Int.floor_intCast, sub_self, if_pos (by norm_num)]

/-- A number whose quotient by the weight of its last bit is an integer is a `double`. -/
theorem fl_of_scaled_int (x : ℚ) (hx : x ≠ 0) (m : Int)
    (hm : x / two_pow (max (ilog2 x - 52) (-1074)) = m) : fl x = x := by
  unfold fl
  rw [if_neg hx, hm, round_half_even_intCast, ← hm]
  exact div_mul_cancel₀ x (ne_of_gt (two_pow_pos _))

theorem halvings_spec : ∀ (fuel n : Nat), n ≤ fuel → 1 ≤ n →
    2 ^ halvings fuel n ≤ n ∧ n < 2 ^ (halvings fuel n + 1)
  | 0, n, h1, h2 => by omega
  | fuel + 1, n, h1, h2 => by
    by_cases hn : 2 ≤ n
    · obtain ⟨ih1, ih2⟩ := halvings_spec fuel (n / 2) (by omega) (by omega)
      simp only [halvings, hn, if_true]
      rw [Nat.pow_succ, Nat.pow_succ]
      constructor <;> omega
    · simp only [halvings, hn, if_false]
      omega

theorem log2_floor_spec (n : Nat) (hn : 1 ≤ n) :
    2 ^ log2_floor n ≤ n ∧ n < 2 ^ (log2_floor n + 1) :=
  halvings_spec n n (Nat.le_refl _) hn

theorem ilog2_natCast (n : Nat) (hn : 1 ≤ n) : ilog2 (n : ℚ) = log2_floor n := by
  have h1 : log2_floor 1 = 0 := by decide
  have hle : ((2 ^ log2_floor n : Nat) : ℚ) ≤ (n : ℚ) := by
    exact_mod_cast (log2_floor_spec n hn).1
  unfold ilog2
  simp only [Rat.num_natCast, Int.natAbs_ofNat, Rat.den_natCast, h1, Nat.cast_zero, sub_zero,
    Nat.cast_one, div_one]
  rw [if_pos]
  unfold two_pow
  rw [if_pos (Int.natCast_nonneg _), Int.toNat_natCast]
  exact hle

/-- Every natural number up to `2 ^ 53` is a `double`. -/
theorem fl_natCast (n : Nat) (h : n ≤ 2 ^ 53) : fl (n : ℚ) = n := by
  rcases Nat.eq_zero_or_pos n with h0 | hpos
  · subst h0; simp [fl]
  · obtain ⟨l1, l2⟩ := log2_floor_spec n hpos
    have hx : (n : ℚ) ≠ 0 := by exact_mod_cast (Nat.pos_iff_ne_zero.mp hpos)
    have hL : log2_floor n ≤ 53 := by
      by_contra hc
      have h54 : 2 ^ 54 ≤ 2 ^ log2_floor n := Nat.pow_le_pow_right (by decide) (by omega)
      have : 2 ^ 53 < 2 ^ 54 := by decide
      omega
    have he : max (ilog2 (n : ℚ) - 52) (-1074) = (log2_floor n : Int) - 52 := by
      rw [ilog2_natCast n hpos]
      exact max_eq_left (by omega)
    rcases Nat.lt_or_ge (log2_floor n) 53 with hlt | hge
    · -- the last bit weighs at most 1
      apply fl_of_scaled_int _ hx ((n * 2 ^ (52 - log2_floor n) : Nat) : Int)
      rw [he]
      rcases Nat.lt_or_ge (log2_floor n) 52 with hlt2 | hge2
      · have hneg : ¬ (0 : Int) ≤ (log2_floor n : Int) - 52 := by omega
        have hexp : (-((log2_floor n : Int) - 52)).toNat = 52 - log2_floor n := by omega
        unfold two_pow
        rw [if_neg hneg, hexp]
        push_cast
        field_simp
      · have h52 : log2_floor n = 52 := by omega
        unfold two_pow
        rw [h52]
        norm_num
    · have h53 : log2_floor n = 53 := by omega
      rw [h53] at l1
      have hn : n = 2 ^ 53 := by omega
      apply fl_of_scaled_int _ hx ((2 ^ 52 : Nat) : Int)
      rw [he, h53, hn]
      unfold two_pow
      norm_num

theorem natural_iff (q : ℚ) : natural q ↔ ∃ n : Nat, q = n := by
  constructor
  · rintro ⟨h1, h2⟩
    refine ⟨q.num.toNat, ?_⟩
    have hq : q = (q.num : ℚ) := by
      have := Rat.num_div_den q
      rw [h2, Nat.cast_one, div_one] at this
      exact this.symm
    have hn : ((q.num.toNat : Nat) : Int) = q.num := Int.toNat_of_nonneg h1
    rw [hq]
    exact_mod_cast hn.symm
  · rintro ⟨n, rfl⟩
    exact ⟨by simp, by simp⟩

theorem natural_add (a b : ℚ) (ha : natural a) (hb : natural b) : natural (a + b) := by
  obtain ⟨n, rfl⟩ := (natural_iff a).mp ha
  obtain ⟨m, rfl⟩ := (natural_iff b).mp hb
  exact (natural_iff _).mpr ⟨n + m, by push_cast; rfl⟩

theorem natural_nonneg (a : ℚ) (ha : natural a) : 0 ≤ a := by
  obtain ⟨n, rfl⟩ := (natural_iff a).mp ha
  exact Nat.cast_nonneg n

theorem fl_natural (a : ℚ) (ha : natural a) (hb : a ≤ double_exact_bound) : fl a = a := by
  obtain ⟨n, rfl⟩ := (natural_iff a).mp ha
  apply fl_natCast
  have : ((n : Nat) : ℚ) ≤ ((2 ^ 53 : Nat) : ℚ) := by
    refine le_trans hb ?_
    unfold double_exact_bound
    norm_num
  exact_mod_cast this

/-- Accumulating natural numbers in a `double` is exact as long as the total stays within
`2 ^ 53`. -/
theorem foldl_fl_exact (f : Nat → ℚ) : ∀ (l : List Nat) (acc : ℚ), natural acc →
    (∀ i ∈ l, natural (f i)) →
    l.foldl (fun result i => result + f i) acc ≤ double_exact_bound →
    l.foldl (fun result i => fl (result + fl (f i))) acc =
      l.foldl (fun result i => result + f i) acc ∧
    acc ≤ l.foldl (fun result i => result + f i) acc
  | [], acc, _, _, _ => ⟨rfl, le_refl _⟩
  | i :: l, acc, hacc, hl, hb => by
    have hi := hl i (List.mem_cons_self _ _)
    have hsum := natural_add acc (f i) hacc hi
    obtain ⟨ih1, ih2⟩ := foldl_fl_exact f l (acc + f i) hsum
      (fun j hj => hl j (List.mem_cons_of_mem _ hj)) hb
    have h1 : acc + f i ≤ double_exact_bound := le_trans ih2 hb
    have h2 : f i ≤ double_exact_bound :=
      le_trans (le_add_of_nonneg_left (natural_nonneg acc hacc)) h1
    have h3 : acc ≤ acc + f i := le_add_of_nonneg_right (natural_nonneg (f i) hi)
    simp only [List.foldl_cons]
    rw [fl_natural (f i) hi h2, fl_natural (acc + f i) hsum h1]
    exact ⟨ih1, le_trans h3 ih2⟩

/-! ## The sum of all counters -/

theorem counter_total_eq_finset {T : Type} [counter T] (h : static_histogram T) :
    counter_total h =
      ∑ i in Finset.range h.storage_.size_, counter.to_double (h.storage_.at_ i) := by
  unfold counter_total array_storage.size array_storage.value counter_traits.value
  generalize h.storage_.size_ = n
  induction n with
  | zero => simp
  | succ n ih => rw [List.range_succ, List.foldl_append, ih, Finset.sum_range_succ]; simp

/-- The `double` accumulation of `sum()` is exact when the counters hold natural numbers whose
total is within `2 ^ 53`. -/
theorem sum_eq_counter_total {T : Type} [counter T] (h : static_histogram T)
    (hnat : ∀ i, i < h.storage_.size_ → natural (counter.to_double (h.storage_.at_ i)))
    (hb : counter_total h ≤ double_exact_bound) :
    h.sum = counter_total h := by
  have h0 : natural (0 : ℚ) := by decide
  exact (foldl_fl_exact (fun i => counter.to_double (h.storage_.value i))
    (List.range h.storage_.size) 0 h0
    (fun i hi => hnat i (List.mem_range.mp hi)) hb).1

theorem counter_total_fill {T X : Type} [counter T] (index : Axis → X → Int)
    (h : static_histogram T) (args : List (fill_arg X)) (hinv : h.invariant)
    (hwf : fill_well_formed h args) :
    counter_total (fill index h args) = counter_total h +
      if fill_counted index h args then
        counter.to_double
            (h.storage_.value (h.xlin index 0 (0, 1) (coords args)).1 + fill_amount args) -
          counter.to_double (h.storage_.value (h.xlin index 0 (0, 1) (coords args)).1)
      else 0 := by
  unfold fill_counted
  simp only [xlin_eq_fill_target]
  rw [fill_eq index h args hwf]
  by_cases hc : (fill_target index h args).2 ≠ 0
  · obtain ⟨hk, hkl⟩ := fill_target_lt_of_counted index h args hinv hwf hc
    simp only [if_pos hc, counter_total_eq_finset, array_storage.value, counter_traits.value,
      array_storage.size_put, array_storage.at_put, hkl, and_true]
    have hmem : (fill_target index h args).1 ∈ Finset.range h.storage_.size_ :=
      Finset.mem_range.mpr hk
    rw [← Finset.add_sum_erase _ _ hmem, ← Finset.add_sum_erase (Finset.range _) _ hmem]
    simp only [if_true]
    have hrest : ∀ i ∈ (Finset.range h.storage_.size_).erase (fill_target index h args).1,
        counter.to_double
          (if i = (fill_target index h args).1 then
            h.storage_.at_ (fill_target index h args).1 + fill_amount args
           else h.storage_.at_ i) = counter.to_double (h.storage_.at_ i) := by
      intro i hi
      rw [if_neg (Finset.ne_of_mem_erase hi)]
    rw [Finset.sum_congr rfl hrest]
    ring
  · simp only [if_neg hc, add_zero]

/-- The counters of a histogram after a sequence of exact fills of natural numbers: their
total, and that they hold natural numbers. -/
theorem counter_total_foldl_fill {T X : Type} [counter T] (index : Axis → X → Int)
    (fills : List (List (fill_arg X))) : ∀ (h : static_histogram T), h.invariant →
    (∀ args ∈ fills, fill_well_formed h args) → exact_fills index h fills →
    (∀ args ∈ fills, fill_counted index h args → natural (fill_weight args)) →
    (∀ i, i < h.storage_.size_ → natural (counter.to_double (h.storage_.at_ i))) →
    counter_total (fills.foldl (fill index) h) = counter_total h + counted_total index h fills ∧
    (fills.foldl (fill index) h).storage_.size_ = h.storage_.size_ ∧
    ∀ i, i < h.storage_.size_ →
      natural (counter.to_double ((fills.foldl (fill index) h).storage_.at_ i)) := by
  induction fills with
  | nil => intro h _ _ _ _ hn; exact ⟨by simp [counted_total], rfl, hn⟩
  | cons args rest ih =>
    intro h hinv hwf hex hw hn
    obtain ⟨hex1, hex2⟩ := hex
    have hwf1 := hwf args (List.mem_cons_self _ _)
    have hwf2 : ∀ a ∈ rest, fill_well_formed (fill index h args) a := by
      intro a ha
      have := hwf a (List.mem_cons_of_mem _ ha)
      simpa [fill_well_formed, dim, fill_axes] using this
    have hct : counted_total index (fill index h args) rest = counted_total index h rest := by
      unfold counted_total
      congr 1
      apply List.map_congr_left
      intro a _
      simp only [fill_counted_fill]
    have hw2 : ∀ a ∈ rest, fill_counted index (fill index h args) a →
        natural (fill_weight a) := by
      intro a ha hc
      exact hw a (List.mem_cons_of_mem _ ha) ((fill_counted_fill index h args a).mp hc)
    have hsz := (fill_size index h args).1
    have hn2 : ∀ i, i < (fill index h args).storage_.size_ →
        natural (counter.to_double ((fill index h args).storage_.at_ i)) := by
      intro i hi
      rw [hsz] at hi
      rw [fill_eq index h args hwf1]
      by_cases hc : (fill_target index h args).2 ≠ 0
      · have hcc : fill_counted index h args := by
          unfold fill_counted; rw [xlin_eq_fill_target]; exact hc
        obtain ⟨hk, hkl⟩ := fill_target_lt_of_counted index h args hinv hwf1 hc
        simp only [if_pos hc, array_storage.at_put, hkl, and_true]
        by_cases hik : i = (fill_target index h args).1
        · rw [if_pos hik]
          have e := hex1 hcc
          simp only [xlin_eq_fill_target, array_storage.value, counter_traits.value] at e
          rw [e]
          exact natural_add _ _ (hn _ hk) (hw args (List.mem_cons_self _ _) hcc)
        · rw [if_neg hik]; exact hn i hi
      · rw [if_neg hc]; exact hn i hi
    obtain ⟨g1, g2, g3⟩ := ih _ (fill_invariant index h args hinv) hwf2 hex2 hw2 hn2
    refine ⟨?_, g2.trans hsz, fun i hi => g3 i (by rw [hsz]; exact hi)⟩
    rw [List.foldl_cons, g1, hct, counter_total_fill index h args hinv hwf1]
    simp only [counted_total, List.map_cons, List.sum_cons]
    by_cases hc : fill_counted index h args
    · rw [if_pos hc, if_pos hc, hex1 hc]; ring
    · rw [if_neg hc, if_neg hc]; ring

theorem counter_total_ctor {T : Type} [counter T] (axes : List Axis) :
    counter_total (ctor axes : static_histogram T) = 0 ∧
    ∀ i, natural (counter.to_double ((ctor axes : static_histogram T).storage_.at_ i)) := by
  have hz : ∀ i, counter.to_double ((ctor axes : static_histogram T).storage_.at_ i) = 0 := by
    intro i
    have := ctor_zero (T := T) axes i
    simp only [array_storage.value, counter_traits.value] at this
    rw [this, counter.to_double_zero]
  refine ⟨?_, fun i => by rw [hz i]; decide⟩
  rw [counter_total_eq_finset]
  exact Finset.sum_eq_zero (fun i _ => hz i)

/-- C6, amended: for the histogram freshly constructed from a non-empty list of axes whose
product of shapes is below `2 ^ 64`, and every finite sequence of well-formed fills (plain,
with a count, with a weight) in which no counter update wraps around, truncates or rounds,
the counts and weights of the fills that are not discarded are natural numbers and their
total does not exceed `2 ^ 53`, `sum()` equals that total. -/
theorem sum_eq_counted_total {T X : Type} [counter T] (index : Axis → X → Int)
    (axes : List Axis) (fills : List (List (fill_arg X))) (hne : axes ≠ [])
    (hfit : shape_product axes < size_t_mod)
    (hwf : ∀ args ∈ fills, fill_well_formed (ctor axes : static_histogram T) args)
    (hex : exact_fills index (ctor axes : static_histogram T) fills)
    (hnat : ∀ args ∈ fills, fill_counted index (ctor axes : static_histogram T) args →
      natural (fill_weight args))
    (hbound : counted_total index (ctor axes : static_histogram T) fills ≤ double_exact_bound) :
    (fills.foldl (fill index) (ctor axes : static_histogram T)).sum =
      counted_total index (ctor axes : static_histogram T) fills := by
  have hinv : (ctor axes : static_histogram T).invariant := by
    have hb : (ctor axes : static_histogram T).bincount = shape_product axes := by
      rw [ctor_bincount_mod, Nat.mod_eq_of_lt hfit]
    refine ⟨hne, hb, ?_, ?_⟩
    · simp [ctor, array_storage.ctor, (array_storage.init_spec _).2.1,
        (array_storage.init_spec _).1]
    · have : (ctor axes : static_histogram T).storage_.size_ = shape_product axes := hb
      rw [this]; exact hfit
  obtain ⟨c1, c2⟩ := counter_total_ctor (T := T) axes
  obtain ⟨g1, g2, g3⟩ := counter_total_foldl_fill index fills _ hinv hwf hex hnat
    (fun i _ => c2 i)
  rw [c1, zero_add] at g1
  rw [sum_eq_counter_total _ (fun i hi => g3 i (by rw [← g2]; exact hi))
    (by rw [g1]; exact hbound), g1]

/-- C6, counterexample: with 8-bit counters (`array_storage<unsigned char>`) a single counted
fill with `count(256)` adds `(unsigned char)256 = 0`; `sum()` is 0 while the counts of the
counted fills total 256. -/
theorem sum_counterexample :
    fill_well_formed (ctor axes_1d_flow : static_histogram (uint 8))
      [fill_arg.coord (1 : Int), fill_arg.count 256] ∧
    fill_counted Axis.integer_index (ctor axes_1d_flow : static_histogram (uint 8))
      [fill_arg.coord (1 : Int), fill_arg.count 256] ∧
    ([[fill_arg.coord (1 : Int), fill_arg.count 256]].foldl (fill Axis.integer_index)
      (ctor axes_1d_flow : static_histogram (uint 8))).sum = 0 ∧
    counted_total Axis.integer_index (ctor axes_1d_flow : static_histogram (uint 8))
      [[fill_arg.coord (1 : Int), fill_arg.count 256]] = 256 ∧
    ([[fill_arg.coord (1 : Int), fill_arg.count 256]].foldl (fill Axis.integer_index)
      (ctor axes_1d_flow : static_histogram (uint 8))).sum ≠
    counted_total Axis.integer_index (ctor axes_1d_flow : static_histogram (uint 8))
      [[fill_arg.coord (1 : Int), fill_arg.count 256]] := by
  decide!

/-- C6, instance: three fills of the two-axis example with 32-bit counters, the last one
discarded; the sum is 1 + 3. -/
theorem sum_eq_counted_total_witness :
    axes_2d ≠ [] ∧ shape_product axes_2d < size_t_mod ∧
    (∀ args ∈ fills_2d, fill_well_formed (ctor axes_2d : static_histogram (uint 32)) args) ∧
    exact_fills Axis.integer_index (ctor axes_2d : static_histogram (uint 32)) fills_2d ∧
    (∀ args ∈ fills_2d,
      fill_counted Axis.integer_index (ctor axes_2d : static_histogram (uint 32)) args →
        natural (fill_weight args)) ∧
    counted_total Axis.integer_index (ctor axes_2d : static_histogram (uint 32)) fills_2d ≤
      double_exact_bound ∧
    (fills_2d.foldl (fill Axis.integer_index) (ctor axes_2d : static_histogram (uint 32))).sum =
      counted_total Axis.integer_index (ctor axes_2d : static_histogram (uint 32)) fills_2d ∧
    counted_total Axis.integer_index (ctor axes_2d : static_histogram (uint 32)) fills_2d = 4 :=
  ⟨by decide, by decide, by decide, by decide!, by decide!, by decide!,
    sum_eq_counted_total Axis.integer_index axes_2d fills_2d (by decide) (by decide)
      (by decide) (by decide!) (by decide!) (by decide!), by decide!⟩


/-! ## Fills with a count -/

theorem put_put {T : Type} (s : array_storage T) (k : Nat) (v v' : T) :
    (s.put k v).put k v' = s.put k v' := by
  simp [array_storage.put, List.set_set]

theorem put_at_self {T : Type} [Zero T] (s : array_storage T) (k : Nat) :
    s.put k (s.at_ k) = s := by
  cases s with
  | mk size_ array_ =>
    simp only [array_storage.put, array_storage.at_, array_storage.mk.injEq, true_and]
    apply List.ext_getElem?
    intro i
    rw [List.getElem?_set]
    by_cases hki : k = i
    · subst hki
      by_cases hk : k < array_.length
      · simp [hk, List.getD_eq_getElem _ _ hk]
      · simp [hk, List.getElem?_eq_none (Nat.le_of_not_lt hk)]
    · simp [hki]

theorem coords_insert_count {X : Type} (pre post : List X) (n : Nat) :
    coords (pre.map fill_arg.coord ++ fill_arg.count n :: post.map fill_arg.coord) =
      pre ++ post := by
  unfold coords
  rw [List.filterMap_append, List.filterMap_cons]
  have := coords_map_coord pre
  have := coords_map_coord post
  unfold coords at *
  simp_all

theorem n_count_insert_count {X : Type} (pre post : List X) (n : Nat) :
    n_count (pre.map fill_arg.coord ++ fill_arg.count n :: post.map fill_arg.coord) = 1 := by
  have h1 := n_count_map_coord pre
  have h2 := n_count_map_coord post
  unfold n_count at *
  rw [List.countP_append, List.countP_cons, h1, h2]
  simp

theorem n_weight_insert_count {X : Type} (pre post : List X) (n : Nat) :
    n_weight (pre.map fill_arg.coord ++ fill_arg.count n :: post.map fill_arg.coord) = 0 := by
  have h1 := n_weight_map_coord pre
  have h2 := n_weight_map_coord post
  unfold n_weight at *
  rw [List.countP_append, List.countP_cons, h1, h2]
  simp

theorem count_value_map_coord {X : Type} (xs : List X) (x : Nat) :
    count_value x (xs.map fill_arg.coord) = x := by
  induction xs with
  | nil => rfl
  | cons a xs ih => simpa [count_value] using ih

theorem count_value_insert_count {X : Type} (pre post : List X) (n x : Nat) :
    count_value x (pre.map fill_arg.coord ++ fill_arg.count n :: post.map fill_arg.coord) =
      n := by
  induction pre with
  | nil => simp [count_value, count_value_map_coord]
  | cons a pre ih => simpa [count_value] using ih

theorem well_formed_insert_count {T X : Type} (h : static_histogram T) (pre post : List X)
    (n : Nat) (hlen : (pre ++ post).length = h.dim) :
    fill_well_formed h (pre.map fill_arg.coord ++ fill_arg.count n :: post.map fill_arg.coord) := by
  unfold fill_well_formed
  rw [n_count_insert_count, n_weight_insert_count]
  simp only [List.length_append, List.length_map, List.length_cons] at hlen ⊢
  omega

/-- Repeating a plain fill `n` times adds `n` to the addressed counter, when adding the
count `k + 1` is adding `k` and then 1 in the counter type. -/
theorem iterate_plain_fill {T X : Type} [counter T] (index : Axis → X → Int)
    (h : static_histogram T) (xs : List X) (hlen : xs.length = h.dim)
    (hk : (fill_target index h (xs.map fill_arg.coord)).1 < h.storage_.array_.length)
    (hz : ∀ a : T, a + ((0 : Nat) : T) = a)
    (hs : ∀ (a : T) (k : Nat), a + ((k + 1 : Nat) : T) = a + ((k : Nat) : T) + 1)
    (n : Nat) :
    (fun g => fill index g (xs.map fill_arg.coord))^[n] h =
      if (fill_target index h (xs.map fill_arg.coord)).2 ≠ 0 then
        { h with
          storage_ := h.storage_.put (fill_target index h (xs.map fill_arg.coord)).1
            (h.storage_.at_ (fill_target index h (xs.map fill_arg.coord)).1 + (n : T)) }
      else h := by
  have hwf : fill_well_formed h (xs.map fill_arg.coord) := by
    simp [fill_well_formed, n_count_map_coord, n_weight_map_coord, hlen]
  induction n with
  | zero =>
    simp only [Function.iterate_zero, id_eq, hz, put_at_self]
    split <;> rfl
  | succ n ih =>
    rw [Function.iterate_succ_apply', ih]
    by_cases hc : (fill_target index h (xs.map fill_arg.coord)).2 ≠ 0
    · simp only [if_pos hc]
      have hwf2 : fill_well_formed
          ({ h with
             storage_ := h.storage_.put (fill_target index h (xs.map fill_arg.coord)).1
              (h.storage_.at_ (fill_target index h (xs.map fill_arg.coord)).1 + (n : T)) } :
            static_histogram T) (xs.map fill_arg.coord) := hwf
      rw [fill_eq index _ _ hwf2]
      have ht : fill_target index
          ({ h with
             storage_ := h.storage_.put (fill_target index h (xs.map fill_arg.coord)).1
              (h.storage_.at_ (fill_target index h (xs.map fill_arg.coord)).1 + (n : T)) } :
            static_histogram T) (xs.map fill_arg.coord) =
          fill_target index h (xs.map fill_arg.coord) := rfl
      rw [ht, if_pos hc]
      have ha : (fill_amount (xs.map fill_arg.coord) : T) = 1 := by
        simp [fill_amount, n_count_map_coord, n_weight_map_coord]
      simp only [put_put, array_storage.at_put, hk, and_self, if_true, ha, hs]
    · simp only [if_neg hc]
      rw [fill_eq index h _ hwf, if_neg hc]

/-- C7, counterexample: on the histogram with `double` counters whose bin holds `1e16`, the
fill with `count(2)` leaves `1e16 + 2` in the bin, and two consecutive plain fills leave
`1e16`, because each `++` rounds `1e16 + 1` back to `1e16`. -/
theorem fill_count_counterexample :
    hist_big.invariant ∧
    hist_big.storage_.value 1 = { val := 10000000000000000 } ∧
    (fill Axis.integer_index hist_big
      ([(1 : Int)].map fill_arg.coord ++ fill_arg.count 2 ::
        ([] : List Int).map fill_arg.coord)).storage_.value 1 =
      { val := 10000000000000002 } ∧
    ((fun g => fill Axis.integer_index g (([(1 : Int)] ++ []).map fill_arg.coord))^[2]
      hist_big).storage_.value 1 = { val := 10000000000000000 } ∧
    fill Axis.integer_index hist_big
      ([(1 : Int)].map fill_arg.coord ++ fill_arg.count 2 ::
        ([] : List Int).map fill_arg.coord) ≠
      (fun g => fill Axis.integer_index g (([(1 : Int)] ++ []).map fill_arg.coord))^[2]
        hist_big :=
  ⟨by decide!, by decide!, by decide!, by decide!,
    fun he => absurd (congrArg (fun g => g.storage_.value 1) he) (by decide!)⟩

/-- C7, amended: on a histogram satisfying the invariants of the data model, with any counter
type, a fill whose arguments are the coordinates with one `count(n)` inserted at any position
runs the linearizer over the coordinates alone (the count consumes no axis position and is
returned as `n`), so it has the same validity and addresses the same counter as the plain
fill with these coordinates; it adds `n` converted to the counter type where the plain fill
adds 1.  When adding the count `k + 1` to a counter is adding `k` and then 1 in the counter
type (and adding the count 0 changes nothing), its result is that of `n` consecutive plain
fills. -/
theorem fill_count_any_position {T X : Type} [counter T] (index : Axis → X → Int)
    (h : static_histogram T) (pre post : List X) (n : Nat) (hinv : h.invariant)
    (hlen : (pre ++ post).length = h.dim) :
    h.xlin_n index 0 (0, 1, 0)
        (pre.map fill_arg.coord ++ fill_arg.count n :: post.map fill_arg.coord) =
      ((h.xlin index 0 (0, 1) (pre ++ post)).1, (h.xlin index 0 (0, 1) (pre ++ post)).2, n) ∧
    fill index h (pre.map fill_arg.coord ++ fill_arg.count n :: post.map fill_arg.coord) =
      (if (h.xlin index 0 (0, 1) (pre ++ post)).2 ≠ 0 then
        { h with storage_ := h.storage_.add (h.xlin index 0 (0, 1) (pre ++ post)).1 (n : T) }
      else h) ∧
    fill index h ((pre ++ post).map fill_arg.coord) =
      (if (h.xlin index 0 (0, 1) (pre ++ post)).2 ≠ 0 then
        { h with storage_ := h.storage_.increase (h.xlin index 0 (0, 1) (pre ++ post)).1 }
      else h) ∧
    ((∀ a : T, a + ((0 : Nat) : T) = a) →
      (∀ (a : T) (k : Nat), a + ((k + 1 : Nat) : T) = a + ((k : Nat) : T) + 1) →
      fill index h (pre.map fill_arg.coord ++ fill_arg.count n :: post.map fill_arg.coord) =
        (fun g => fill index g ((pre ++ post).map fill_arg.coord))^[n] h) := by
  have hwf := well_formed_insert_count h pre post n hlen
  have hnw := n_weight_insert_count pre post n
  have hnc := n_count_insert_count pre post n
  have hco := coords_insert_count pre post n
  have hle : 0 + (coords (pre.map fill_arg.coord ++ fill_arg.count n ::
      post.map fill_arg.coord)).length ≤ h.axes_.length := by
    rw [hco, Nat.zero_add]; exact Nat.le_of_eq hlen
  have hxn := xlin_n_eq index h _ 0 0 1 0 hnw hle
  rw [hco, count_value_insert_count] at hxn
  have hplain : fill index h ((pre ++ post).map fill_arg.coord) =
      (if (h.xlin index 0 (0, 1) (pre ++ post)).2 ≠ 0 then
        { h with storage_ := h.storage_.increase (h.xlin index 0 (0, 1) (pre ++ post)).1 }
      else h) := by
    rw [fill_coords index h _ hlen]; rfl
  have hcount : fill index h
      (pre.map fill_arg.coord ++ fill_arg.count n :: post.map fill_arg.coord) =
      (if (h.xlin index 0 (0, 1) (pre ++ post)).2 ≠ 0 then
        { h with storage_ := h.storage_.add (h.xlin index 0 (0, 1) (pre ++ post)).1 (n : T) }
      else h) := by
    have hwf2 := hwf
    unfold fill
    rw [if_pos hwf2]
    simp only [hnc, hnw, fill_impl_1, hxn]
  refine ⟨hxn, hcount, hplain, fun hz hs => ?_⟩
  have hmc : coords ((pre ++ post).map fill_arg.coord) = pre ++ post := coords_map_coord _
  have ht : fill_target index h ((pre ++ post).map fill_arg.coord) =
      h.xlin index 0 (0, 1) (pre ++ post) := by
    rw [← xlin_eq_fill_target, hmc]
  by_cases hc : (h.xlin index 0 (0, 1) (pre ++ post)).2 ≠ 0
  · have hwfp : fill_well_formed h ((pre ++ post).map fill_arg.coord) := by
      simp only [fill_well_formed, n_count_map_coord, n_weight_map_coord, List.length_map]
      omega
    have hk := (fill_target_lt_of_counted index h _ hinv hwfp (by rw [ht]; exact hc)).2
    rw [iterate_plain_fill index h _ hlen hk hz hs n, hcount]
    simp only [ht, if_pos hc, array_storage.add, counter_traits.increase_by_count]
  · have hid : ∀ m : Nat, (fun g => fill index g ((pre ++ post).map fill_arg.coord))^[m] h = h := by
      intro m
      induction m with
      | zero => rfl
      | succ m ih => rw [Function.iterate_succ_apply', ih, hplain, if_neg hc]
    rw [hid, hcount, if_neg hc]

/-- C7, instance: in the two-axis example with 32-bit unsigned counters, which count modulo
`2 ^ 32`, `fill(-1, count(3), 1)` equals three plain fills `fill(-1, 1)`. -/
theorem fill_count_any_position_witness :
    hist_2d.invariant ∧ ([(-1 : Int)] ++ [1]).length = hist_2d.dim ∧
    (∀ a : uint 32, a + ((0 : Nat) : uint 32) = a) ∧
    (∀ (a : uint 32) (k : Nat),
      a + ((k + 1 : Nat) : uint 32) = a + ((k : Nat) : uint 32) + 1) ∧
    fill Axis.integer_index hist_2d
        ([(-1 : Int)].map fill_arg.coord ++ fill_arg.count 3 :: [(1 : Int)].map fill_arg.coord) =
      (fun g => fill Axis.integer_index g (([(-1 : Int)] ++ [1]).map fill_arg.coord))^[3]
        hist_2d :=
  ⟨by decide, by decide, fun a => by simp, fun a k => by push_cast; ring,
    (fill_count_any_position Axis.integer_index hist_2d [-1] [1] 3 (by decide)
      (by decide)).2.2.2 (fun a => by simp) (fun a k => by push_cast; ring)⟩

/-! ## Arithmetic on histograms -/

theorem storage_add_assign {T : Type} [Zero T] [Add T] (s rhs : array_storage T) :
    (s.add_assign rhs).size_ = s.size_ ∧
    (s.add_assign rhs).array_.length = s.array_.length ∧
    ∀ j, (s.add_assign rhs).at_ j =
      if j < s.size_ ∧ j < s.array_.length then s.at_ j + rhs.at_ j else s.at_ j :=
  array_storage.for_upto_put (fun i c => c + rhs.at_ i) s.size_ s

theorem storage_mul_assign {T : Type} [Zero T] [Mul T] (s : array_storage T) (x : T) :
    (s.mul_assign x).size_ = s.size_ ∧
    (s.mul_assign x).array_.length = s.array_.length ∧
    ∀ j, (s.mul_assign x).at_ j =
      if j < s.size_ ∧ j < s.array_.length then s.at_ j * x else s.at_ j :=
  array_storage.for_upto_put (fun _ c => c * x) s.size_ s

/-- C8: for two histograms satisfying the invariants of the data model whose axes compare
equal, `h1 += h2` returns normally and leaves in every bin `i` of `h1` the previous
`value(i)` of `h1` plus `value(i)` of `h2` (at every storage offset and at every valid index
tuple); the axes, the bin count and the invariants of `h1` are unchanged.  The right operand
is a `const&` that the call only reads, at offsets inside its own array. -/
theorem add_assign_adds {T : Type} [arithmetic T] (h1 h2 : static_histogram T)
    (hinv1 : h1.invariant) (hinv2 : h2.invariant)
    (heq : detail.axes_equal h1.axes_ h2.axes_ = true) :
    (h1.add_assign h2).1 = Except.ok () ∧
    (∀ i, i < h1.bincount →
      (h1.add_assign h2).2.storage_.value i = h1.storage_.value i + h2.storage_.value i) ∧
    (∀ indices, valid_indices h1.axes_ indices →
      ∃ v1 v2, h1.value indices = Except.ok v1 ∧ h2.value indices = Except.ok v2 ∧
        (h1.add_assign h2).2.value indices = Except.ok (v1 + v2)) ∧
    (h1.add_assign h2).2.axes_ = h1.axes_ ∧
    (h1.add_assign h2).2.bincount = h1.bincount ∧
    (h1.add_assign h2).2.invariant ∧
    h1.bincount ≤ h2.storage_.array_.length := by
  have hax : h1.axes_ = h2.axes_ := by simpa [detail.axes_equal] using heq
  have hres : h1.add_assign h2 =
      (Except.ok (), { h1 with storage_ := h1.storage_.add_assign h2.storage_ }) := by
    simp [static_histogram.add_assign, heq]
  obtain ⟨e1, e2, e3⟩ := storage_add_assign h1.storage_ h2.storage_
  obtain ⟨hne, hsz, hal, hlt⟩ := hinv1
  have hcell : ∀ i, i < h1.bincount →
      (h1.storage_.add_assign h2.storage_).value i =
        h1.storage_.value i + h2.storage_.value i := by
    intro i hi
    have hi1 : i < h1.storage_.size_ := hi
    have hi2 : i < h1.storage_.array_.length := by rw [hal]; exact hi1
    simp only [array_storage.value, counter_traits.value, e3 i, hi1, hi2, and_self, if_true]
  rw [hres]
  refine ⟨rfl, hcell, fun indices hv => ?_, rfl, e1, ⟨hne, ?_, ?_, ?_⟩, ?_⟩
  · have hfit : 1 * shape_product h1.axes_ < size_t_mod := by rw [one_mul, ← hsz]; exact hlt
    obtain ⟨g2, g1⟩ := lin_list_valid h1.axes_ indices 0 1 hv (by decide) hfit
    have hpos := shape_product_pos_of_valid h1.axes_ indices hv
    rw [one_mul] at g1 g2
    have gne : (lin_list h1.axes_ (0, 1) indices).2 ≠ 0 := by omega
    have gk : (lin_list h1.axes_ (0, 1) indices).1 < h1.bincount := by
      simp only [bincount, array_storage.size, hsz]; exact g1
    refine ⟨h1.storage_.value (lin_list h1.axes_ (0, 1) indices).1,
      h2.storage_.value (lin_list h1.axes_ (0, 1) indices).1, ?_, ?_, ?_⟩
    · rw [value_eq, if_neg gne]
    · rw [value_eq, ← hax, if_neg gne]
    · rw [value_eq]
      simp only [if_neg gne, hcell _ gk]
  · exact e1.trans hsz
  · exact e2.trans (hal.trans e1.symm)
  · show (h1.storage_.add_assign h2.storage_).size_ < size_t_mod
    rw [e1]; exact hlt
  · obtain ⟨_, hsz2, hal2, _⟩ := hinv2
    show h1.storage_.size_ ≤ h2.storage_.array_.length
    rw [hal2, hsz2, ← hax, hsz]

/-- C8, instance: the filled two-axis example plus the example after one fill with a count of
5 at the same place; the counter at offset 6 holds 1 + 5. -/
theorem add_assign_adds_witness :
    hist_2d_filled.invariant ∧
    (fill Axis.integer_index hist_2d
      [fill_arg.coord 1, fill_arg.count 5, fill_arg.coord 1]).invariant ∧
    detail.axes_equal hist_2d_filled.axes_
      (fill Axis.integer_index hist_2d
        [fill_arg.coord 1, fill_arg.count 5, fill_arg.coord 1]).axes_ = true ∧
    (hist_2d_filled.add_assign
        (fill Axis.integer_index hist_2d
          [fill_arg.coord 1, fill_arg.count 5, fill_arg.coord 1])).2.storage_.value 6 =
      hist_2d_filled.storage_.value 6 +
        (fill Axis.integer_index hist_2d
          [fill_arg.coord 1, fill_arg.count 5, fill_arg.coord 1]).storage_.value 6 ∧
    hist_2d_filled.storage_.value 6 = 1 ∧
    (fill Axis.integer_index hist_2d
      [fill_arg.coord 1, fill_arg.count 5, fill_arg.coord 1]).storage_.value 6 = 5 :=
  ⟨by decide, by decide, by decide,
    (add_assign_adds hist_2d_filled
      (fill Axis.integer_index hist_2d [fill_arg.coord 1, fill_arg.count 5, fill_arg.coord 1])
      (by decide) (by decide) (by decide)).2.1 6 (by decide),
    by decide, by decide⟩

/-- C9: when the axes of the two histograms differ in any parameter, `h1 += h2` throws the
`logic_error` "axes of histograms differ" and the state of `h1` after the call is `h1`
itself (same axes, same storage); the storage combination is not reached. -/
theorem add_assign_axes_mismatch {T : Type} [arithmetic T] (h1 h2 : static_histogram T)
    (hne : h1.axes_ ≠ h2.axes_) :
    h1.add_assign h2 = (Except.error (error.logic_error "axes of histograms differ"), h1) := by
  simp [static_histogram.add_assign, detail.axes_equal, hne]

/-- C9, instance: the two operands differ in the flow flag of the second axis only. -/
theorem add_assign_axes_mismatch_witness :
    hist_2d.axes_ ≠ (ctor axes_2d_flow : static_histogram (uint 32)).axes_ ∧
    hist_2d.add_assign (ctor axes_2d_flow) =
      (Except.error (error.logic_error "axes of histograms differ"), hist_2d) :=
  ⟨by decide, add_assign_axes_mismatch hist_2d (ctor axes_2d_flow) (by decide)⟩

/-- With unsigned counters of any width the factor `1.0 / k` of `h /= k` converts to 0 as soon
as `k` is at least 2, so the division multiplies every counter by 0. -/
theorem div_factor_unsigned (w : Nat) (k : uint w) (hk : 2 ≤ ZMod.val k) :
    (arithmetic.of_double (1 / arithmetic.to_double k) : uint w) = 0 := by
  have h2 : (2 : ℚ) ≤ (ZMod.val k : ℚ) := by exact_mod_cast hk
  have hfloor : Int.floor (1 / (ZMod.val k : ℚ)) = 0 := by
    rw [Int.floor_eq_zero_iff]
    constructor
    · positivity
    · rw [div_lt_one (by linarith)]; linarith
  show ((Int.toNat (Int.floor (1 / ((ZMod.val k : Nat) : ℚ))) : Nat) : uint w) = 0
  rw [hfloor]; simp

/-- C10, the code at the failing input: a histogram with 32-bit unsigned counters whose
bin 1 holds 6 is divided by 2; the factor `1.0 / 2` is converted to the counter type as 0, so
the bin holds 0 afterwards, not the quotient 3. -/
theorem div_assign_unsigned_zeroes :
    hist_six.invariant ∧ hist_six.storage_.value 1 = 6 ∧
    (hist_six.div_assign 2).storage_.value 1 = 0 ∧
    (hist_six.div_assign 2).storage_.value 1 ≠ 3 := by
  decide!

/-! ## Counter arrays: scaling, unit and bulk increments -/

/-- C11: for a well-formed counter array `a` and a scalar `k`, `a *= k` keeps the size and
leaves at every index the previous value times `k`, in the counter type's own arithmetic;
`h *= k` on a histogram is this operation on its storage: every bin is multiplied by `k`,
the axes and the bin count stay. -/
theorem mul_assign_scales {T : Type} [arithmetic T] (a : array_storage T)
    (h : static_histogram T) (k : T) (ha : a.wf) (hh : h.storage_.wf) :
    (a.mul_assign k).size = a.size ∧ (a.mul_assign k).wf ∧
    (∀ i, i < a.size → (a.mul_assign k).value i = a.value i * k) ∧
    (h.mul_assign k).storage_ = h.storage_.mul_assign k ∧
    (h.mul_assign k).axes_ = h.axes_ ∧
    (h.mul_assign k).bincount = h.bincount ∧
    (∀ i, i < h.bincount → (h.mul_assign k).storage_.value i = h.storage_.value i * k) := by
  have key : ∀ s : array_storage T, s.wf →
      (s.mul_assign k).size_ = s.size_ ∧ (s.mul_assign k).wf ∧
      ∀ i, i < s.size_ → (s.mul_assign k).value i = s.value i * k := by
    intro s hs
    obtain ⟨e1, e2, e3⟩ := storage_mul_assign s k
    refine ⟨e1, ?_, fun i hi => ?_⟩
    · unfold array_storage.wf at hs ⊢; rw [e2, e1]; exact hs
    · have hi2 : i < s.array_.length := by rw [hs]; exact hi
      simp only [array_storage.value, counter_traits.value, e3 i, hi, hi2, and_self, if_true]
  obtain ⟨a1, a2, a3⟩ := key a ha
  obtain ⟨h1, _, h3⟩ := key h.storage_ hh
  exact ⟨a1, a2, a3, rfl, rfl, h1, h3⟩

/-- C11, instance: the spec's example, a size-2 array holding 1 and 5 scaled by 3 holds 3 and
15. -/
theorem mul_assign_scales_witness :
    storage_1_5.wf ∧ hist_2d_filled.storage_.wf ∧
    storage_1_5.value 0 = 1 ∧ storage_1_5.value 1 = 5 ∧
    (storage_1_5.mul_assign 3).value 0 = 3 ∧ (storage_1_5.mul_assign 3).value 1 = 15 ∧
    (storage_1_5.mul_assign 3).value 1 = storage_1_5.value 1 * 3 ∧
    (hist_2d_filled.mul_assign 3).storage_.value 4 = hist_2d_filled.storage_.value 4 * 3 :=
  ⟨by decide, by decide, by decide, by decide, by decide, by decide,
    (mul_assign_scales storage_1_5 hist_2d_filled 3 (by decide) (by decide)).2.2.1 1
      (by decide),
    (mul_assign_scales storage_1_5 hist_2d_filled 3 (by decide) (by decide)).2.2.2.2.2.2 4
      (by decide)⟩

/-- C14: for a well-formed counter array of size `s`, an index `i < s` and a count `n`,
`increase(i)` raises `value(i)` by 1 and `add(i, n)` raises it by `n` (in the counter type's
own arithmetic); both keep `size()` and `value(j)` for every `j ≠ i`. -/
theorem increase_add_frame {T : Type} [arithmetic T] (a : array_storage T) (i : Nat) (n : T)
    (ha : a.wf) (hi : i < a.size) :
    ((a.increase i).value i = a.value i + 1 ∧ (a.increase i).size = a.size ∧
      ∀ j, j ≠ i → (a.increase i).value j = a.value j) ∧
    ((a.add i n).value i = a.value i + n ∧ (a.add i n).size = a.size ∧
      ∀ j, j ≠ i → (a.add i n).value j = a.value j) := by
  have hi2 : i < a.array_.length := by rw [ha]; exact hi
  refine ⟨⟨?_, rfl, fun j hj => ?_⟩, ⟨?_, rfl, fun j hj => ?_⟩⟩
  · simp [array_storage.increase, array_storage.value, counter_traits.value,
      array_storage.at_put, hi2]
  · simp [array_storage.increase, array_storage.value, counter_traits.value,
      array_storage.at_put, hj]
  · simp [array_storage.add, array_storage.value, counter_traits.value,
      counter_traits.increase_by_count, array_storage.at_put, hi2]
  · simp [array_storage.add, array_storage.value, counter_traits.value,
      array_storage.at_put, hj]

/-- C14, instance: the test "increase": on a fresh array of size 2, `increase(0)` then
`add(1, 5)` give the values 1 and 5. -/
theorem increase_add_frame_witness :
    (array_storage.ctor 2 : array_storage (uint 32)).wf ∧
    (0 : Nat) < (array_storage.ctor 2 : array_storage (uint 32)).size ∧
    ((array_storage.ctor 2 : array_storage (uint 32)).increase 0).value 0 =
      (array_storage.ctor 2 : array_storage (uint 32)).value 0 + 1 ∧
    ((array_storage.ctor 2 : array_storage (uint 32)).add 0 5).value 0 =
      (array_storage.ctor 2 : array_storage (uint 32)).value 0 + 5 ∧
    storage_1_5.value 0 = 1 ∧ storage_1_5.value 1 = 5 :=
  ⟨by decide, by decide,
    (increase_add_frame (array_storage.ctor 2 : array_storage (uint 32)) 0 5 (by decide)
      (by decide)).1.1,
    (increase_add_frame (array_storage.ctor 2 : array_storage (uint 32)) 0 5 (by decide)
      (by decide)).2.1,
    by decide, by decide⟩

/-! ## Counter arrays: move and copy -/

theorem swap_members_eq {T : Type} (self other : array_storage T) :
    array_storage.swap_members self other = (other, self) := by
  cases self; cases other; rfl

/-- C15, counterexample: move-assigning the size-1 array of the test into an array of size 2
leaves the source with size 2, not 0. -/
theorem move_assign_source_counterexample :
    ((array_storage.ctor 2 : array_storage (uint 32)).move_assign storage_one).2.size = 2 ∧
    ((array_storage.ctor 2 : array_storage (uint 32)).move_assign storage_one).2.size ≠ 0 := by
  decide

/-- C15, amended: after the move-assignment `b = std::move(a)` of two distinct counter arrays
the destination `b` has the former size and the former value at every index of `a`, and the
source `a` has the former size and contents of `b` (the members are swapped); the source has
size 0 when `b` had size 0 before the assignment. -/
theorem move_assign_swaps {T : Type} [Zero T] (a b : array_storage T) :
    (b.move_assign a).1.size = a.size ∧
    (∀ i, (b.move_assign a).1.value i = a.value i) ∧
    (b.move_assign a).1 = a ∧
    (b.move_assign a).2 = b ∧
    (b.size = 0 → (b.move_assign a).2.size = 0) := by
  have e : b.move_assign a = (a, b) := swap_members_eq b a
  rw [e]
  exact ⟨rfl, fun _ => rfl, rfl, rfl, fun hb => hb⟩

/-- C15, instance: the test "move": the destination is default-constructed, so the source has
size 0 afterwards and the destination holds size 1, value 1. -/
theorem move_assign_swaps_witness :
    (array_storage.default_ctor : array_storage (uint 32)).size = 0 ∧
    ((array_storage.default_ctor : array_storage (uint 32)).move_assign storage_one).2.size = 0 ∧
    ((array_storage.default_ctor : array_storage (uint 32)).move_assign storage_one).1.size = 1 ∧
    ((array_storage.default_ctor : array_storage (uint 32)).move_assign storage_one).1.value 0
      = 1 :=
  ⟨by decide,
    (move_assign_swaps storage_one array_storage.default_ctor).2.2.2.2 (by decide),
    by decide, by decide⟩

/-- C16: move-constructing a new counter array `c` from `a` leaves `c` with the former size
and the former value at every index of `a`, and leaves `a` with size 0 (and no cells). -/
theorem move_ctor_takes {T : Type} [Zero T] (a : array_storage T) :
    (array_storage.move_ctor a).1.size = a.size ∧
    (∀ i, (array_storage.move_ctor a).1.value i = a.value i) ∧
    (array_storage.move_ctor a).1 = a ∧
    (array_storage.move_ctor a).2.size = 0 ∧
    (array_storage.move_ctor a).2 = array_storage.default_ctor := by
  have e : array_storage.move_ctor a = (a, array_storage.default_ctor) :=
    swap_members_eq array_storage.default_ctor a
  rw [e]
  exact ⟨rfl, fun _ => rfl, rfl, rfl, rfl⟩

theorem std_copy_spec {T : Type} [Zero T] (other self : array_storage T) :
    (array_storage.std_copy other self).size_ = self.size_ ∧
    (array_storage.std_copy other self).array_.length = self.array_.length ∧
    ∀ j, (array_storage.std_copy other self).at_ j =
      if j < self.size_ ∧ j < self.array_.length then other.at_ j else self.at_ j :=
  array_storage.for_upto_put (fun i _ => other.at_ i) self.size_ self

theorem copy_ctor_spec {T : Type} [Zero T] (a : array_storage T) :
    (array_storage.copy_ctor a).size_ = a.size_ ∧
    (array_storage.copy_ctor a).array_.length = a.size_ ∧
    ∀ j, j < a.size_ → (array_storage.copy_ctor a).at_ j = a.at_ j := by
  obtain ⟨e1, e2, e3⟩ := std_copy_spec a (array_storage.reset a.size)
  have r1 : (array_storage.reset a.size : array_storage T).size_ = a.size_ := rfl
  have r2 : (array_storage.reset a.size : array_storage T).array_.length = a.size_ := by
    simp [array_storage.reset, array_storage.size]
  refine ⟨e1.trans r1, e2.trans r2, fun j hj => ?_⟩
  unfold array_storage.copy_ctor
  rw [e3 j, r1, r2]
  simp [hj]

/-- C17: after the copy-assignment `b = a` of two distinct counter arrays of one counter type,
and after the copy-construction of `b` from `a`, `b` has the size of `a` and the value of `a`
at every index; the result does not depend on what `b` held before, `a` is a `const&` that is
only read, and a later `increase` of `b` acts on the cells of `b`, which are its own. -/
theorem copy_is_deep_duplicate {T : Type} [arithmetic T] (a b : array_storage T) :
    (b.copy_assign a).size = a.size ∧ (b.copy_assign a).wf ∧
    (∀ i, i < a.size → (b.copy_assign a).value i = a.value i) ∧
    (array_storage.copy_ctor a).size = a.size ∧ (array_storage.copy_ctor a).wf ∧
    (∀ i, i < a.size → (array_storage.copy_ctor a).value i = a.value i) ∧
    (∀ b' : array_storage T, b'.copy_assign a = b.copy_assign a) ∧
    (∀ i, i < a.size → ((b.copy_assign a).increase i).value i = a.value i + 1) := by
  obtain ⟨e1, e2, e3⟩ := copy_ctor_spec a
  have hc : b.copy_assign a = array_storage.copy_ctor a := rfl
  have hv : ∀ i, i < a.size → (array_storage.copy_ctor a).value i = a.value i := by
    intro i hi
    simp only [array_storage.value, counter_traits.value]
    exact e3 i hi
  have hw : (array_storage.copy_ctor a).wf := by
    unfold array_storage.wf; rw [e2, e1]
  refine ⟨by rw [hc]; exact e1, by rw [hc]; exact hw, by rw [hc]; exact hv, e1, hw, hv,
    fun _ => rfl, fun i hi => ?_⟩
  rw [hc]
  have hi2 : i < (array_storage.copy_ctor a).array_.length := by rw [e2]; exact hi
  simp only [array_storage.increase, array_storage.value, counter_traits.value,
    array_storage.at_put, hi2, and_self, if_true]
  rw [e3 i hi]

/-- C17, instance: the test "copy": the size-1 array is copy-assigned to an array of size 2. -/
theorem copy_is_deep_duplicate_witness :
    (0 : Nat) < storage_one.size ∧
    ((array_storage.ctor 2 : array_storage (uint 32)).copy_assign storage_one).value 0 =
      storage_one.value 0 ∧
    ((array_storage.ctor 2 : array_storage (uint 32)).copy_assign storage_one).size = 1 ∧
    ((array_storage.ctor 2 : array_storage (uint 32)).copy_assign storage_one).value 0 = 1 :=
  ⟨by decide,
    (copy_is_deep_duplicate storage_one (array_storage.ctor 2)).2.2.1 0 (by decide),
    by decide, by decide⟩

/-! ## Counter arrays of weight counters -/

/-- C18: for a well-formed storage of weight counters of size `s` and an index `i < s`:
`increase(i)` adds 1 to `value(i)` and 1 to `variance(i)`; `add(i, n)` adds `n` to both;
`add(i, v, var)` adds `v` to the value and `var` to the variance; `increase_by_weight(i, x)`
adds `x` to the value and `x * x` to the variance; each of them leaves the value and the
variance at every other index unchanged. -/
theorem weighted_updates {R : Type} [Semiring R] (s : array_storage (weight_counter R))
    (i : Nat) (n v var x : R) (hs : s.wf) (hi : i < s.size) :
    (weighted_storage.value (weighted_storage.increase s i) i = weighted_storage.value s i + 1 ∧
      weighted_storage.variance (weighted_storage.increase s i) i =
        weighted_storage.variance s i + 1 ∧
      ∀ j, j ≠ i →
        weighted_storage.value (weighted_storage.increase s i) j = weighted_storage.value s j ∧
        weighted_storage.variance (weighted_storage.increase s i) j =
          weighted_storage.variance s j) ∧
    (weighted_storage.value (weighted_storage.add s i n) i = weighted_storage.value s i + n ∧
      weighted_storage.variance (weighted_storage.add s i n) i =
        weighted_storage.variance s i + n ∧
      ∀ j, j ≠ i →
        weighted_storage.value (weighted_storage.add s i n) j = weighted_storage.value s j ∧
        weighted_storage.variance (weighted_storage.add s i n) j =
          weighted_storage.variance s j) ∧
    (weighted_storage.value (weighted_storage.add_value_variance s i v var) i =
        weighted_storage.value s i + v ∧
      weighted_storage.variance (weighted_storage.add_value_variance s i v var) i =
        weighted_storage.variance s i + var ∧
      ∀ j, j ≠ i →
        weighted_storage.value (weighted_storage.add_value_variance s i v var) j =
          weighted_storage.value s j ∧
        weighted_storage.variance (weighted_storage.add_value_variance s i v var) j =
          weighted_storage.variance s j) ∧
    (weighted_storage.value (weighted_storage.increase_by_weight s i x) i =
        weighted_storage.value s i + x ∧
      weighted_storage.variance (weighted_storage.increase_by_weight s i x) i =
        weighted_storage.variance s i + x * x ∧
      ∀ j, j ≠ i →
        weighted_storage.value (weighted_storage.increase_by_weight s i x) j =
          weighted_storage.value s j ∧
        weighted_storage.variance (weighted_storage.increase_by_weight s i x) j =
          weighted_storage.variance s j) := by
  have hi2 : i < s.array_.length := by rw [hs]; exact hi
  have hat : ∀ (c : weight_counter R) (j : Nat),
      (s.put i c).at_ j = if j = i then c else s.at_ j := by
    intro c j
    rw [array_storage.at_put]
    simp [hi2]
  refine ⟨⟨?_, ?_, fun j hj => ?_⟩, ⟨?_, ?_, fun j hj => ?_⟩, ⟨?_, ?_, fun j hj => ?_⟩,
    ⟨?_, ?_, fun j hj => ?_⟩⟩ <;>
  simp [weighted_storage.value, weighted_storage.variance, weighted_storage.increase,
    weighted_storage.add, weighted_storage.add_value_variance,
    weighted_storage.increase_by_weight, hat, weight_counter.incr, weight_counter.plus,
    weight_counter.traits_value, weight_counter.variance,
    weight_counter.traits_increase_by_count, weight_counter.traits_increase_by_weight, *]

/-- C18, instance: the test "with weight_counter": after `increase(0)`, `add(0, 1)` and
`add(0, 1, 0)` the value is 3 and the variance 2; `increase_by_weight(0, 2)` then gives the
value 5 and the variance 6. -/
theorem weighted_updates_witness :
    storage_weighted.wf ∧ (0 : Nat) < storage_weighted.size ∧
    weighted_storage.value storage_weighted 0 = 3 ∧
    weighted_storage.variance storage_weighted 0 = 2 ∧
    weighted_storage.value (weighted_storage.increase_by_weight storage_weighted 0 2) 0 =
      weighted_storage.value storage_weighted 0 + 2 ∧
    weighted_storage.variance (weighted_storage.increase_by_weight storage_weighted 0 2) 0 =
      weighted_storage.variance storage_weighted 0 + 2 * 2 ∧
    weighted_storage.value (weighted_storage.increase_by_weight storage_weighted 0 2) 0 = 5 ∧
    weighted_storage.variance (weighted_storage.increase_by_weight storage_weighted 0 2) 0 = 6 :=
  ⟨by decide, by decide, by decide!, by decide!,
    (weighted_updates storage_weighted 0 0 0 0 2 (by decide) (by decide)).2.2.2.1,
    (weighted_updates storage_weighted 0 0 0 0 2 (by decide) (by decide)).2.2.2.2.1,
    by decide!, by decide!⟩

/-! ## The strict linearizer is a bijection -/

theorem stride_sum_cons (a : Axis) (axes : List Axis) (j : Int) (js : List Int) :
    stride_sum (a :: axes) (j :: js) = j.toNat + a.shape * stride_sum axes js := by
  unfold stride_sum
  rw [List.length_cons, List.range_succ_eq_map, List.map_cons, List.sum_cons, List.map_map]
  have h0 : ((j :: js).getD 0 0).toNat * shape_product (List.take 0 (a :: axes)) = j.toNat := by
    simp [shape_product]
  rw [h0]
  congr 1
  rw [← List.sum_map_mul_left]
  congr 1
  apply List.map_congr_left
  intro i _
  simp only [Function.comp, List.take_succ_cons, List.getD_cons_succ, shape_product,
    List.map_cons, List.prod_cons]
  ring

theorem stride_sum_eq_mixed_radix : ∀ (axes : List Axis) (js : List Int),
    valid_indices axes js → stride_sum axes js = mixed_radix axes js
  | [], [], _ => by simp [stride_sum, mixed_radix]
  | [], _ :: _, hv => by simp [valid_indices] at hv
  | _ :: _, [], hv => by simp [valid_indices] at hv
  | a :: axes, j :: js, hv => by
    simp only [valid_indices] at hv
    rw [stride_sum_cons, mixed_radix, stride_sum_eq_mixed_radix axes js hv.2]

theorem decode_spec : ∀ (axes : List Axis) (k : Nat), k < shape_product axes →
    valid_indices axes (decode axes k) ∧ mixed_radix axes (decode axes k) = k
  | [], k, hk => by
    simp only [shape_product, List.map_nil, List.prod_nil, Nat.lt_one_iff] at hk
    simp [decode, valid_indices, mixed_radix, hk]
  | a :: axes, k, hk => by
    have hsp : shape_product (a :: axes) = a.shape * shape_product axes := by
      simp [shape_product]
    rw [hsp] at hk
    have hpos : 0 < a.shape := by
      rcases Nat.eq_zero_or_pos a.shape with h0 | h0
      · rw [h0, Nat.zero_mul] at hk; exact absurd hk (Nat.not_lt_zero _)
      · exact h0
    have hdiv : k / a.shape < shape_product axes := Nat.div_lt_of_lt_mul hk
    obtain ⟨ih1, ih2⟩ := decode_spec axes (k / a.shape) hdiv
    have hmod : k % a.shape < a.shape := Nat.mod_lt _ hpos
    refine ⟨?_, ?_⟩
    · simp only [decode, valid_indices]
      refine ⟨⟨by positivity, by exact_mod_cast hmod⟩, ih1⟩
    · simp only [decode, mixed_radix, Int.toNat_natCast, ih2]
      exact Nat.mod_add_div k a.shape

/-- C20: on a histogram satisfying the invariants of the data model, the strict linearizer
used by `value` maps the valid index tuples one-to-one onto the offsets `0 .. bincount()-1`:
for a valid tuple it returns the offset `sum over i of index_i * (product of the shapes of
the axes before i)` together with the stride `bincount()`, the offset is below `bincount()`
and is the one `value` reads, two different valid tuples have different offsets, and every
offset below `bincount()` is the offset of a valid tuple. -/
theorem lin_is_bijection {T : Type} [Zero T] (h : static_histogram T) (hinv : h.invariant) :
    (∀ js, valid_indices h.axes_ js →
      h.lin 0 (0, 1) js = (stride_sum h.axes_ js, h.bincount) ∧
      stride_sum h.axes_ js < h.bincount ∧
      h.value js = Except.ok (h.storage_.value (stride_sum h.axes_ js))) ∧
    (∀ js js', valid_indices h.axes_ js → valid_indices h.axes_ js' →
      (h.lin 0 (0, 1) js).1 = (h.lin 0 (0, 1) js').1 → js = js') ∧
    (∀ k, k < h.bincount →
      ∃ js, valid_indices h.axes_ js ∧ (h.lin 0 (0, 1) js).1 = k) := by
  obtain ⟨_, hsz, _, hlt⟩ := hinv
  have hfit : 1 * shape_product h.axes_ < size_t_mod := by rw [one_mul, ← hsz]; exact hlt
  have hb : h.bincount = shape_product h.axes_ := hsz
  have hlin : ∀ js, valid_indices h.axes_ js →
      h.lin 0 (0, 1) js = (mixed_radix h.axes_ js, shape_product h.axes_) ∧
      mixed_radix h.axes_ js < shape_product h.axes_ := by
    intro js hv
    obtain ⟨g2, g1⟩ := lin_list_valid h.axes_ js 0 1 hv (by decide) hfit
    have goff := lin_list_offset h.axes_ js 0 1 hv (by decide) hfit
    rw [one_mul] at g1 g2
    rw [Nat.zero_add, Nat.one_mul] at goff
    rw [lin_eq_lin_list, List.drop_zero]
    exact ⟨Prod.ext goff g2, by rw [← goff]; exact g1⟩
  refine ⟨fun js hv => ?_, fun js js' hv hv' he => ?_, fun k hk => ?_⟩
  · obtain ⟨e, hlt2⟩ := hlin js hv
    have hss := stride_sum_eq_mixed_radix h.axes_ js hv
    have hpos : shape_product h.axes_ ≠ 0 := by omega
    refine ⟨by rw [e, hss, hb], by rw [hss, hb]; exact hlt2, ?_⟩
    simp only [static_histogram.value, e, hss]
    rw [if_neg hpos]
  · rw [(hlin js hv).1, (hlin js' hv').1] at he
    exact mixed_radix_inj h.axes_ js js' hv hv' he
  · rw [hb] at hk
    obtain ⟨d1, d2⟩ := decode_spec h.axes_ k hk
    exact ⟨decode h.axes_ k, d1, by rw [(hlin _ d1).1]; exact d2⟩

/-- C20, instance: in the two-axis example (shapes 5 and 2) the tuple (4, 1) has the offset
4 + 1 · 5 = 9, the last of the 10 bins. -/
theorem lin_is_bijection_witness :
    hist_2d.invariant ∧ valid_indices hist_2d.axes_ [4, 1] ∧
    hist_2d.lin 0 (0, 1) [4, 1] = (stride_sum hist_2d.axes_ [4, 1], hist_2d.bincount) ∧
    stride_sum hist_2d.axes_ [4, 1] = 9 ∧ hist_2d.bincount = 10 :=
  ⟨by decide, by decide,
    ((lin_is_bijection hist_2d (by decide)).1 [4, 1] (by decide)).1,
    by decide, by decide⟩

/-! ## The storage length stays the product of the shapes -/

theorem run_call_invariant {T X : Type} [arithmetic T] (index : Axis → X → Int)
    (h : static_histogram T) (c : call T X) (hinv : h.invariant) :
    (run_call index h c).invariant ∧ (run_call index h c).axes_ = h.axes_ := by
  have scale : ∀ k : T, (h.mul_assign k).invariant := by
    intro k
    obtain ⟨h1, h2, h3, h4⟩ := hinv
    obtain ⟨e1, e2, _⟩ := storage_mul_assign h.storage_ k
    exact ⟨h1, e1.trans h2, e2.trans (h3.trans e1.symm),
      by show (h.storage_.mul_assign k).size_ < size_t_mod; rw [e1]; exact h4⟩
  cases c with
  | fill args => exact ⟨fill_invariant index h args hinv, fill_axes index h args⟩
  | add_assign rhs =>
    by_cases hax : detail.axes_equal h.axes_ rhs.axes_ = true
    · have hres : h.add_assign rhs =
          (Except.ok (), { h with storage_ := h.storage_.add_assign rhs.storage_ }) := by
        simp [static_histogram.add_assign, hax]
      obtain ⟨h1, h2, h3, h4⟩ := hinv
      obtain ⟨e1, e2, _⟩ := storage_add_assign h.storage_ rhs.storage_
      simp only [run_call, hres]
      exact ⟨⟨h1, e1.trans h2, e2.trans (h3.trans e1.symm),
        by show (h.storage_.add_assign rhs.storage_).size_ < size_t_mod; rw [e1]; exact h4⟩,
        trivial⟩
    · have hres : h.add_assign rhs =
          (Except.error (error.logic_error "axes of histograms differ"), h) := by
        simp [static_histogram.add_assign, hax]
      simp only [run_call, hres]
      exact ⟨hinv, trivial⟩
  | mul_assign k => exact ⟨scale k, rfl⟩
  | div_assign k => exact ⟨scale _, rfl⟩
  | reset =>
    obtain ⟨h1, h2, _, h4⟩ := hinv
    have hfit : shape_product h.axes_ < size_t_mod := by rw [← h2]; exact h4
    have hsz : (array_storage.ctor (bincount_from_axes h.axes_) : array_storage T).size_ =
        shape_product h.axes_ := by
      simp only [array_storage.ctor, (array_storage.init_spec _).1, bincount_from_axes_eq,
        Nat.mod_eq_of_lt hfit]
    have hlen : (array_storage.ctor (bincount_from_axes h.axes_) : array_storage T).array_.length
        = shape_product h.axes_ := by
      simp only [array_storage.ctor, (array_storage.init_spec _).2.1, bincount_from_axes_eq,
        Nat.mod_eq_of_lt hfit]
    refine ⟨⟨h1, hsz, hlen.trans hsz.symm, ?_⟩, rfl⟩
    show (array_storage.ctor (bincount_from_axes h.axes_) : array_storage T).size_ < size_t_mod
    rw [hsz]; exact hfit

theorem run_calls_invariant {T X : Type} [arithmetic T] (index : Axis → X → Int)
    (calls : List (call T X)) : ∀ (h : static_histogram T), h.invariant →
    (calls.foldl (run_call index) h).invariant ∧
      (calls.foldl (run_call index) h).axes_ = h.axes_ := by
  induction calls with
  | nil => intro h hinv; exact ⟨hinv, rfl⟩
  | cons c rest ih =>
    intro h hinv
    obtain ⟨h1, h2⟩ := run_call_invariant index h c hinv
    obtain ⟨g1, g2⟩ := ih _ h1
    exact ⟨g1, g2.trans h2⟩

/-- C19, counterexample: the histogram constructed from four axes of 65536 slots each, with
no further call, has a storage of length 0 while the product of the shapes of its axes is
`2 ^ 64`. -/
theorem bincount_invariant_counterexample :
    (([] : List (call (uint 32) Int)).foldl (run_call Axis.integer_index)
      (ctor axes_wide)).bincount = 0 ∧
    (([] : List (call (uint 32) Int)).foldl (run_call Axis.integer_index)
      (ctor axes_wide)).bincount ≠
    shape_product (([] : List (call (uint 32) Int)).foldl (run_call Axis.integer_index)
      (ctor axes_wide)).axes_ := by
  decide

/-- C19, amended: for every histogram obtained from the construction from a non-empty list
of axes whose product of shapes is below `2 ^ 64` by any sequence of `fill`, `+=`, `*=`,
`/=` and `reset` calls (counted, discarded or throwing), the axes are those of the
construction, `bincount()` and the length of the allocation equal the product of their
shapes, the strict linearizer hands an offset inside the array to the storage for every
valid index tuple, and so does the permissive linearizer for every counted fill. -/
theorem bincount_invariant {T X : Type} [arithmetic T] (index : Axis → X → Int)
    (axes : List Axis) (calls : List (call T X)) (hne : axes ≠ [])
    (hfit : shape_product axes < size_t_mod) :
    (calls.foldl (run_call index) (ctor axes)).axes_ = axes ∧
    (calls.foldl (run_call index) (ctor axes)).bincount = shape_product axes ∧
    (calls.foldl (run_call index) (ctor axes)).storage_.array_.length = shape_product axes ∧
    (∀ js, valid_indices axes js →
      ((calls.foldl (run_call index) (ctor axes)).lin 0 (0, 1) js).1 <
        (calls.foldl (run_call index) (ctor axes)).storage_.array_.length) ∧
    (∀ args, fill_well_formed (calls.foldl (run_call index) (ctor axes)) args →
      fill_counted index (calls.foldl (run_call index) (ctor axes)) args →
      ((calls.foldl (run_call index) (ctor axes)).xlin index 0 (0, 1) (coords args)).1 <
        (calls.foldl (run_call index) (ctor axes)).storage_.array_.length) := by
  have hinv0 : (ctor axes : static_histogram T).invariant := by
    have hb : (ctor axes : static_histogram T).bincount = shape_product axes := by
      rw [ctor_bincount_mod, Nat.mod_eq_of_lt hfit]
    refine ⟨hne, hb, ?_, ?_⟩
    · simp [ctor, array_storage.ctor, (array_storage.init_spec _).2.1,
        (array_storage.init_spec _).1]
    · have : (ctor axes : static_histogram T).storage_.size_ = shape_product axes := hb
      rw [this]; exact hfit
  obtain ⟨hinv, hax⟩ := run_calls_invariant index calls _ hinv0
  have hax2 : (calls.foldl (run_call index) (ctor axes)).axes_ = axes := hax
  have hinv2 := hinv
  obtain ⟨_, hsz, hal, hlt⟩ := hinv
  rw [hax2] at hsz
  refine ⟨hax2, hsz, hal.trans hsz, fun js hv => ?_, fun args hwf hc => ?_⟩
  · have hfit1 : 1 * shape_product axes < size_t_mod := by rw [one_mul]; exact hfit
    have g1 := (lin_list_valid axes js 0 1 hv (by decide) hfit1).2
    rw [one_mul] at g1
    rw [lin_eq_lin_list, List.drop_zero, hax2, hal, hsz]
    exact g1
  · unfold fill_counted at hc
    simp only [xlin_eq_fill_target] at hc ⊢
    exact (fill_target_lt_of_counted index _ args hinv2 hwf hc).2

/-- C19, instance: the two-axis example after seven calls of all kinds still has 10 bins. -/
theorem bincount_invariant_witness :
    axes_2d ≠ [] ∧ shape_product axes_2d < size_t_mod ∧
    (calls_2d.foldl (run_call Axis.integer_index) (ctor axes_2d)).bincount =
      shape_product axes_2d ∧
    (calls_2d.foldl (run_call Axis.integer_index) (ctor axes_2d)).bincount = 10 :=
  ⟨by decide, by decide,
    (bincount_invariant Axis.integer_index axes_2d calls_2d (by decide) (by decide)).2.1,
    by decide!⟩

/-! ## Equality of histograms -/

theorem storage_equal_iff {T : Type} [Zero T] [DecidableEq T] (a b : array_storage T) :
    detail.storage_equal a b = true ↔
      a.size = b.size ∧ ∀ i, i < a.size → a.value i = b.value i := by
  simp [detail.storage_equal, List.all_eq_true]

/-- With equal axes, the counters agree at every offset exactly when `value` agrees at every
valid index tuple. -/
theorem values_agree_iff {T : Type} [Zero T] (h1 h2 : static_histogram T)
    (hinv1 : h1.invariant) (hax : h1.axes_ = h2.axes_) :
    (∀ i, i < h1.bincount → h1.storage_.value i = h2.storage_.value i) ↔
      ∀ js, valid_indices h1.axes_ js → h1.value js = h2.value js := by
  obtain ⟨_, hsz, _, hlt⟩ := hinv1
  have hfit : 1 * shape_product h1.axes_ < size_t_mod := by rw [one_mul, ← hsz]; exact hlt
  have hval : ∀ js, valid_indices h1.axes_ js →
      mixed_radix h1.axes_ js < h1.bincount ∧
      h1.value js = Except.ok (h1.storage_.value (mixed_radix h1.axes_ js)) ∧
      h2.value js = Except.ok (h2.storage_.value (mixed_radix h1.axes_ js)) := by
    intro js hv
    obtain ⟨g2, g1⟩ := lin_list_valid h1.axes_ js 0 1 hv (by decide) hfit
    have goff := lin_list_offset h1.axes_ js 0 1 hv (by decide) hfit
    have hpos := shape_product_pos_of_valid h1.axes_ js hv
    rw [one_mul] at g1 g2
    rw [Nat.zero_add, Nat.one_mul] at goff
    have gne : (lin_list h1.axes_ (0, 1) js).2 ≠ 0 := by omega
    refine ⟨?_, ?_, ?_⟩
    · show mixed_radix h1.axes_ js < h1.storage_.size_
      rw [hsz, ← goff]; exact g1
    · rw [value_eq, if_neg gne, goff]
    · rw [value_eq, ← hax, if_neg gne, goff]
  constructor
  · intro hall js hv
    obtain ⟨k1, e1, e2⟩ := hval js hv
    rw [e1, e2, hall _ k1]
  · intro hall i hi
    have hi2 : i < shape_product h1.axes_ := by rw [← hsz]; exact hi
    obtain ⟨d1, d2⟩ := decode_spec h1.axes_ i hi2
    obtain ⟨_, e1, e2⟩ := hval _ d1
    have := hall _ d1
    rw [e1, e2, d2] at this
    exact Except.ok.inj this

/-- C13: for two histograms satisfying the invariants of the data model, `h1 == h2` holds if
and only if their axes are identical in every parameter and in the same order and the
counters agree in every bin, which is to say `value` agrees at every valid index tuple; two
histograms whose axes types differ at some position compare unequal whatever their
storages hold. -/
theorem operator_eq_iff {T : Type} [Zero T] [DecidableEq T] (h1 h2 : static_histogram T)
    (hinv1 : h1.invariant) (hinv2 : h2.invariant) :
    (h1.operator_eq h2 = true ↔
      h1.axes_ = h2.axes_ ∧
        ∀ i, i < h1.bincount → h1.storage_.value i = h2.storage_.value i) ∧
    (h1.operator_eq h2 = true ↔
      h1.axes_ = h2.axes_ ∧
        ∀ js, valid_indices h1.axes_ js → h1.value js = h2.value js) ∧
    (axes_type h1.axes_ ≠ axes_type h2.axes_ → h1.operator_eq h2 = false) := by
  have hfirst : h1.operator_eq h2 = true ↔
      h1.axes_ = h2.axes_ ∧
        ∀ i, i < h1.bincount → h1.storage_.value i = h2.storage_.value i := by
    unfold static_histogram.operator_eq
    by_cases hty : axes_type h1.axes_ = axes_type h2.axes_
    · rw [if_pos hty, Bool.and_eq_true, storage_equal_iff]
      simp only [detail.axes_equal, decide_eq_true_eq]
      constructor
      · rintro ⟨hax, _, hv⟩; exact ⟨hax, hv⟩
      · rintro ⟨hax, hv⟩
        refine ⟨hax, ?_, hv⟩
        show h1.storage_.size_ = h2.storage_.size_
        rw [hinv1.2.1, hinv2.2.1, hax]
    · rw [if_neg hty]
      constructor
      · intro hf; exact absurd hf (by decide)
      · rintro ⟨hax, _⟩; exact absurd (by rw [hax]) hty
  refine ⟨hfirst, ?_, fun hty => ?_⟩
  · rw [hfirst]
    constructor
    · rintro ⟨hax, hv⟩; exact ⟨hax, (values_agree_iff h1 h2 hinv1 hax).mp hv⟩
    · rintro ⟨hax, hv⟩; exact ⟨hax, (values_agree_iff h1 h2 hinv1 hax).mpr hv⟩
  · unfold static_histogram.operator_eq
    rw [if_neg hty]

/-- C13, instance: the filled two-axis example equals itself and differs from the fresh one;
a regular-axis histogram and an integer-axis histogram with the same zero storage compare
unequal. -/
theorem operator_eq_iff_witness :
    hist_2d_filled.invariant ∧ hist_2d.invariant ∧
    (hist_2d_filled.operator_eq hist_2d = true ↔
      hist_2d_filled.axes_ = hist_2d.axes_ ∧
        ∀ i, i < hist_2d_filled.bincount →
          hist_2d_filled.storage_.value i = hist_2d.storage_.value i) ∧
    hist_2d_filled.operator_eq hist_2d_filled = true ∧
    hist_2d_filled.operator_eq hist_2d = false ∧
    hist_regular.invariant ∧ hist_integer.invariant ∧
    axes_type hist_regular.axes_ ≠ axes_type hist_integer.axes_ ∧
    hist_regular.storage_ = hist_integer.storage_ ∧
    hist_regular.operator_eq hist_integer = false :=
  ⟨by decide, by decide,
    (operator_eq_iff hist_2d_filled hist_2d (by decide) (by decide)).1,
    by decide, by decide, by decide, by decide, by decide, rfl,
    (operator_eq_iff hist_regular hist_integer (by decide) (by decide)).2.2 (by decide)⟩

/-! ## Lemmas on the odometer of the reduction -/

theorem converting_ctor_spec {S T : Type} [Zero S] [Zero T] (conv : S → T)
    (a : array_storage S) :
    (array_storage.converting_ctor conv a : array_storage T).size_ = a.size_ ∧
    (array_storage.converting_ctor conv a : array_storage T).array_.length = a.size_ ∧
    ∀ i, i < a.size_ →
      (array_storage.converting_ctor conv a : array_storage T).at_ i = conv (a.value i) := by
  obtain ⟨e1, e2, e3⟩ := array_storage.for_upto_put (fun i (_ : T) => conv (a.value i))
    (array_storage.reset a.size : array_storage T).size_ (array_storage.reset a.size)
  have r1 : (array_storage.reset a.size : array_storage T).size_ = a.size_ := rfl
  have r2 : (array_storage.reset a.size : array_storage T).array_.length = a.size_ := by
    simp [array_storage.reset, array_storage.size]
  refine ⟨e1.trans r1, e2.trans r2, fun i hi => ?_⟩
  unfold array_storage.converting_ctor
  rw [e3 i, r1, r2]
  simp [hi]

/-- C21, counterexample: the 32-bit counter array holding 256 assigned to an 8-bit counter
array gives an array that holds 0 at index 0, and the two arrays compare unequal. -/
theorem converting_assign_counterexample :
    storage_256.value 0 = 256 ∧
    ((array_storage.ctor 1 : array_storage (uint 8)).converting_assign (uint.convert 32 8)
      storage_256).value 0 = 0 ∧
    ZMod.val (((array_storage.ctor 1 : array_storage (uint 8)).converting_assign
      (uint.convert 32 8) storage_256).value 0) ≠ ZMod.val (storage_256.value 0) ∧
    detail.storage_equal_uint storage_256
      ((array_storage.ctor 1 : array_storage (uint 8)).converting_assign (uint.convert 32 8)
        storage_256) = false := by
  decide

/-- C21, amended: after the converting assignment `d = a` of a `w`-bit unsigned counter array
to a `v`-bit one, and after the converting construction of `d` from `a`, `d` has the size of
`a` and holds at every index the value of `a` converted to the `v`-bit type, which is that
value reduced modulo `2 ^ v`; when every value of `a` is below `2 ^ v`,
`d.value(i) == a.value(i)` at every index and `a == d`. -/
theorem converting_copy_converts (w v : Nat) (a : array_storage (uint w))
    (d : array_storage (uint v)) :
    (d.converting_assign (uint.convert w v) a).size = a.size ∧
    (∀ i, i < a.size → (d.converting_assign (uint.convert w v) a).value i =
      uint.convert w v (a.value i)) ∧
    (∀ i, i < a.size → ZMod.val ((d.converting_assign (uint.convert w v) a).value i) =
      ZMod.val (a.value i) % 2 ^ v) ∧
    ((∀ i, i < a.size → ZMod.val (a.value i) < 2 ^ v) →
      (∀ i, i < a.size → ZMod.val ((d.converting_assign (uint.convert w v) a).value i) =
        ZMod.val (a.value i)) ∧
      detail.storage_equal_uint a (d.converting_assign (uint.convert w v) a) = true) ∧
    (array_storage.converting_ctor (uint.convert w v) a : array_storage (uint v)) =
      d.converting_assign (uint.convert w v) a := by
  obtain ⟨e1, _, e3⟩ := converting_ctor_spec (uint.convert w v) a
  have hc : d.converting_assign (uint.convert w v) a =
      array_storage.converting_ctor (uint.convert w v) a := rfl
  have hconv : ∀ i, i < a.size → (d.converting_assign (uint.convert w v) a).value i =
      uint.convert w v (a.value i) := by
    intro i hi
    rw [hc]
    simp only [array_storage.value, counter_traits.value] at *
    exact e3 i hi
  have hmod : ∀ i, i < a.size →
      ZMod.val ((d.converting_assign (uint.convert w v) a).value i) =
        ZMod.val (a.value i) % 2 ^ v := by
    intro i hi
    rw [hconv i hi, uint.convert, ZMod.val_natCast]
  refine ⟨by rw [hc]; exact e1, hconv, hmod, fun hfit => ?_, hc.symm⟩
  have hval : ∀ i, i < a.size →
      ZMod.val ((d.converting_assign (uint.convert w v) a).value i) = ZMod.val (a.value i) := by
    intro i hi
    rw [hmod i hi, Nat.mod_eq_of_lt (hfit i hi)]
  refine ⟨hval, ?_⟩
  simp only [detail.storage_equal_uint, Bool.and_eq_true, decide_eq_true_eq, List.all_eq_true,
    List.mem_range]
  exact ⟨by rw [hc]; exact e1.symm, fun i hi => (hval i hi).symm⟩

/-- C21, instance: the 32-bit array holding 1, 256 and 511 assigned to an 8-bit array gives
1, 0 and 255; the array of the test "copy", of size 1 holding 1, gives an 8-bit array that
compares equal. -/
theorem converting_copy_converts_witness :
    ((array_storage.ctor 1 : array_storage (uint 8)).converting_assign (uint.convert 32 8)
      storage_1_256_511).size = 3 ∧
    ((array_storage.ctor 1 : array_storage (uint 8)).converting_assign (uint.convert 32 8)
      storage_1_256_511).array_ = [1, 0, 255] ∧
    ZMod.val (((array_storage.ctor 1 : array_storage (uint 8)).converting_assign
      (uint.convert 32 8) storage_1_256_511).value 2) =
        ZMod.val (storage_1_256_511.value 2) % 2 ^ 8 ∧
    (∀ i, i < storage_one.size → ZMod.val (storage_one.value i) < 2 ^ 8) ∧
    detail.storage_equal_uint storage_one
      ((array_storage.ctor 1 : array_storage (uint 8)).converting_assign (uint.convert 32 8)
        storage_one) = true :=
  ⟨by decide, by decide,
    (converting_copy_converts 32 8 storage_1_256_511 (array_storage.ctor 1)).2.2.1 2
      (by decide),
    by decide,
    ((converting_copy_converts 32 8 storage_one (array_storage.ctor 1)).2.2.2.1
      (by decide)).2⟩

/-! ## Textual rendering: the category axis -/

theorem escape_eq (os s : String) : detail.escape os s = os ++ detail.escape "" s := by
  simp only [detail.escape, String.empty_append]

theorem category_loop_eq : ∀ (rest pre : List String) (acc : String),
    (List.range' pre.length rest.length).foldl
      (fun acc i =>
        detail.escape acc ((pre ++ rest).getD i "") ++
          (if (i : Int) = ((pre ++ rest).length : Int) - 1 then ")" else ", ")) acc =
      acc ++ category_tail rest
  | [], pre, acc => by simp [category_tail]
  | [c], pre, acc => by
    simp only [List.length_singleton, List.range'_one, List.foldl_cons, List.foldl_nil,
      category_tail]
    have hget : (pre ++ [c]).getD pre.length "" = c := by simp
    have hlast : ((pre.length : Nat) : Int) = (((pre ++ [c]).length : Nat) : Int) - 1 := by
      simp
    rw [hget, if_pos hlast, escape_eq acc c, String.append_assoc]
  | c :: d :: cs, pre, acc => by
    have ih := category_loop_eq (d :: cs) (pre ++ [c])
      (detail.escape acc c ++ ", ")
    have hlist : pre ++ [c] ++ d :: cs = pre ++ c :: d :: cs := by simp
    have hlen : (pre ++ [c]).length = pre.length + 1 := by simp
    rw [hlist, hlen] at ih
    have hget : (pre ++ c :: d :: cs).getD pre.length "" = c := by
      rw [List.getD_eq_getElem?_getD, List.getElem?_append_right (Nat.le_refl _)]
      simp
    have hlast : ¬ ((pre.length : Nat) : Int) =
        (((pre ++ c :: d :: cs).length : Nat) : Int) - 1 := by
      simp only [List.length_append, List.length_cons]
      omega
    have hr : List.range' pre.length (c :: d :: cs).length =
        pre.length :: List.range' (pre.length + 1) (d :: cs).length := by
      simp [List.range'_succ]
    rw [hr, List.foldl_cons, hget, if_neg hlast, ih, category_tail, escape_eq acc c]
    simp only [String.append_assoc]

theorem category_tail_eq : ∀ (cs : List String), cs ≠ [] →
    category_tail cs = joined (cs.map (detail.escape "")) ++ ")"
  | [], h => absurd rfl h
  | [c], _ => by simp [category_tail, joined]
  | c :: d :: cs, _ => by
    have ih := category_tail_eq (d :: cs) (by simp)
    simp only [List.map_cons] at ih
    simp only [category_tail, List.map_cons, joined, ih, String.append_assoc]

theorem stream_category_axis_eq (os : String) (categories : List String) :
    stream_category_axis os categories = os ++ "category_axis(" ++ category_tail categories := by
  have h := category_loop_eq categories [] (os ++ "category_axis(")
  simp only [List.length_nil, List.nil_append] at h
  rw [stream_category_axis, List.range_eq_range']
  exact h

/-- The rendering of a category axis with at least one category: `category_axis(`, the escaped
categories in order separated by `", "`, and one closing `)`. -/
theorem render_category_axis_nonempty (f : number_format) (categories : List String)
    (hne : categories ≠ []) :
    (Axis.category_axis categories).render f =
      "category_axis(" ++ joined (categories.map (detail.escape "")) ++ ")" := by
  show stream_category_axis "" categories = _
  rw [stream_category_axis_eq, category_tail_eq categories hne, String.empty_append,
    String.append_assoc]

/-- C22, failing input: the rendering of a category axis without categories is
`category_axis(`: the closing parenthesis, which the loop writes after the last category, is
missing. -/
theorem render_category_axis_empty (f : number_format) :
    (Axis.category_axis []).render f = "category_axis(" ∧
    (Axis.category_axis []).render f ≠
      "category_axis(" ++ joined (([] : List String).map (detail.escape "")) ++ ")" ∧
    ¬ ")".data <:+ ((Axis.category_axis []).render f).data := by
  have h : (Axis.category_axis []).render f = "category_axis(" := rfl
  rw [h]
  exact ⟨rfl, by decide, by decide⟩

/-! ## Textual rendering: label part and flow suffix -/

theorem scan_found (s : List Char) : scan 3 s = 3 := by
  induction s with
  | nil => rfl
  | cons c s ih => simpa [scan, scan_step] using ih

theorem scan_append (q : Nat) (s t : List Char) : scan q (s ++ t) = scan (scan q s) t :=
  List.foldl_append _ _ _ _

theorem scan_of_infix (q : Nat) (s : List Char) (h : [',', ' ', 'l'] <:+: s) :
    scan q s = 3 := by
  obtain ⟨a, b, rfl⟩ := h
  rw [scan_append, scan_append]
  have h3 : scan (scan q a) [',', ' ', 'l'] = 3 := by
    simp only [scan, List.foldl_cons, List.foldl_nil, scan_step]
    by_cases hq : List.foldl scan_step q a = 3
    · simp [hq]
    · simp [hq]
  rw [h3, scan_found]

theorem scan_of_label_infix (q : Nat) (s : List Char) (h : ", label=".data <:+: s) :
    scan q s = 3 :=
  scan_of_infix q s (List.IsInfix.trans (by decide) h)

theorem numeric_char_step (q : Nat) (c : Char) (hq : q ≠ 3) (hc : numeric_char c = true) :
    scan_step q c = 0 := by
  have h1 : c ≠ ',' := by rintro rfl; revert hc; decide
  have h2 : c ≠ ' ' := by rintro rfl; revert hc; decide
  have h3 : c ≠ 'l' := by rintro rfl; revert hc; decide
  simp [scan_step, hq, h1, h2, h3]

theorem scan_numeric_chars : ∀ (s : List Char) (q : Nat), q ≠ 3 → s ≠ [] →
    (∀ c ∈ s, numeric_char c = true) → scan q s = 0
  | [], _, _, hne, _ => absurd rfl hne
  | [c], q, hq, _, hs => by
    simpa [scan] using numeric_char_step q c hq (hs c (by simp))
  | c :: d :: s, q, hq, _, hs => by
    have h0 := numeric_char_step q c hq (hs c (by simp))
    have ih := scan_numeric_chars (d :: s) 0 (by decide) (by simp)
      (fun x hx => hs x (List.mem_cons_of_mem _ hx))
    simp only [scan, List.foldl_cons] at ih ⊢
    rw [h0]
    exact ih

theorem numeric_text_spec (s : String) (h : numeric_text s = true) :
    (∀ q, q ≠ 3 → scan q s.data = 0) ∧ ∃ c, s.data.getLast? = some c ∧ c.isDigit = true := by
  simp only [numeric_text, Bool.and_eq_true, List.all_eq_true] at h
  obtain ⟨hall, hlast⟩ := h
  have hex : ∃ c, s.data.getLast? = some c ∧ c.isDigit = true := by
    cases hl : s.data.getLast? with
    | none => rw [hl] at hlast; exact absurd hlast (by decide)
    | some c => rw [hl] at hlast; exact ⟨c, rfl, hlast⟩
  refine ⟨fun q hq => scan_numeric_chars s.data q hq ?_ hall, hex⟩
  intro hnil
  obtain ⟨c, hc, _⟩ := hex
  rw [hnil] at hc
  exact absurd hc (by simp)
theorem scan_append_number (s t : String) (hs : scan 0 s.data ≠ 3)
    (ht : numeric_text t = true) :
    scan 0 (s ++ t).data = 0 ∧
      ∃ c, (s ++ t).data.getLast? = some c ∧ c.isDigit = true := by
  obtain ⟨h1, c, hc, hd⟩ := numeric_text_spec t ht
  refine ⟨by rw [String.data_append, scan_append]; exact h1 _ hs, c, ?_, hd⟩
  rw [String.data_append, List.getLast?_append, hc]
  rfl

theorem scan_append_comma (s : String) (hs : scan 0 s.data = 0) :
    scan 0 (s ++ ", ").data ≠ 3 := by
  rw [String.data_append, scan_append, hs]
  decide

theorem scan_edges_loop (f : number_format) (hf : f.numeric) (g : Nat → ℚ) :
    ∀ (ks : List Nat) (acc : String), scan 0 acc.data = 0 →
      (∃ c, acc.data.getLast? = some c ∧ c.isDigit = true) →
      scan 0 (ks.foldl (fun acc k => acc ++ ", " ++ f.real (g k)) acc).data = 0 ∧
        ∃ c, (ks.foldl (fun acc k => acc ++ ", " ++ f.real (g k)) acc).data.getLast? = some c ∧
          c.isDigit = true
  | [], acc, h0, hl => ⟨h0, hl⟩
  | k :: ks, acc, h0, _ => by
    obtain ⟨g0, gl⟩ := scan_append_number (acc ++ ", ") (f.real (g k))
      (scan_append_comma acc h0) (hf.2 _)
    exact scan_edges_loop f hf g ks _ g0 gl

/-- The text before the label part holds no `, l` and ends with a digit. -/
theorem head_spec (f : number_format) (hf : f.numeric) (a : Axis)
    (hk : a.kind = axis_kind.regular_axis ∨ a.kind = axis_kind.variable_axis ∨
      a.kind = axis_kind.integer_axis) :
    scan 0 (a.head f).data = 0 ∧
      ∃ c, (a.head f).data.getLast? = some c ∧ c.isDigit = true := by
  cases a with
  | regular_axis n lo hi l u =>
    obtain ⟨g1, _⟩ := scan_append_number "regular_axis(" (f.int n) (by decide) (hf.1 _)
    obtain ⟨g2, _⟩ := scan_append_number _ (f.real lo) (scan_append_comma _ g1) (hf.2 _)
    exact scan_append_number _ (f.real hi) (scan_append_comma _ g2) (hf.2 _)
  | polar_axis n start l => simp [Axis.kind] at hk
  | variable_axis edges l u =>
    obtain ⟨g1, gl⟩ := scan_append_number "variable_axis(" (f.real (edges.getD 0 0))
      (by decide) (hf.2 _)
    exact scan_edges_loop f hf (fun k => edges.getD (k + 1) 0) _ _ g1 gl
  | integer_axis lo hi l u =>
    obtain ⟨g1, _⟩ := scan_append_number "integer_axis(" (f.int lo) (by decide) (hf.1 _)
    exact scan_append_number _ (f.int _) (scan_append_comma _ g1) (hf.1 _)
  | category_axis cs => simp [Axis.kind] at hk

/-- The rendering of a regular, variable or integer axis: the head, the label part, the end. -/
theorem render_eq (f : number_format) (a : Axis)
    (hk : a.kind = axis_kind.regular_axis ∨ a.kind = axis_kind.variable_axis ∨
      a.kind = axis_kind.integer_axis) :
    a.render f = a.head f ++ label_part a.label ++ uoflow_part a.uoflow := by
  have key : ∀ (h l : String) (u : Bool),
      (if ¬ u = true then
          (if ¬ detail.empty l = true then detail.escape ("" ++ h ++ ", label=") l
            else "" ++ h) ++ ", uoflow=False"
        else
          (if ¬ detail.empty l = true then detail.escape ("" ++ h ++ ", label=") l
            else "" ++ h)) ++ ")" = h ++ label_part l ++ uoflow_part u := by
    intro h l u
    by_cases hl : l = ""
    · cases u <;> simp [detail.empty, hl, label_part, uoflow_part, String.append_assoc]
    · cases u <;>
        simp [detail.empty, hl, label_part, uoflow_part, String.append_assoc,
          escape_eq (h ++ ", label=") l, escape_eq ", label=" l]
  cases a with
  | regular_axis n lo hi l u =>
    have := key (Axis.head f (Axis.regular_axis n lo hi l u)) l u
    simpa only [Axis.render, Axis.stream, stream_regular_axis, Axis.head, Axis.label,
      Axis.uoflow, String.append_assoc, String.empty_append] using this
  | polar_axis n start l => simp [Axis.kind] at hk
  | variable_axis edges l u =>
    have := key (Axis.head f (Axis.variable_axis edges l u)) l u
    simpa only [Axis.render, Axis.stream, stream_variable_axis, Axis.head, Axis.label,
      Axis.uoflow, String.append_assoc, String.empty_append] using this
  | integer_axis lo hi l u =>
    have := key (Axis.head f (Axis.integer_axis lo hi l u)) l u
    simpa only [Axis.render, Axis.stream, stream_integer_axis, Axis.head, Axis.label,
      Axis.uoflow, String.append_assoc, String.empty_append] using this
  | category_axis cs => simp [Axis.kind] at hk
theorem digitChar_isDigit (d : Nat) (h : d < 10) : (Nat.digitChar d).isDigit = true := by
  interval_cases d <;> decide

theorem decimal_digits_spec : ∀ (fuel n : Nat),
    (∀ c ∈ decimal_digits fuel n, c.isDigit = true) ∧
      ∃ c, (decimal_digits fuel n).getLast? = some c ∧ c.isDigit = true
  | 0, n => by
    have h := digitChar_isDigit (n % 10) (Nat.mod_lt _ (by decide))
    simp [decimal_digits, h]
  | fuel + 1, n => by
    by_cases hn : n < 10
    · have h := digitChar_isDigit n hn
      simp [decimal_digits, hn, h]
    · have h := digitChar_isDigit (n % 10) (Nat.mod_lt _ (by decide))
      obtain ⟨ih, _⟩ := decimal_digits_spec fuel (n / 10)
      simp only [decimal_digits, hn, if_false, List.mem_append, List.mem_singleton]
      refine ⟨fun c hc => ?_, Nat.digitChar (n % 10), by simp, h⟩
      rcases hc with hc | hc
      · exact ih c hc
      · rw [hc]; exact h

theorem decimal_numeric (z : Int) : numeric_text (decimal z) = true := by
  obtain ⟨hall, c, hc, hd⟩ := decimal_digits_spec z.natAbs z.natAbs
  have hnum : ∀ x ∈ decimal_digits z.natAbs z.natAbs, numeric_char x = true := by
    intro x hx
    simp [numeric_char, hall x hx]
  have hne : decimal_digits z.natAbs z.natAbs ≠ [] := by
    intro h0; rw [h0] at hc; exact absurd hc (by simp)
  simp only [numeric_text, decimal, Bool.and_eq_true, List.all_eq_true]
  by_cases hz : z < 0
  · simp only [hz, if_true]
    refine ⟨fun x hx => ?_, ?_⟩
    · rcases List.mem_cons.mp hx with hx | hx
      · rw [hx]; decide
      · exact hnum x hx
    · have hcons : ('-' :: decimal_digits z.natAbs z.natAbs).getLast? =
          (decimal_digits z.natAbs z.natAbs).getLast? :=
        List.getLast?_append_of_ne_nil ['-'] hne
      rw [hcons, hc]
      exact hd
  · simp only [hz, if_false]
    exact ⟨hnum, by rw [hc]; exact hd⟩

theorem decimal_format_numeric : decimal_format.numeric :=
  ⟨decimal_numeric, fun _ => decimal_numeric _⟩

theorem head_label_last (f : number_format) (hf : f.numeric) (a : Axis)
    (hk : a.kind = axis_kind.regular_axis ∨ a.kind = axis_kind.variable_axis ∨
      a.kind = axis_kind.integer_axis) :
    ∃ c, (a.head f ++ label_part a.label).data.getLast? = some c ∧ c ≠ 'e' := by
  obtain ⟨_, c, hc, hd⟩ := head_spec f hf a hk
  by_cases hl : a.label = ""
  · refine ⟨c, ?_, ?_⟩
    · simp only [label_part, hl, if_true, String.append_empty]
      exact hc
    · rintro rfl; revert hd; decide
  · refine ⟨detail.quote, ?_, by decide⟩
    simp only [label_part, hl, if_false, detail.escape, String.data_append]
    have hq : (detail.quote :: (detail.escape_chars a.label.data ++ [detail.quote])).getLast? =
        some detail.quote :=
      List.getLast?_append_of_ne_nil (detail.quote :: detail.escape_chars a.label.data)
        (List.cons_ne_nil _ _)
    rw [List.getLast?_append, List.getLast?_append, hq]
    rfl

/-- C23: the rendering of a regular, variable or integer axis (with numbers written as
numeric texts) ends with `, uoflow=False)` if and only if flow bins are disabled for the
axis; it holds the text `, label=` if and only if the label is not empty; and when the label
is not empty the rendering is a head without `, label=`, then `, label=` and the escaped
label, then directly the flow suffix `, uoflow=False)` or, with flow bins, the closing
parenthesis, so the label part precedes the flow suffix. -/
theorem render_label_and_uoflow (f : number_format) (a : Axis) (hf : f.numeric)
    (hk : a.kind = axis_kind.regular_axis ∨ a.kind = axis_kind.variable_axis ∨
      a.kind = axis_kind.integer_axis) :
    (", uoflow=False)".data <:+ (a.render f).data ↔ a.uoflow = false) ∧
    (", label=".data <:+: (a.render f).data ↔ a.label ≠ "") ∧
    (a.label ≠ "" → ∃ head : String, ¬ ", label=".data <:+: head.data ∧
      a.render f = detail.escape (head ++ ", label=") a.label ++
        (if a.uoflow = true then ")" else ", uoflow=False)")) := by
  have hr := render_eq f a hk
  obtain ⟨h0, _⟩ := head_spec f hf a hk
  have hhead : ¬ ", label=".data <:+: (a.head f).data := by
    intro hin
    have := scan_of_label_infix 0 _ hin
    rw [h0] at this
    exact absurd this (by decide)
  refine ⟨?_, ?_, fun hl => ⟨a.head f, hhead, ?_⟩⟩
  · cases hu : a.uoflow with
    | false =>
      refine ⟨fun _ => rfl, fun _ => ?_⟩
      rw [hr, hu, String.data_append]
      exact List.suffix_append _ _
    | true =>
      refine ⟨fun hsuf => ?_, fun hfalse => absurd hfalse (by decide)⟩
      obtain ⟨c, hc, hce⟩ := head_label_last f hf a hk
      rw [hr, hu, String.data_append] at hsuf
      obtain ⟨t, ht⟩ := hsuf
      have hsplit : ", uoflow=False)".data = ", uoflow=False".data ++ [')'] := by decide
      have hend : (uoflow_part true).data = [')'] := by decide
      rw [hsplit, hend, ← List.append_assoc] at ht
      have hY := List.append_cancel_right ht
      rw [← hY, List.getLast?_append] at hc
      have he : ", uoflow=False".data.getLast? = some 'e' := by decide
      rw [he] at hc
      simp only [Option.or_some, Option.some.injEq] at hc
      exact absurd hc.symm hce
  · constructor
    · intro hin hl
      have h3 := scan_of_label_infix 0 _ hin
      rw [hr, String.data_append, String.data_append, scan_append, scan_append, h0] at h3
      simp only [label_part, hl, if_true] at h3
      cases hu : a.uoflow <;> rw [hu] at h3 <;> exact absurd h3 (by decide)
    · intro hl
      rw [hr]
      simp only [label_part, hl, if_false, detail.escape, String.data_append]
      exact ⟨(a.head f).data,
        (detail.quote :: (detail.escape_chars a.label.data ++ [detail.quote])) ++
          (uoflow_part a.uoflow).data, by simp [List.append_assoc]⟩
  · rw [hr, escape_eq (a.head f ++ ", label=") a.label]
    simp only [label_part, hl, if_false, escape_eq ", label=" a.label, uoflow_part,
      String.append_assoc]

/-- C23, instance: the integer axis from 0 to 2 with the label `x` and without flow bins is
rendered as `integer_axis(0, 2, label=` + quoted `x` + `, uoflow=False)`: the rendering ends
with the flow suffix and holds the label part. -/
theorem render_label_and_uoflow_witness :
    decimal_format.numeric ∧
    (Axis.integer_axis 0 2 "x" false).render decimal_format =
      "integer_axis(0, 2, label=" ++ String.mk [detail.quote, 'x', detail.quote] ++
        ", uoflow=False)" ∧
    (Axis.integer_axis 0 2 "" true).render decimal_format = "integer_axis(0, 2)" ∧
    ", uoflow=False)".data <:+ ((Axis.integer_axis 0 2 "x" false).render decimal_format).data ∧
    ", label=".data <:+: ((Axis.integer_axis 0 2 "x" false).render decimal_format).data :=
  ⟨decimal_format_numeric, by decide, by decide,
    (render_label_and_uoflow decimal_format (Axis.integer_axis 0 2 "x" false)
      decimal_format_numeric (by decide)).1.mpr (by decide),
    (render_label_and_uoflow decimal_format (Axis.integer_axis 0 2 "x" false)
      decimal_format_numeric (by decide)).2.1.mpr (by decide)⟩

end histogram
